import Mathlib

/-!
# taoxml: a shallow embedding of the scanner, parser, tree model and traversal

Source: `src/source.cpp`.  Characters are Lean `Char`s standing for the bytes of
a C string; a C string is a `List Char` and reading at its end yields `NUL`.
The read pointer `_p` is the list of characters that remain to be read.
Loops are structural recursions on a fuel argument which the caller sets from
the length of the remaining input.
-/

namespace taoxml

/-! ## Characters and strings -/

/-- The terminating NUL byte of a C string. -/
def NUL : Char := Char.ofNat 0

/-- The single quote character (byte 39). -/
def SQUOTE : Char := Char.ofNat 39

/-- The double quote character (byte 34). -/
def DQUOTE : Char := Char.ofNat 34

/-- Dereference of a `const char*`: the first remaining character, `NUL` at the end. -/
def cur (p : List Char) : Char := p.headD NUL

/-- Indexed read `p[i]` of a `const char*`. -/
def peek (p : List Char) (i : Nat) : Char := cur (p.drop i)

/-- The comparison `strncmp(s, name, len) == 0` for a NUL-free `name`. -/
def strncmp_eq (s name : List Char) (len : Nat) : Bool := s.take len == name.take len

/-- The order `std::less<std::string>`: lexicographic on byte values, a proper
prefix being smaller. -/
def string_less : List Char → List Char → Bool
  | [], [] => false
  | [], _ :: _ => true
  | _ :: _, [] => false
  | a :: as, b :: bs =>
    if a.toNat < b.toNat then true
    else if b.toNat < a.toNat then false
    else string_less as bs

/-! ## Enumerations (source lines 7-38) -/

/-- Scanner tokens, `enum class token`; `open_` is the source's `open`. -/
inductive token where
  | error
  | open_
  | open2
  | close
  | close2
  | close3
  | space
  | text
  | attr
  | assign
  | value
  deriving DecidableEq

/-- Kinds of field read by `_read_token`. -/
inductive read_type where
  | text
  | ws
  | tk
  deriving DecidableEq

/-- Node kinds. -/
inductive node_type where
  | node
  | text
  deriving DecidableEq

/-- Scanner contexts. -/
inductive start_condition where
  | initial
  | in_tag
  deriving DecidableEq

/-! ## Tree model (source lines 44-211) -/

/-- The attribute container `std::map<std::string, std::string>`: its entries in
ascending key order. -/
abbrev attr_t := List (List Char × List Char)

/-- The assignment `m[key] = val` on a `std::map`: overwrite the entry with an
equivalent key, else insert at the position that keeps the keys ascending. -/
def map_assign : attr_t → List Char → List Char → attr_t
  | [], key, val => [(key, val)]
  | (k, v) :: rest, key, val =>
    if string_less key k then (key, val) :: (k, v) :: rest
    else if string_less k key then (k, v) :: map_assign rest key val
    else (k, val) :: rest

/-- Class `text_node_t`: a text node and its value. -/
structure text_node_t where
  _value : List Char
  deriving DecidableEq

/-- Class `node_node_t`, an element, over the type of its child nodes.  The three
back-links are raw pointers in the source and are modelled as optional addresses. -/
structure node_node_t (child : Type) where
  _prev : Option Nat
  _next : Option Nat
  _parent : Option Nat
  _children : List child
  _cindex : Int
  _attrs : attr_t
  _tag : List Char
  _search : List Char

/-- Class `node_base_t` with its two subclasses: an element or a text node. -/
inductive node_base_t where
  | node (n : node_node_t node_base_t)
  | text (t : text_node_t)

/-- An element whose children are nodes: the instance of `node_node_t` the program uses. -/
abbrev element := node_node_t node_base_t

/-- Accessor `node_base_t::type`. -/
def node_base_t.type : node_base_t → node_type
  | .node _ => node_type.node
  | .text _ => node_type.text

/-- Down-cast `to_node`: null on a text node. -/
def node_base_t.to_node : node_base_t → Option element
  | .node n => some n
  | .text _ => none

/-- Down-cast `to_text`: null on an element. -/
def node_base_t.to_text : node_base_t → Option text_node_t
  | .node _ => none
  | .text t => some t

/-- Constructor `node_node_t()`: null links, cursor -1, everything else empty. -/
def node_node_t.ctor : element :=
  { _prev := none, _next := none, _parent := none, _children := [], _cindex := -1,
    _attrs := [], _tag := [], _search := [] }

/-- Setter `set_tag`. -/
def node_node_t.set_tag (e : element) (tag : List Char) : element :=
  { e with _tag := tag }

/-- Getter `tag`. -/
def node_node_t.tag (e : element) : List Char := e._tag

/-- Method `add_attr`: `_attrs[key] = val`. -/
def node_node_t.add_attr (e : element) (key val : List Char) : element :=
  { e with _attrs := map_assign e._attrs key val }

/-- Method `size_attr`. -/
def node_node_t.size_attr (e : element) : Nat := e._attrs.length

/-- The post-increment `ai++` of a map iterator (a position in key order): the
value of the expression and the iterator afterwards. -/
def iter_post_inc (ai : Nat) : Nat × Nat := (ai, ai + 1)

/-- The assignment `ai = value` to an iterator variable: whatever the variable
held, it holds `value` afterwards. -/
def iter_assign (_variable value : Nat) : Nat := value

/-- The loop `for(; x < i;) { ai = ai++; x++; }` of `attr`, run for the `i - x`
remaining rounds.  In `ai = ai++` the operand `ai++` is evaluated first (it
increments the variable and yields the old position), then the variable is
assigned that value. -/
def attr_loop : Nat → Nat → Nat
  | 0, ai => ai
  | k + 1, ai =>
    let r := iter_post_inc ai
    attr_loop k (iter_assign r.2 r.1)

/-- Method `attr(i)`: an iterator into `_attrs`, as a position; `cend()` is the size. -/
def node_node_t.attr (e : element) (i : Int) : Nat :=
  if 0 ≤ i ∧ i < (e.size_attr : Int) then attr_loop i.toNat 0
  else e._attrs.length

/-- Dereference of an attribute iterator; `none` at `cend()`. -/
def node_node_t.attr_deref (e : element) (ai : Nat) : Option (List Char × List Char) :=
  e._attrs.get? ai

/-- Method `add_child`. -/
def node_node_t.add_child (e : element) (node : node_base_t) : element :=
  { e with _children := e._children ++ [node] }

/-- Getter `parent`. -/
def node_node_t.parent (e : element) : Option Nat := e._parent

/-- Getter `big`: the previous sibling link. -/
def node_node_t.big (e : element) : Option Nat := e._prev

/-- Getter `little`: the next sibling link. -/
def node_node_t.little (e : element) : Option Nat := e._next

/-- Method `size`: the number of children. -/
def node_node_t.size (e : element) : Nat := e._children.length

/-- Method `select`: record the filter and put the cursor before the first child. -/
def node_node_t.select (e : element) (tag : List Char) : element :=
  { e with _search := tag, _cindex := -1 }

/-- The test in the loops of `next` and `prev`: the filter is empty, or the child
is an element whose tag equals the filter. -/
def child_matches (search : List Char) (c : node_base_t) : Bool :=
  search.length == 0 ||
    (c.type == node_type.node &&
      (match c.to_node with
       | some n => n.tag == search
       | none => false))

/-- The loop of `next` over the children from index `i` on: the first index and
child that pass the test. -/
def next_scan (search : List Char) : List node_base_t → Int → Option (Int × node_base_t)
  | [], _ => none
  | c :: cs, i =>
    if child_matches search c then some (i, c) else next_scan search cs (i + 1)

/-- Method `next`: the returned child (null when none) and the element afterwards.
The loop starts at index `_cindex + 1`; the cursor is only ever written by the
constructor, `select`, `next` and `prev`, so it is never below -1. -/
def node_node_t.next (e : element) : Option node_base_t × element :=
  match next_scan e._search (e._children.drop (e._cindex + 1).toNat) (e._cindex + 1) with
  | some (i, c) => (some c, { e with _cindex := i })
  | none => (none, e)

/-- The loop of `prev` over the indices below `k`, downwards. -/
def prev_scan (search : List Char) (cs : List node_base_t) : Nat → Option (Int × node_base_t)
  | 0 => none
  | k + 1 =>
    match cs.get? k with
    | some c => if child_matches search c then some ((k : Int), c) else prev_scan search cs k
    | none => none

/-- Method `prev`: the returned child (null when none) and the element afterwards.
The loop runs over the indices `_cindex - 1` down to 0. -/
def node_node_t.prev (e : element) : Option node_base_t × element :=
  match prev_scan e._search e._children e._cindex.toNat with
  | some (i, c) => (some c, { e with _cindex := i })
  | none => (none, e)

/-! ## Find-chain (source lines 213-256) -/

/-- Class `find_node_t`: a possibly-null node. -/
structure find_node_t where
  _base : Option node_base_t

/-- The `operator[]` of `find_node_t`: the chain it returns, and the wrapped node
after the call (its cursor and filter are written by `select` and `next`). -/
def find_node_t.subscript (f : find_node_t) (tag : List Char) : find_node_t × find_node_t :=
  match f._base with
  | some (.node n) =>
    let r := (n.select tag).next
    (⟨r.1⟩, ⟨some (.node r.2)⟩)
  | _ => (⟨none⟩, f)

/-- The conversion `operator bool`. -/
def find_node_t.to_bool (f : find_node_t) : Bool := f._base.isSome

/-- Method `find_node_t::to_node`. -/
def find_node_t.to_node (f : find_node_t) : Option element :=
  match f._base with
  | some b => b.to_node
  | none => none

/-- Method `find_node_t::to_text`: the first child of the wrapped element, as text. -/
def find_node_t.to_text (f : find_node_t) : Option text_node_t :=
  match f._base with
  | some b =>
    match b.to_node with
    | some n =>
      match ((n.select []).next).1 with
      | some nx => nx.to_text
      | none => none
    | none => none
  | none => none

/-! ## Scanner (source lines 352-555) -/

/-- Class `taoxml_t`: the document root, the read pointer and the current token
text.  The members `_xml`, `_line` and `_char` are written once by `parse` and
never read, and are left out. -/
structure taoxml_t where
  _root : element
  _p : List Char
  _tk : List Char

/-- Constructor `taoxml_t()`: a fresh root and an empty token text. -/
def taoxml_t.ctor : taoxml_t := { _root := node_node_t.ctor, _p := [], _tk := [] }

/-- Method `root`. -/
def taoxml_t.root (s : taoxml_t) : element := s._root

/-- The test of `_is_alnum` on a character. -/
def is_alnum_char (c : Char) : Bool :=
  ('a' ≤ c && c ≤ 'z') || ('A' ≤ c && c ≤ 'Z') || ('0' ≤ c && c ≤ '9')

/-- The test of `_is_text` on a character. -/
def is_text_char (c : Char) : Bool := c != NUL && c != '<' && c != '>'

/-- The test of `_is_ws` on a character. -/
def is_ws_char (c : Char) : Bool := c == ' ' || c == '\n' || c == '\t' || c == '\r'

/-- Method `_is_alnum`. -/
def taoxml_t._is_alnum (s : taoxml_t) : Bool := is_alnum_char (cur s._p)

/-- Method `_is_text`. -/
def taoxml_t._is_text (s : taoxml_t) : Bool := is_text_char (cur s._p)

/-- Method `_is_ws`. -/
def taoxml_t._is_ws (s : taoxml_t) : Bool := is_ws_char (cur s._p)

/-- Method `_is_empty`: skip whitespace in `_tk.c_str()` and test for its NUL. -/
def taoxml_t._is_empty (s : taoxml_t) : Bool := cur (s._tk.dropWhile is_ws_char) == NUL

/-- Method `_valid_ptr`: optionally step the pointer, then test for a non-NUL character. -/
def taoxml_t._valid_ptr (s : taoxml_t) (inc : Bool) : Bool × taoxml_t :=
  let s1 : taoxml_t := if inc then { s with _p := s._p.tail } else s
  (cur s1._p != NUL, s1)

/-- The table `entities` of `_read_entity`: name and replacement, in source order. -/
def entities : List (List Char × List Char) :=
  [ (['n', 'b', 's', 'p'], [' ']),
    (['q', 'u', 'o', 't'], [DQUOTE]),
    (['#', '3', '4'], [DQUOTE]),
    (['a', 'p', 'o', 's'], [SQUOTE]),
    (['#', '3', '9'], [SQUOTE]),
    (['l', 't'], ['<']),
    (['g', 't'], ['>']),
    (['a', 'm', 'p'], ['&']) ]

/-- The table loop of `_read_entity`: the first entry whose name follows the `&`
at `p` and is itself followed by `;`. -/
def entity_find (p : List Char) : List (List Char × List Char) → Option (List Char × List Char)
  | [] => none
  | (name, got) :: rest =>
    if peek p 1 == cur name && strncmp_eq (p.drop 1) name name.length
        && peek p (name.length + 1) == ';' then some (name, got)
    else entity_find p rest

/-- Method `_read_entity`. -/
def taoxml_t._read_entity (s : taoxml_t) : Bool × taoxml_t :=
  if cur s._p != '&' then (false, s)
  else
    match entity_find s._p entities with
    | some (name, got) =>
      (true, { s with _tk := s._tk ++ got, _p := s._p.drop (name.length + 1 + 1) })
    | none => (true, { s with _tk := s._tk ++ ['&'], _p := s._p.tail })

/-- The accumulation loop shared by `_read_token` and by the attribute-value
branch of `_token`: while the current character passes `func`, decode an entity
at `&` and copy any other character, counting the rounds in `n`.  The result is
`none` when `_read_entity` fails.  The fuel is the length of the remaining input. -/
def accumulate (func : Char → Bool) : Nat → taoxml_t → Nat → Option Nat × taoxml_t
  | 0, s, n => (some n, s)
  | fuel + 1, s, n =>
    if func (cur s._p) then
      if cur s._p == '&' then
        let r := s._read_entity
        if r.1 then accumulate func fuel r.2 (n + 1) else (none, r.2)
      else
        accumulate func fuel { s with _tk := s._tk ++ [cur s._p], _p := s._p.tail } (n + 1)
    else (some n, s)

/-- The predicate chosen by the `switch` of `_read_token`. -/
def read_func : read_type → Char → Bool
  | read_type.text => is_text_char
  | read_type.tk => is_alnum_char
  | read_type.ws => is_ws_char

/-- Method `_read_token`: the number of rounds (0 on failure) and the scanner afterwards. -/
def taoxml_t._read_token (s : taoxml_t) (type : read_type) : Nat × taoxml_t :=
  let s0 : taoxml_t := { s with _tk := [] }
  let r := accumulate (read_func type) s0._p.length s0 0
  match r.1 with
  | some n => (n, r.2)
  | none => (0, r.2)

/-- The loop condition `*_p && *_p != c` of the attribute-value scan of `_token`,
for the opening quote `c`. -/
def value_func (c : Char) : Char → Bool := fun x => x != NUL && x != c

/-- Method `_token`: the token and the scanner afterwards. -/
def taoxml_t._token (s : taoxml_t) (cond : start_condition) : token × taoxml_t :=
  match cond with
  | start_condition.initial =>
    if cur s._p == '<' then
      let v := s._valid_ptr true
      if !v.1 then (token.error, v.2)
      else if v.2._is_alnum then
        let r := v.2._read_token read_type.tk
        if r.1 == 0 then (token.error, r.2) else (token.open_, r.2)
      else if cur v.2._p == '/' then
        let v2 := v.2._valid_ptr true
        if !v2.1 then (token.error, v2.2)
        else
          let r := v2.2._read_token read_type.tk
          if r.1 == 0 then (token.error, r.2)
          else
            let v3 := r.2._valid_ptr false
            if !v3.1 then (token.error, v3.2)
            else
              let c := cur v3.2._p
              let s1 : taoxml_t := { v3.2 with _p := v3.2._p.tail }
              if c != '>' then (token.error, s1) else (token.close, s1)
      else (token.error, v.2)
    else if s._is_text then
      let r := s._read_token read_type.text
      if r.1 == 0 then (token.error, r.2) else (token.text, r.2)
    else (token.error, s)
  | start_condition.in_tag =>
    if s._is_ws then
      let r := s._read_token read_type.ws
      if r.1 == 0 then (token.error, r.2) else (token.space, r.2)
    else if s._is_alnum then
      let r := s._read_token read_type.tk
      if r.1 == 0 then (token.error, r.2) else (token.attr, r.2)
    else if cur s._p == '=' then (token.assign, { s with _p := s._p.tail })
    else if cur s._p == SQUOTE || cur s._p == DQUOTE then
      let c := cur s._p
      let s1 : taoxml_t := { s with _p := s._p.tail, _tk := [] }
      let r := accumulate (value_func c) s1._p.length s1 0
      match r.1 with
      | none => (token.error, r.2)
      | some _ =>
        if cur r.2._p != c then (token.error, r.2)
        else (token.value, { r.2 with _p := r.2._p.tail })
    else if cur s._p == '/' then
      let s1 : taoxml_t := { s with _p := s._p.tail }
      if cur s1._p != '>' then (token.error, s1)
      else (token.close2, { s1 with _p := s1._p.tail })
    else if cur s._p == '>' then (token.open2, { s with _p := s._p.tail })
    else (token.error, s)

/-! ## Parser (source lines 267-350) -/

/-- The two statements `tk = _token(in_tag); if(tk == space) tk = _token(in_tag);`
that precede each test in the attribute loop. -/
def taoxml_t._token_past_space (s : taoxml_t) : token × taoxml_t :=
  let r := s._token start_condition.in_tag
  if r.1 == token.space then r.2._token start_condition.in_tag else r

/-- The attribute loop of `_parse_node`.  The result is `none` when the loop body
executes `return token::error`, else the token that ended the loop and the
element built so far. -/
def taoxml_t._parse_attrs : Nat → element → taoxml_t → Option (token × element) × taoxml_t
  | 0, _, s => (none, s)
  | fuel + 1, newnode, s =>
    let r := s._token start_condition.in_tag
    if r.1 == token.space then _parse_attrs fuel newnode r.2
    else if r.1 == token.attr then
      let key := r.2._tk
      let a := r.2._token_past_space
      if a.1 != token.assign then (none, a.2)
      else
        let v := a.2._token_past_space
        if v.1 != token.value then (none, v.2)
        else _parse_attrs fuel (newnode.add_attr key v.2._tk) v.2
    else (some (r.1, newnode), r.2)

/-- The child loop of `_parse_node`, over the recursive call `pn`: the token that
ended the loop, the element with the children added, the last value of `cnode`
and the scanner. -/
def parse_children (pn : taoxml_t → Option node_base_t → token × Option node_base_t × taoxml_t) :
    Nat → element → Option node_base_t → taoxml_t →
      token × element × Option node_base_t × taoxml_t
  | 0, newnode, cnode, s => (token.error, newnode, cnode, s)
  | fuel + 1, newnode, cnode, s =>
    let r := pn s cnode
    if r.1 != token.close3 && r.1 != token.error then
      parse_children pn fuel
        (match r.2.1 with
         | some c => newnode.add_child c
         | none => newnode)
        r.2.1 r.2.2
    else (r.1, newnode, r.2.1, r.2.2)

/-- Method `_parse_node`, with the out-parameter `*node` passed in and returned:
the token, the value of `*node` afterwards and the scanner.  The first argument
bounds the depth of recursion. -/
def taoxml_t._parse_node : Nat → taoxml_t → Option node_base_t →
    token × Option node_base_t × taoxml_t
  | 0, s, node => (token.error, node, s)
  | depth + 1, s, node =>
    let r := s._token start_condition.initial
    if r.1 == token.close then (token.close3, node, r.2)
    else if r.1 == token.open_ then
      let a := _parse_attrs (r.2._p.length + 1) (node_node_t.ctor.set_tag r.2._tk) r.2
      match a.1 with
      | none => (token.error, node, a.2)
      | some (tk, newnode) =>
        if tk == token.close2 then (token.close2, some (node_base_t.node newnode), a.2)
        else if tk == token.open2 then
          let c := parse_children (_parse_node depth) (a.2._p.length + 1) newnode none a.2
          if c.1 == token.close3 then
            (token.close, some (node_base_t.node c.2.1), c.2.2.2)
          else (token.error, node, c.2.2.2)
        else (token.error, node, a.2)
    else if r.1 == token.text then
      if !r.2._is_empty then (token.close2, some (node_base_t.text ⟨r.2._tk⟩), r.2)
      else (token.close2, none, r.2)
    else (token.error, node, r.2)

/-- The loop of `parse`: call `_parse_node` while it returns `close` or `close2`,
attaching element results to the root. -/
def parse_loop (depth : Nat) : Nat → taoxml_t → Option node_base_t →
    token × Option node_base_t × taoxml_t
  | 0, s, node => (token.error, node, s)
  | fuel + 1, s, node =>
    let r := s._parse_node depth node
    if r.1 == token.close || r.1 == token.close2 then
      let s1 : taoxml_t :=
        match r.2.1 with
        | some n =>
          if n.type == node_type.node then { r.2.2 with _root := r.2.2._root.add_child n }
          else r.2.2
        | none => r.2.2
      parse_loop depth fuel s1 r.2.1
    else r

/-- Method `parse`: the returned flag and the parser afterwards. -/
def taoxml_t.parse (s : taoxml_t) (xml : List Char) : Bool × taoxml_t :=
  let s0 : taoxml_t := { s with _p := xml }
  (true, (parse_loop (xml.length + 1) (xml.length + 1) s0 none).2.2)


/-! ## Reference definitions written from the specification -/

/-- The entity table of the specification (section 4.2): the characters that
follow `&`, terminating `;` included, and the character they stand for. -/
def ref_entities : List (List Char × Char) :=
  [ (['n', 'b', 's', 'p', ';'], ' '),
    (['q', 'u', 'o', 't', ';'], DQUOTE),
    (['#', '3', '4', ';'], DQUOTE),
    (['a', 'p', 'o', 's', ';'], SQUOTE),
    (['#', '3', '9', ';'], SQUOTE),
    (['l', 't', ';'], '<'),
    (['g', 't', ';'], '>'),
    (['a', 'm', 'p', ';'], '&') ]

/-- The entity of the specification that starts the text following an `&`, if any. -/
def ref_lookup (rest : List Char) : Option (List Char × Char) :=
  ref_entities.find? (fun e => e.1.isPrefixOf rest)

/-- Reference entity decoding, left to right: a recognised `&name;` becomes its
character and is skipped whole, any other `&` and any other character is
copied. -/
def decode_fuel : Nat → List Char → List Char
  | 0, _ => []
  | _ + 1, [] => []
  | fuel + 1, c :: rest =>
    if c = '&' then
      match ref_lookup rest with
      | some (name, ch) => ch :: decode_fuel fuel (rest.drop name.length)
      | none => '&' :: decode_fuel fuel rest
    else c :: decode_fuel fuel rest

/-- Reference entity decoding of a run of characters. -/
def decode_ref (t : List Char) : List Char := decode_fuel t.length t

/-! ## Harnesses for sequences of calls, and reference predicates -/

/-- The results of `k` successive calls of `next` on an element, in call order,
and the element after the last call. -/
def next_times : Nat → element → List (Option node_base_t) × element
  | 0, e => ([], e)
  | k + 1, e =>
    let r := e.next
    let rs := next_times k r.2
    (r.1 :: rs.1, rs.2)

/-- Reference predicate of the specification (section 4.5): the child is an
Element whose tag equals `t`. -/
def is_element_tagged (t : List Char) : node_base_t → Bool
  | .node n => n._tag == t
  | .text _ => false

/-- A chain of subscripts `f[t1][t2]...` on a find-chain, left to right. -/
def find_chain (f : find_node_t) (tags : List (List Char)) : find_node_t :=
  tags.foldl (fun g t => (g.subscript t).1) f

/-- The demo document of `main2`. -/
def demo_xml : List Char :=
  ("\n<html>\n    <head>\n        <meta charset=\"UTF-8\" />\n" ++
   "        <style type=\"text/css\"></style>\n    </head>\n    <body>\n" ++
   "        <img id=\"abc\"/>\n" ++
   "        <div class=\"content\" data=\"1 &lt;&lt; 20\">\n" ++
   "            <span>a &lt; b &gt; c &amp; d &unknown e &#34; f &apos;</span>\n" ++
   "        </div>\n    </body>\n</html>\n").toList

/-- An attribute as it is written in a tag header: whitespace, the key, optional
whitespace on either side of `=`, and the raw value between two equal quotes. -/
structure attr_src where
  lead : List Char
  key : List Char
  pre : List Char
  post : List Char
  quote : Char
  raw : List Char

/-- The characters of a written attribute, followed by `rest`. -/
def attr_src.text_then (a : attr_src) (rest : List Char) : List Char :=
  a.lead ++ (a.key ++ (a.pre ++ '=' :: (a.post ++ a.quote :: (a.raw ++ a.quote :: rest))))

/-- Well-formedness of a written attribute: non-empty leading whitespace, a
non-empty alphanumeric key, whitespace only around `=`, a single or double quote,
and a raw value that contains neither that quote nor NUL. -/
def attr_src.well_formed (a : attr_src) : Prop :=
  a.lead ≠ [] ∧ (∀ c ∈ a.lead, is_ws_char c = true)
    ∧ a.key ≠ [] ∧ (∀ c ∈ a.key, is_alnum_char c = true)
    ∧ (∀ c ∈ a.pre, is_ws_char c = true) ∧ (∀ c ∈ a.post, is_ws_char c = true)
    ∧ (a.quote = SQUOTE ∨ a.quote = DQUOTE)
    ∧ (∀ c ∈ a.raw, c ≠ NUL ∧ c ≠ a.quote)

/-- The value of a written attribute: its raw text, entity-decoded. -/
def attr_src.value (a : attr_src) : List Char := decode_ref a.raw

/-- The characters of a sequence of written attributes, followed by `rest`. -/
def header_then : List attr_src → List Char → List Char
  | [], rest => rest
  | a :: as, rest => a.text_then (header_then as rest)

/-- The element after `add_attr(key, value)` for each written attribute, in source order. -/
def add_attrs (e : element) (attrs : List attr_src) : element :=
  attrs.foldl (fun x a => x.add_attr a.key a.value) e

/-- The text `s` after an attribute name does not supply `=` and a quoted value:
after optional whitespace comes something other than `=`, or `=` and optional
whitespace and then something other than a quote, or `=`, optional whitespace
and a quote that is never closed.  The name ends where `s` begins. -/
def no_assigned_value (s : List Char) : Prop :=
  is_alnum_char (cur s) = false ∧
  ∃ w bad, s = w ++ bad ∧ (∀ c ∈ w, is_ws_char c = true) ∧ is_ws_char (cur bad) = false ∧
    (cur bad ≠ '='
      ∨ (∃ w2 bad2, bad = '=' :: (w2 ++ bad2) ∧ (∀ c ∈ w2, is_ws_char c = true)
          ∧ is_ws_char (cur bad2) = false ∧ cur bad2 ≠ SQUOTE ∧ cur bad2 ≠ DQUOTE)
      ∨ (∃ w2 q raw, bad = '=' :: (w2 ++ q :: raw) ∧ (∀ c ∈ w2, is_ws_char c = true)
          ∧ (q = SQUOTE ∨ q = DQUOTE) ∧ (∀ c ∈ raw, c ≠ NUL ∧ c ≠ q)))

/-- One call made on an element during traversal or construction. -/
inductive cursor_call where
  | select (tag : List Char)
  | next
  | prev
  | add_child (node : node_base_t)

/-- The result of a call (the child returned by `next` or `prev`, null otherwise)
and the element afterwards. -/
def run_call (e : element) : cursor_call → Option node_base_t × element
  | cursor_call.select tag => (none, e.select tag)
  | cursor_call.next => e.next
  | cursor_call.prev => e.prev
  | cursor_call.add_child node => (none, e.add_child node)

/-- A sequence of calls, from an element and the child most recently returned by
`next` or `prev` (null if none yet): the element and that child afterwards. -/
def run_calls : List cursor_call → element × Option node_base_t → element × Option node_base_t
  | [], st => st
  | c :: cs, st =>
    let r := run_call st.1 c
    run_calls cs
      (r.2,
        match r.1 with
        | some x => some x
        | none => st.2)

/-- The wrapped node of a find-chain after `to_text()`: the call runs
`select("")` and `next()` on a wrapped element, which writes its cursor and filter. -/
def find_node_t.after_to_text (f : find_node_t) : find_node_t :=
  match f._base with
  | some (.node n) => ⟨some (.node ((n.select []).next).2)⟩
  | _ => f

/-- Two elements agree on parsed content: tag, attribute mapping, child sequence
and the three back-links; only the cursor and the filter may differ. -/
def same_content (e e1 : element) : Prop :=
  e1._tag = e._tag ∧ e1._attrs = e._attrs ∧ e1._children = e._children
    ∧ e1._prev = e._prev ∧ e1._next = e._next ∧ e1._parent = e._parent

/-- The calls of the traversal surface: `select`, `next` and `prev`. -/
def cursor_call.is_traversal : cursor_call → Bool
  | cursor_call.select _ => true
  | cursor_call.next => true
  | cursor_call.prev => true
  | cursor_call.add_child _ => false

/-- The element a of `<a><b/>text<c/><b/></a>` as parsed: four children, cursor -1. -/
def sample_element : element :=
  { node_node_t.ctor with
    _tag := "a".toList,
    _children :=
      [node_base_t.node (node_node_t.ctor.set_tag "b".toList),
       node_base_t.text ⟨"text".toList⟩,
       node_base_t.node (node_node_t.ctor.set_tag "c".toList),
       node_base_t.node (node_node_t.ctor.set_tag "b".toList)] }

/-- The read pointer went from the input `p` to its suffix `p1`, and every
character it stepped over is a character of the input other than NUL. -/
def advanced (p p1 : List Char) : Prop :=
  ∃ consumed : List Char, p = consumed ++ p1 ∧ ∀ c ∈ consumed, c ≠ NUL

/-- The body of the loop of `parse`: `if(node && node->type() == node_type::node)
_root.add_child(node)`. -/
def attach_root (node : Option node_base_t) (s : taoxml_t) : taoxml_t :=
  match node with
  | some n => if n.type == node_type.node then { s with _root := s._root.add_child n } else s
  | none => s

/-- The three back-links are null in every element of a subtree: `parent()`,
`big()` and `little()` return null at the node itself, when it is an element, and
at every element below it. -/
inductive links_null : node_base_t → Prop
  | text (t : text_node_t) : links_null (node_base_t.text t)
  | node (n : element) : n.parent = none → n.big = none → n.little = none →
      (∀ c ∈ n._children, links_null c) → links_null (node_base_t.node n)

/-- Reachability through child lists: a node reaches itself and whatever a child
of it reaches. -/
inductive reachable : node_base_t → node_base_t → Prop
  | self (n : node_base_t) : reachable n n
  | child (n : element) (c x : node_base_t) :
      c ∈ n._children → reachable c x → reachable (node_base_t.node n) x

/-! ## Reference definitions for the canonical serialisation -/

/-- A document tree of the specification: a text with its value, or an element
with its tag, its attributes as written (key and value, in order) and its
children in order. -/
inductive xtree where
  | text (v : List Char)
  | elem (tag : List Char) (attrs : List (List Char × List Char)) (children : List xtree)

/-- Whether a tree is a text. -/
def xtree.is_text : xtree → Bool
  | .text _ => true
  | .elem _ _ _ => false

/-- The serialisation of the attributes: a space, the key, `=` and the value
between double quotes, for each attribute in order. -/
def render_attrs : List (List Char × List Char) → List Char
  | [] => []
  | a :: rest => ' ' :: (a.1 ++ '=' :: DQUOTE :: (a.2 ++ DQUOTE :: render_attrs rest))

mutual
/-- The canonical serialisation of a tree: a text is its value; an element is
`<tag`, its attributes, then `/>` when it has no children and otherwise `>`,
the serialisations of its children in order and `</tag>`. -/
def render : xtree → List Char
  | .text v => v
  | .elem tag attrs cs =>
    '<' :: (tag ++ (render_attrs attrs ++
      (if cs.isEmpty then ['/', '>']
       else '>' :: (renders cs ++ '<' :: '/' :: (tag ++ ['>'])))))
/-- The serialisations of a list of trees, one after the other. -/
def renders : List xtree → List Char
  | [] => []
  | t :: ts => render t ++ renders ts
end

/-- A canonical attribute: a non-empty alphanumeric key and a value free of the
double quote, `&` and NUL. -/
def canonical_attr (a : List Char × List Char) : Bool :=
  !a.1.isEmpty && a.1.all is_alnum_char
    && a.2.all (fun c => c != DQUOTE && c != '&' && c != NUL)

/-- A canonical text value: free of `<`, `>`, `&` and NUL, with at least one
character other than space, tab, CR and LF. -/
def canonical_text (v : List Char) : Bool :=
  v.all (fun c => c != '<' && c != '>' && c != '&' && c != NUL)
    && v.any (fun c => !is_ws_char c)

/-- No two texts are adjacent in a list of siblings. -/
def no_adjacent_text : List xtree → Bool
  | a :: b :: rest => !(a.is_text && b.is_text) && no_adjacent_text (b :: rest)
  | _ => true

mutual
/-- A canonical tree: a canonical text, or an element with a non-empty
alphanumeric tag, canonical attributes with distinct keys, and canonical
children of which no two adjacent ones are texts. -/
def xtree.canonical : xtree → Bool
  | .text v => canonical_text v
  | .elem tag attrs cs =>
    !tag.isEmpty && tag.all is_alnum_char && attrs.all canonical_attr
      && decide (attrs.map Prod.fst).Nodup && no_adjacent_text cs && canonicals cs
/-- Every tree of a list is canonical. -/
def canonicals : List xtree → Bool
  | [] => true
  | t :: ts => t.canonical && canonicals ts
end

mutual
/-- The node that stands for a tree: a text node with the value, or an element
made by `node_node_t()`, `set_tag`, `add_attr` for each attribute in order and
`add_child` for the node of each child in order. -/
def expected_node : xtree → node_base_t
  | .text v => node_base_t.text ⟨v⟩
  | .elem tag attrs cs =>
    node_base_t.node
      ((expected_nodes cs).foldl node_node_t.add_child
        (attrs.foldl (fun e a => e.add_attr a.1 a.2) (node_node_t.ctor.set_tag tag)))
/-- The nodes that stand for a list of trees. -/
def expected_nodes : List xtree → List node_base_t
  | [] => []
  | t :: ts => expected_node t :: expected_nodes ts
end

mutual
/-- The height of a tree. -/
def xtree.height : xtree → Nat
  | .text _ => 0
  | .elem _ _ cs => heights cs + 1
/-- The largest height in a list of trees. -/
def heights : List xtree → Nat
  | [] => 0
  | t :: ts => max t.height (heights ts)
end

/-- A canonical attribute as it is written: one space, the key, `=` and the value
in double quotes. -/
def canonical_src (a : List Char × List Char) : attr_src :=
  { lead := [' '], key := a.1, pre := [], post := [], quote := DQUOTE, raw := a.2 }

/-- The parser state with more input behind what remains to be read: the
characters `x` follow those of `_p`. -/
def taoxml_t.extend (s : taoxml_t) (x : List Char) : taoxml_t :=
  { s with _p := s._p ++ x }

/-! # Theorems -/

/-! ## Characters and entity decoding -/

theorem cur_cons (c : Char) (p : List Char) : cur (c :: p) = c := rfl

theorem cur_nil : cur [] = NUL := rfl

theorem cur_eq_of_ne_NUL {p : List Char} {c : Char} (h : cur p = c) (hc : c ≠ NUL) :
    ∃ r, p = c :: r := by
  cases p with
  | nil => exact absurd h.symm hc
  | cons a r => exact ⟨r, by rw [cur_cons] at h; rw [h]⟩

theorem entity_cond_iff (name q : List Char) (hne : name ≠ []) :
    (peek ('&' :: q) 1 == cur name && strncmp_eq (('&' :: q).drop 1) name name.length
      && peek ('&' :: q) (name.length + 1) == ';') = (name ++ [';']).isPrefixOf q := by
  rw [Bool.eq_iff_iff]
  simp only [peek, strncmp_eq, List.drop_succ_cons, List.drop_zero, List.take_length,
    Bool.and_eq_true, beq_iff_eq, List.isPrefixOf_iff_prefix]
  constructor
  · rintro ⟨⟨-, h2⟩, h3⟩
    obtain ⟨r, hr⟩ := cur_eq_of_ne_NUL h3 (by decide)
    refine ⟨r, ?_⟩
    have := List.take_append_drop name.length q
    rw [h2, hr] at this
    simpa using this
  · rintro ⟨r, rfl⟩
    cases name with
    | nil => exact absurd rfl hne
    | cons a as => simp [cur]

theorem entity_find_eq_find (q : List Char) :
    ∀ tbl : List (List Char × List Char), (∀ e ∈ tbl, e.1 ≠ []) →
      entity_find ('&' :: q) tbl = tbl.find? (fun e => (e.1 ++ [';']).isPrefixOf q)
  | [], _ => rfl
  | (name, got) :: rest, h => by
    have hne : name ≠ [] := h (name, got) (List.mem_cons_self _ _)
    have ih := entity_find_eq_find q rest (fun e he => h e (List.mem_cons_of_mem _ he))
    rw [entity_find, entity_cond_iff name q hne, List.find?_cons, ih]
    cases (name ++ [';']).isPrefixOf q <;> rfl

theorem entity_find_mem (p : List Char) :
    ∀ (tbl : List (List Char × List Char)) (e : List Char × List Char),
      entity_find p tbl = some e → e ∈ tbl
  | [], e, h => by simp [entity_find] at h
  | (name, got) :: rest, e, h => by
    rw [entity_find] at h
    split at h
    · cases h; exact List.mem_cons_self _ _
    · exact List.mem_cons_of_mem _ (entity_find_mem p rest e h)

theorem ref_lookup_eq (q : List Char) :
    ref_lookup q =
      (entity_find ('&' :: q) entities).map (fun e => (e.1 ++ [';'], e.2.headD NUL)) := by
  have h1 : ref_entities = entities.map (fun e => (e.1 ++ [';'], e.2.headD NUL)) := by decide
  rw [entity_find_eq_find q entities (by decide), ref_lookup, h1, List.find?_map]
  rfl

theorem entities_got_single : ∀ e ∈ entities, e.2 = [e.2.headD NUL] := by decide

theorem isPrefixOf_append_boundary (func : Char → Bool) (rest : List Char)
    (hrest : func (cur rest) = false) :
    ∀ (pat t : List Char), (∀ c ∈ pat, func c = true) →
      pat.isPrefixOf (t ++ rest) = pat.isPrefixOf t
  | [], t, _ => by simp
  | a :: pat, [], h => by
    cases rest with
    | nil => simp
    | cons b r =>
      have ha : func a = true := h a (List.mem_cons_self _ _)
      have hab : a ≠ b := by
        rintro rfl
        rw [cur_cons] at hrest
        rw [hrest] at ha
        cases ha
      simp [List.isPrefixOf, hab]
  | a :: pat, b :: t, h => by
    have ih := isPrefixOf_append_boundary func rest hrest pat t
      (fun c hc => h c (List.mem_cons_of_mem _ hc))
    simp only [List.cons_append, List.isPrefixOf]
    rw [show t.append rest = t ++ rest from rfl, ih]

theorem find?_congr_mem {α : Type} (p q : α → Bool) :
    ∀ l : List α, (∀ a ∈ l, p a = q a) → l.find? p = l.find? q
  | [], _ => rfl
  | a :: l, h => by
    rw [List.find?_cons, List.find?_cons, h a (List.mem_cons_self _ _),
      find?_congr_mem p q l (fun b hb => h b (List.mem_cons_of_mem _ hb))]

theorem ref_lookup_append (func : Char → Bool)
    (hpat : ∀ e ∈ ref_entities, ∀ c ∈ e.1, func c = true) (t rest : List Char)
    (hrest : func (cur rest) = false) : ref_lookup (t ++ rest) = ref_lookup t := by
  unfold ref_lookup
  exact find?_congr_mem _ _ _
    (fun e he => isPrefixOf_append_boundary func rest hrest e.1 t (hpat e he))

theorem decode_fuel_congr : ∀ (f g : Nat) (t : List Char), t.length ≤ f → t.length ≤ g →
    decode_fuel f t = decode_fuel g t
  | _, _, [], _, _ => by
    rename_i f g
    cases f <;> cases g <;> rfl
  | 0, _, _ :: _, hf, _ => by simp at hf
  | _ + 1, 0, _ :: _, _, hg => by simp at hg
  | f + 1, g + 1, c :: rest, hf, hg => by
    have hf1 : rest.length ≤ f := by simpa using hf
    have hg1 : rest.length ≤ g := by simpa using hg
    simp only [decode_fuel]
    split
    · split
      · rename_i name ch _
        have hd : (rest.drop name.length).length ≤ rest.length := by simp
        rw [decode_fuel_congr f g _ (le_trans hd hf1) (le_trans hd hg1)]
      · rw [decode_fuel_congr f g rest hf1 hg1]
    · rw [decode_fuel_congr f g rest hf1 hg1]

theorem decode_ref_nil : decode_ref [] = [] := rfl

theorem decode_ref_cons_of_ne (c : Char) (t : List Char) (hc : c ≠ '&') :
    decode_ref (c :: t) = c :: decode_ref t := by
  simp [decode_ref, decode_fuel, hc]

theorem decode_ref_amp_none (t : List Char) (h : ref_lookup t = none) :
    decode_ref ('&' :: t) = '&' :: decode_ref t := by
  simp [decode_ref, decode_fuel, h]

theorem decode_ref_amp_some (t name : List Char) (ch : Char)
    (h : ref_lookup t = some (name, ch)) :
    decode_ref ('&' :: t) = ch :: decode_ref (t.drop name.length) := by
  simp only [decode_ref, List.length_cons, decode_fuel, h, if_true]
  rw [decode_fuel_congr t.length (t.drop name.length).length _ (by simp) le_rfl]

theorem read_entity_none (root : element) (q tk : List Char)
    (h : entity_find ('&' :: q) entities = none) :
    taoxml_t._read_entity ⟨root, '&' :: q, tk⟩ = (true, ⟨root, q, tk ++ ['&']⟩) := by
  simp [taoxml_t._read_entity, cur, h]

theorem read_entity_some (root : element) (q tk name got : List Char)
    (h : entity_find ('&' :: q) entities = some (name, got)) :
    taoxml_t._read_entity ⟨root, '&' :: q, tk⟩
      = (true, ⟨root, q.drop (name.length + 1), tk ++ got⟩) := by
  simp [taoxml_t._read_entity, cur, h]

theorem accumulate_run (func : Char → Bool)
    (hpat : ∀ e ∈ ref_entities, ∀ c ∈ e.1, func c = true) (rest : List Char)
    (hrest : func (cur rest) = false) (root : element) :
    ∀ (fuel : Nat) (t tk : List Char) (n : Nat),
      t.length ≤ fuel → (∀ c ∈ t, func c = true) →
      accumulate func fuel ⟨root, t ++ rest, tk⟩ n
        = (some (n + (decode_ref t).length), ⟨root, rest, tk ++ decode_ref t⟩) := by
  intro fuel
  induction fuel with
  | zero =>
    intro t tk n hlen _
    have ht : t = [] := List.eq_nil_of_length_eq_zero (Nat.le_zero.mp hlen)
    subst ht
    simp [accumulate, decode_ref_nil]
  | succ fuel ih =>
    intro t tk n hlen hall
    cases t with
    | nil => simp [accumulate, decode_ref_nil, hrest]
    | cons c t =>
      have hc : func c = true := hall c (List.mem_cons_self _ _)
      have hall1 : ∀ x ∈ t, func x = true := fun x hx => hall x (List.mem_cons_of_mem _ hx)
      have hlen1 : t.length ≤ fuel := by simpa using hlen
      by_cases hamp : c = '&'
      · subst hamp
        have hlk := ref_lookup_eq (t ++ rest)
        rw [ref_lookup_append func hpat t rest hrest] at hlk
        rw [accumulate]
        simp only [List.cons_append, cur_cons, hc, if_true, beq_self_eq_true]
        cases hf : entity_find ('&' :: (t ++ rest)) entities with
        | none =>
          rw [hf] at hlk
          rw [read_entity_none root _ tk hf]
          simp only [if_true]
          rw [ih t (tk ++ ['&']) (n + 1) hlen1 hall1, decode_ref_amp_none t hlk]
          simp [Nat.add_assoc, Nat.add_comm 1]
        | some e =>
          obtain ⟨name, got⟩ := e
          rw [hf] at hlk
          have hgot := entities_got_single _ (entity_find_mem _ _ _ hf)
          simp only [Option.map_some'] at hlk hgot
          have hpre : (name ++ [';']).isPrefixOf t = true := by
            have := List.find?_some hlk
            simpa using this
          obtain ⟨r, hr⟩ := List.isPrefixOf_iff_prefix.mp hpre
          have hdrop : (t ++ rest).drop (name.length + 1) = t.drop (name.length + 1) ++ rest := by
            rw [← hr]
            simp [List.drop_append_eq_append_drop]
          have hlen2 : (t.drop (name.length + 1)).length ≤ fuel :=
            le_trans (by simp) hlen1
          have hall2 : ∀ x ∈ t.drop (name.length + 1), func x = true :=
            fun x hx => hall1 x (List.mem_of_mem_drop hx)
          rw [read_entity_some root _ tk name got hf]
          simp only [if_true]
          rw [hdrop, ih _ (tk ++ got) (n + 1) hlen2 hall2, decode_ref_amp_some t _ _ hlk, hgot]
          simp [Nat.add_assoc, Nat.add_comm 1]
      · rw [accumulate]
        simp only [List.cons_append, cur_cons, hc, if_true, beq_iff_eq, hamp, if_false,
          List.tail_cons]
        rw [ih t (tk ++ [c]) (n + 1) hlen1 hall1, decode_ref_cons_of_ne c t hamp]
        simp [Nat.add_assoc, Nat.add_comm 1]

theorem text_entity_chars : ∀ e ∈ ref_entities, ∀ c ∈ e.1, is_text_char c = true := by decide

theorem read_token_text_run (root : element) (t rest tk : List Char)
    (ht : ∀ c ∈ t, is_text_char c = true) (hrest : is_text_char (cur rest) = false) :
    taoxml_t._read_token ⟨root, t ++ rest, tk⟩ read_type.text
      = ((decode_ref t).length, ⟨root, rest, decode_ref t⟩) := by
  have h := accumulate_run is_text_char text_entity_chars rest hrest root
    (t ++ rest).length t [] 0 (by simp) ht
  simp only [taoxml_t._read_token, read_func, h]
  simp

/-- C1: for every run `t` of text characters followed by a character that is not
a text character (or by the end of input), `_read_token(text)` leaves in `_tk`
the reference decoding of `t` (each of `&nbsp;`, `&quot;`, `&#34;`, `&apos;`,
`&#39;`, `&lt;`, `&gt;`, `&amp;` replaced, any other `&` and any other character
copied), stops right after the run, and counts one round per decoded character;
and the demo text decodes as the specification says. -/
theorem C1_text_entity_decoding (root : element) (tk t rest : List Char)
    (ht : ∀ c ∈ t, is_text_char c = true) (hrest : is_text_char (cur rest) = false) :
    taoxml_t._read_token ⟨root, t ++ rest, tk⟩ read_type.text
        = ((decode_ref t).length, ⟨root, rest, decode_ref t⟩)
      ∧ (taoxml_t._read_token
            ⟨root, "a &lt; b &gt; c &amp; d &unknown e &#34; f &apos;".toList, tk⟩
            read_type.text).2._tk
          = "a < b > c & d &unknown e \" f '".toList :=
  by
  refine ⟨read_token_text_run root t rest tk ht hrest, ?_⟩
  have h := read_token_text_run root
    "a &lt; b &gt; c &amp; d &unknown e &#34; f &apos;".toList [] tk (by decide) (by decide)
  rw [List.append_nil] at h
  rw [h]
  show decode_ref "a &lt; b &gt; c &amp; d &unknown e &#34; f &apos;".toList = _
  decide

/-- C1 at a concrete run: `x &lt;&amp; &y` followed by `</a>`. -/
theorem C1_text_entity_decoding_witness :
    (∀ c ∈ "x &lt;&amp; &y".toList, is_text_char c = true)
      ∧ is_text_char (cur "</a>".toList) = false
      ∧ (taoxml_t._read_token ⟨node_node_t.ctor, "x &lt;&amp; &y".toList ++ "</a>".toList, []⟩
            read_type.text
          = ((decode_ref "x &lt;&amp; &y".toList).length,
              ⟨node_node_t.ctor, "</a>".toList, decode_ref "x &lt;&amp; &y".toList⟩)
        ∧ (taoxml_t._read_token
            ⟨node_node_t.ctor, "a &lt; b &gt; c &amp; d &unknown e &#34; f &apos;".toList, []⟩
            read_type.text).2._tk
          = "a < b > c & d &unknown e \" f '".toList) :=
  ⟨by decide, by decide,
    C1_text_entity_decoding node_node_t.ctor [] "x &lt;&amp; &y".toList "</a>".toList
      (by decide) (by decide)⟩

/-! ## Runs without entities, and the tokens of the scanner -/

theorem accumulate_plain (func : Char → Bool) (hamp : func '&' = false) (rest : List Char)
    (hrest : func (cur rest) = false) (root : element) :
    ∀ (fuel : Nat) (t tk : List Char) (n : Nat),
      t.length ≤ fuel → (∀ c ∈ t, func c = true) →
      accumulate func fuel ⟨root, t ++ rest, tk⟩ n
        = (some (n + t.length), ⟨root, rest, tk ++ t⟩) := by
  intro fuel
  induction fuel with
  | zero =>
    intro t tk n hlen _
    have ht : t = [] := List.eq_nil_of_length_eq_zero (Nat.le_zero.mp hlen)
    subst ht
    simp [accumulate]
  | succ fuel ih =>
    intro t tk n hlen hall
    cases t with
    | nil => simp [accumulate, hrest]
    | cons c t =>
      have hc : func c = true := hall c (List.mem_cons_self _ _)
      have hall1 : ∀ x ∈ t, func x = true := fun x hx => hall x (List.mem_cons_of_mem _ hx)
      have hlen1 : t.length ≤ fuel := by simpa using hlen
      have hamp1 : c ≠ '&' := by
        rintro rfl
        rw [hamp] at hc
        cases hc
      rw [accumulate]
      simp only [List.cons_append, cur_cons, hc, if_true, beq_iff_eq, hamp1, if_false,
        List.tail_cons]
      rw [ih t (tk ++ [c]) (n + 1) hlen1 hall1]
      simp [Nat.add_assoc, Nat.add_comm 1]

theorem read_token_tk_run (root : element) (t rest tk : List Char)
    (ht : ∀ c ∈ t, is_alnum_char c = true) (hrest : is_alnum_char (cur rest) = false) :
    taoxml_t._read_token ⟨root, t ++ rest, tk⟩ read_type.tk = (t.length, ⟨root, rest, t⟩) := by
  have h := accumulate_plain is_alnum_char (by decide) rest hrest root
    (t ++ rest).length t [] 0 (by simp) ht
  simp only [taoxml_t._read_token, read_func, h]
  simp

theorem read_token_ws_run (root : element) (t rest tk : List Char)
    (ht : ∀ c ∈ t, is_ws_char c = true) (hrest : is_ws_char (cur rest) = false) :
    taoxml_t._read_token ⟨root, t ++ rest, tk⟩ read_type.ws = (t.length, ⟨root, rest, t⟩) := by
  have h := accumulate_plain is_ws_char (by decide) rest hrest root
    (t ++ rest).length t [] 0 (by simp) ht
  simp only [taoxml_t._read_token, read_func, h]
  simp

theorem decode_ref_ne_nil (t : List Char) (ht : t ≠ []) : decode_ref t ≠ [] := by
  cases t with
  | nil => exact absurd rfl ht
  | cons c t =>
    by_cases hc : c = '&'
    · subst hc
      cases h : ref_lookup t with
      | none => simp [decode_ref_amp_none t h]
      | some e => simp [decode_ref_amp_some t e.1 e.2 h]
    · simp [decode_ref_cons_of_ne c t hc]

theorem ws_char_cases (c : Char) (h : is_ws_char c = true) :
    c = ' ' ∨ c = '\n' ∨ c = '\t' ∨ c = '\r' := by
  simpa [is_ws_char, or_assoc] using h

theorem alnum_ne (c d : Char) (h : is_alnum_char c = true) (hd : is_alnum_char d = false) :
    c ≠ d := by
  rintro rfl
  rw [h] at hd
  cases hd

theorem alnum_not_ws (c : Char) (h : is_alnum_char c = true) : is_ws_char c = false := by
  cases hw : is_ws_char c with
  | false => rfl
  | true =>
    rcases ws_char_cases c hw with rfl | rfl | rfl | rfl <;> revert h <;> decide

theorem alnum_is_text (c : Char) (h : is_alnum_char c = true) : is_text_char c = true := by
  have h1 := alnum_ne c NUL h (by decide)
  have h2 := alnum_ne c '<' h (by decide)
  have h3 := alnum_ne c '>' h (by decide)
  simp [is_text_char, h1, h2, h3]

theorem ws_ne (c d : Char) (h : is_ws_char c = true) (hd : is_ws_char d = false) : c ≠ d := by
  rintro rfl
  rw [h] at hd
  cases hd

theorem ws_not_alnum (c : Char) (h : is_ws_char c = true) : is_alnum_char c = false := by
  rcases ws_char_cases c h with rfl | rfl | rfl | rfl <;> decide

theorem cur_append_of_ne_nil (t rest : List Char) (ht : t ≠ []) : cur (t ++ rest) = cur t := by
  cases t with
  | nil => exact absurd rfl ht
  | cons c t => rfl

theorem cur_mem (t : List Char) (ht : t ≠ []) : cur t ∈ t := by
  cases t with
  | nil => exact absurd rfl ht
  | cons c t => exact List.mem_cons_self _ _

/-- Token `open`: `<` and a non-empty alphanumeric name. -/
theorem token_open (root : element) (name rest tk : List Char) (hne : name ≠ [])
    (hname : ∀ c ∈ name, is_alnum_char c = true) (hrest : is_alnum_char (cur rest) = false) :
    taoxml_t._token ⟨root, '<' :: (name ++ rest), tk⟩ start_condition.initial
      = (token.open_, ⟨root, rest, name⟩) := by
  have hc : is_alnum_char (cur (name ++ rest)) = true := by
    rw [cur_append_of_ne_nil name rest hne]
    exact hname _ (cur_mem name hne)
  have h0 : cur (name ++ rest) ≠ NUL := alnum_ne _ _ hc (by decide)
  have hlen : name.length ≠ 0 := fun h => hne (List.eq_nil_of_length_eq_zero h)
  simp [taoxml_t._token, taoxml_t._valid_ptr, taoxml_t._is_alnum, cur_cons, h0, hc,
    read_token_tk_run root name rest tk hname hrest, hlen]

/-- Token `close`: `</`, a non-empty alphanumeric name and `>`. -/
theorem token_close (root : element) (name rest tk : List Char) (hne : name ≠ [])
    (hname : ∀ c ∈ name, is_alnum_char c = true) :
    taoxml_t._token ⟨root, '<' :: '/' :: (name ++ '>' :: rest), tk⟩ start_condition.initial
      = (token.close, ⟨root, rest, name⟩) := by
  have hc : is_alnum_char (cur (name ++ '>' :: rest)) = true := by
    rw [cur_append_of_ne_nil name _ hne]
    exact hname _ (cur_mem name hne)
  have h0 : cur (name ++ '>' :: rest) ≠ NUL := alnum_ne _ _ hc (by decide)
  have hlen : name.length ≠ 0 := fun h => hne (List.eq_nil_of_length_eq_zero h)
  have hrd := read_token_tk_run root name ('>' :: rest) tk hname
    (show is_alnum_char '>' = false by decide)
  have hs : is_alnum_char '/' = false := by decide
  have hn : ('/' : Char) ≠ NUL := by decide
  have hg : ('>' : Char) ≠ NUL := by decide
  simp [taoxml_t._token, taoxml_t._valid_ptr, taoxml_t._is_alnum, cur_cons, h0, hs, hn, hg,
    hrd, hlen]

/-- Token `text`: a non-empty run of text characters, entity-decoded. -/
theorem token_text (root : element) (t rest tk : List Char) (hne : t ≠ [])
    (ht : ∀ c ∈ t, is_text_char c = true) (hrest : is_text_char (cur rest) = false) :
    taoxml_t._token ⟨root, t ++ rest, tk⟩ start_condition.initial
      = (token.text, ⟨root, rest, decode_ref t⟩) := by
  have hc : is_text_char (cur (t ++ rest)) = true := by
    rw [cur_append_of_ne_nil t rest hne]
    exact ht _ (cur_mem t hne)
  have h1 : cur (t ++ rest) ≠ '<' := by
    intro h
    rw [h] at hc
    revert hc
    decide
  have hlen : (decode_ref t).length ≠ 0 :=
    fun h => decode_ref_ne_nil t hne (List.eq_nil_of_length_eq_zero h)
  simp [taoxml_t._token, taoxml_t._is_text, h1, hc, read_token_text_run root t rest tk ht hrest,
    hlen]

/-- End of input in the initial context is `error`, and nothing is consumed. -/
theorem token_initial_eof (root : element) (tk : List Char) :
    taoxml_t._token ⟨root, [], tk⟩ start_condition.initial = (token.error, ⟨root, [], tk⟩) := by
  have h1 : NUL ≠ '<' := by decide
  simp [taoxml_t._token, taoxml_t._is_text, cur_nil, is_text_char, h1]

/-- Token `space`: a non-empty run of whitespace inside a tag header. -/
theorem token_space (root : element) (w rest tk : List Char) (hne : w ≠ [])
    (hw : ∀ c ∈ w, is_ws_char c = true) (hrest : is_ws_char (cur rest) = false) :
    taoxml_t._token ⟨root, w ++ rest, tk⟩ start_condition.in_tag
      = (token.space, ⟨root, rest, w⟩) := by
  have hc : is_ws_char (cur (w ++ rest)) = true := by
    rw [cur_append_of_ne_nil w rest hne]
    exact hw _ (cur_mem w hne)
  have hlen : w.length ≠ 0 := fun h => hne (List.eq_nil_of_length_eq_zero h)
  simp [taoxml_t._token, taoxml_t._is_ws, hc, read_token_ws_run root w rest tk hw hrest, hlen]

/-- Token `attr`: a non-empty alphanumeric run inside a tag header. -/
theorem token_attr (root : element) (name rest tk : List Char) (hne : name ≠ [])
    (hname : ∀ c ∈ name, is_alnum_char c = true) (hrest : is_alnum_char (cur rest) = false) :
    taoxml_t._token ⟨root, name ++ rest, tk⟩ start_condition.in_tag
      = (token.attr, ⟨root, rest, name⟩) := by
  have hc : is_alnum_char (cur (name ++ rest)) = true := by
    rw [cur_append_of_ne_nil name rest hne]
    exact hname _ (cur_mem name hne)
  have hlen : name.length ≠ 0 := fun h => hne (List.eq_nil_of_length_eq_zero h)
  simp [taoxml_t._token, taoxml_t._is_ws, taoxml_t._is_alnum, hc, alnum_not_ws _ hc,
    read_token_tk_run root name rest tk hname hrest, hlen]

/-- Token `assign`. -/
theorem token_assign (root : element) (rest tk : List Char) :
    taoxml_t._token ⟨root, '=' :: rest, tk⟩ start_condition.in_tag
      = (token.assign, ⟨root, rest, tk⟩) := by
  have h1 : is_ws_char '=' = false := by decide
  have h2 : is_alnum_char '=' = false := by decide
  simp [taoxml_t._token, taoxml_t._is_ws, taoxml_t._is_alnum, cur_cons, h1, h2]

/-- Token `close2`: `/>`. -/
theorem token_close2 (root : element) (rest tk : List Char) :
    taoxml_t._token ⟨root, '/' :: '>' :: rest, tk⟩ start_condition.in_tag
      = (token.close2, ⟨root, rest, tk⟩) := by
  have h1 : is_ws_char '/' = false := by decide
  have h2 : is_alnum_char '/' = false := by decide
  have h3 : ('/' : Char) ≠ SQUOTE := by decide
  have h4 : ('/' : Char) ≠ DQUOTE := by decide
  simp [taoxml_t._token, taoxml_t._is_ws, taoxml_t._is_alnum, cur_cons, h1, h2, h3, h4]

/-- Token `open2`: `>`. -/
theorem token_open2 (root : element) (rest tk : List Char) :
    taoxml_t._token ⟨root, '>' :: rest, tk⟩ start_condition.in_tag
      = (token.open2, ⟨root, rest, tk⟩) := by
  have h1 : is_ws_char '>' = false := by decide
  have h2 : is_alnum_char '>' = false := by decide
  have h3 : ('>' : Char) ≠ SQUOTE := by decide
  have h4 : ('>' : Char) ≠ DQUOTE := by decide
  simp [taoxml_t._token, taoxml_t._is_ws, taoxml_t._is_alnum, cur_cons, h1, h2, h3, h4]

theorem value_entity_chars (q : Char) (hq : q = SQUOTE ∨ q = DQUOTE) :
    ∀ e ∈ ref_entities, ∀ c ∈ e.1, value_func q c = true := by
  rcases hq with rfl | rfl <;> decide

/-- Token `value`: a quoted attribute value up to the matching quote, entity-decoded. -/
theorem token_value (root : element) (q : Char) (hq : q = SQUOTE ∨ q = DQUOTE)
    (v rest tk : List Char) (hv : ∀ c ∈ v, c ≠ NUL ∧ c ≠ q) :
    taoxml_t._token ⟨root, q :: (v ++ q :: rest), tk⟩ start_condition.in_tag
      = (token.value, ⟨root, rest, decode_ref v⟩) := by
  have h1 : is_ws_char q = false := by rcases hq with rfl | rfl <;> decide
  have h2 : is_alnum_char q = false := by rcases hq with rfl | rfl <;> decide
  have h3 : q ≠ '=' := by rcases hq with rfl | rfl <;> decide
  have hv1 : ∀ c ∈ v, value_func q c = true := by
    intro c hc
    simp [value_func, (hv c hc).1, (hv c hc).2]
  have hrest : value_func q (cur (q :: rest)) = false := by simp [value_func, cur_cons]
  have hacc := accumulate_run (value_func q) (value_entity_chars q hq) (q :: rest) hrest root
    (v ++ q :: rest).length v [] 0 (by simp) hv1
  have hor : (q = SQUOTE ∨ q = DQUOTE) = True := eq_true hq
  simp only [taoxml_t._token, taoxml_t._is_ws, taoxml_t._is_alnum, cur_cons, h1, h2]
  simp only [List.cons_append, cur_cons, List.tail_cons, beq_iff_eq, h3, Bool.or_eq_true, hor,
    if_true, if_false, Bool.false_eq_true]
  rw [hacc]
  simp [cur_cons, h1, h2]

/-! ## The node parser on elementary shapes -/

theorem parse_attrs_succ (fuel : Nat) (newnode : element) (s : taoxml_t) :
    taoxml_t._parse_attrs (fuel + 1) newnode s =
      (let r := s._token start_condition.in_tag
      if r.1 == token.space then taoxml_t._parse_attrs fuel newnode r.2
      else if r.1 == token.attr then
        let key := r.2._tk
        let a := r.2._token_past_space
        if a.1 != token.assign then (none, a.2)
        else
          let v := a.2._token_past_space
          if v.1 != token.value then (none, v.2)
          else taoxml_t._parse_attrs fuel (newnode.add_attr key v.2._tk) v.2
      else (some (r.1, newnode), r.2)) := rfl

theorem parse_node_succ (depth : Nat) (s : taoxml_t) (node : Option node_base_t) :
    taoxml_t._parse_node (depth + 1) s node =
    (let r := s._token start_condition.initial
    if r.1 == token.close then (token.close3, node, r.2)
    else if r.1 == token.open_ then
      let a := taoxml_t._parse_attrs (r.2._p.length + 1) (node_node_t.ctor.set_tag r.2._tk) r.2
      match a.1 with
      | none => (token.error, node, a.2)
      | some (tk, newnode) =>
        if tk == token.close2 then (token.close2, some (node_base_t.node newnode), a.2)
        else if tk == token.open2 then
          let c := parse_children (taoxml_t._parse_node depth) (a.2._p.length + 1) newnode none a.2
          if c.1 == token.close3 then
            (token.close, some (node_base_t.node c.2.1), c.2.2.2)
          else (token.error, node, c.2.2.2)
        else (token.error, node, a.2)
    else if r.1 == token.text then
      if !r.2._is_empty then (token.close2, some (node_base_t.text ⟨r.2._tk⟩), r.2)
      else (token.close2, none, r.2)
    else (token.error, node, r.2)) := rfl
theorem parse_children_succ
    (pn : taoxml_t → Option node_base_t → token × Option node_base_t × taoxml_t)
    (fuel : Nat) (newnode : element) (cnode : Option node_base_t) (s : taoxml_t) :
    parse_children pn (fuel + 1) newnode cnode s =
      (let r := pn s cnode
      if r.1 != token.close3 && r.1 != token.error then
        parse_children pn fuel
          (match r.2.1 with
           | some c => newnode.add_child c
           | none => newnode)
          r.2.1 r.2.2
      else (r.1, newnode, r.2.1, r.2.2)) := rfl

theorem parse_loop_succ (depth fuel : Nat) (s : taoxml_t) (node : Option node_base_t) :
    parse_loop depth (fuel + 1) s node =
      (let r := s._parse_node depth node
      if r.1 == token.close || r.1 == token.close2 then
        let s1 : taoxml_t :=
          match r.2.1 with
          | some n =>
            if n.type == node_type.node then { r.2.2 with _root := r.2.2._root.add_child n }
            else r.2.2
          | none => r.2.2
        parse_loop depth fuel s1 r.2.1
      else r) := rfl

attribute [irreducible] taoxml_t._parse_attrs taoxml_t._parse_node parse_children parse_loop

theorem parse_attrs_open2 (fuel : Nat) (nn root : element) (rest tk : List Char) :
    taoxml_t._parse_attrs (fuel + 1) nn ⟨root, '>' :: rest, tk⟩
      = (some (token.open2, nn), ⟨root, rest, tk⟩) := by
  rw [parse_attrs_succ]
  simp only [token_open2]
  simp

theorem parse_attrs_close2 (fuel : Nat) (nn root : element) (rest tk : List Char) :
    taoxml_t._parse_attrs (fuel + 1) nn ⟨root, '/' :: '>' :: rest, tk⟩
      = (some (token.close2, nn), ⟨root, rest, tk⟩) := by
  rw [parse_attrs_succ]
  simp only [token_close2]
  simp

theorem parse_node_eof (d : Nat) (root : element) (tk : List Char) (node : Option node_base_t) :
    taoxml_t._parse_node (d + 1) ⟨root, [], tk⟩ node = (token.error, node, ⟨root, [], tk⟩) := by
  rw [parse_node_succ]
  simp only [token_initial_eof]
  simp

theorem parse_node_closer (d : Nat) (root : element) (m rest tk : List Char)
    (node : Option node_base_t) (hne : m ≠ []) (hm : ∀ c ∈ m, is_alnum_char c = true) :
    taoxml_t._parse_node (d + 1) ⟨root, '<' :: '/' :: (m ++ '>' :: rest), tk⟩ node
      = (token.close3, node, ⟨root, rest, m⟩) := by
  rw [parse_node_succ]
  simp only [token_close root m rest tk hne hm]
  simp

theorem parse_node_text (d : Nat) (root : element) (t rest tk : List Char)
    (node : Option node_base_t) (hne : t ≠ [])
    (ht : ∀ c ∈ t, is_text_char c = true) (hrest : is_text_char (cur rest) = false) :
    taoxml_t._parse_node (d + 1) ⟨root, t ++ rest, tk⟩ node
      = (token.close2,
          if taoxml_t._is_empty ⟨root, rest, decode_ref t⟩ then none
          else some (node_base_t.text ⟨decode_ref t⟩),
          ⟨root, rest, decode_ref t⟩) := by
  rw [parse_node_succ]
  simp only [token_text root t rest tk hne ht hrest]
  cases h : taoxml_t._is_empty ⟨root, rest, decode_ref t⟩ <;> simp [h]

theorem parse_node_self_closed (d : Nat) (root : element) (n rest tk : List Char)
    (node : Option node_base_t) (hne : n ≠ []) (hn : ∀ c ∈ n, is_alnum_char c = true) :
    taoxml_t._parse_node (d + 1) ⟨root, '<' :: (n ++ '/' :: '>' :: rest), tk⟩ node
      = (token.close2, some (node_base_t.node (node_node_t.ctor.set_tag n)), ⟨root, rest, n⟩) := by
  rw [parse_node_succ]
  simp only [token_open root n ('/' :: '>' :: rest) tk hne hn
    (show is_alnum_char '/' = false by decide)]
  simp [parse_attrs_close2]

theorem parse_children_stop
    (pn : taoxml_t → Option node_base_t → token × Option node_base_t × taoxml_t)
    (fuel : Nat) (nn : element) (cnode : Option node_base_t) (s : taoxml_t)
    (h : (pn s cnode).1 = token.close3 ∨ (pn s cnode).1 = token.error) :
    parse_children pn (fuel + 1) nn cnode s
      = ((pn s cnode).1, nn, (pn s cnode).2.1, (pn s cnode).2.2) := by
  rw [parse_children_succ]
  rcases h with h | h <;> simp [h]

theorem parse_children_step
    (pn : taoxml_t → Option node_base_t → token × Option node_base_t × taoxml_t)
    (fuel : Nat) (nn : element) (cnode : Option node_base_t) (s : taoxml_t)
    (h3 : (pn s cnode).1 ≠ token.close3) (he : (pn s cnode).1 ≠ token.error) :
    parse_children pn (fuel + 1) nn cnode s
      = parse_children pn fuel
          (match (pn s cnode).2.1 with
           | some c => nn.add_child c
           | none => nn)
          (pn s cnode).2.1 (pn s cnode).2.2 := by
  rw [parse_children_succ]
  simp [h3, he]

/-- An element with an empty header and no content, closed by any closer `</m>`. -/
theorem parse_node_open_close (d : Nat) (root : element) (n m rest tk : List Char)
    (node : Option node_base_t) (hne : n ≠ []) (hn : ∀ c ∈ n, is_alnum_char c = true)
    (hme : m ≠ []) (hm : ∀ c ∈ m, is_alnum_char c = true) :
    taoxml_t._parse_node (d + 2) ⟨root, '<' :: (n ++ '>' :: '<' :: '/' :: (m ++ '>' :: rest)), tk⟩ node
      = (token.close, some (node_base_t.node (node_node_t.ctor.set_tag n)), ⟨root, rest, m⟩) := by
  rw [parse_node_succ]
  simp only [token_open root n ('>' :: '<' :: '/' :: (m ++ '>' :: rest)) tk hne hn
    (show is_alnum_char '>' = false by decide)]
  simp only [parse_attrs_open2]
  rw [parse_children_stop _ _ _ _ _ (by rw [parse_node_closer d root m rest n none hme hm]; simp)]
  simp [parse_node_closer d root m rest n none hme hm]

/-- One element that takes the whole input and is attached to a fresh root. -/
theorem parse_single (xml tk1 : List Char) (e : element) (tkn : token)
    (htk : tkn = token.close ∨ tkn = token.close2)
    (h : taoxml_t._parse_node (xml.length + 1) ⟨node_node_t.ctor, xml, []⟩ none
      = (tkn, some (node_base_t.node e), ⟨node_node_t.ctor, [], tk1⟩)) :
    (taoxml_t.ctor.parse xml).2._root._children = [node_base_t.node e] := by
  cases xml with
  | nil =>
    rw [parse_node_eof] at h
    rcases htk with rfl | rfl <;> simp at h
  | cons c xml =>
    simp only [taoxml_t.parse, taoxml_t.ctor, List.length_cons]
    rw [parse_loop_succ]
    simp only [List.length_cons] at h
    rw [h]
    have hstep : ∀ (s1 : taoxml_t) (nd : Option node_base_t),
        s1 = ⟨node_node_t.ctor.add_child (node_base_t.node e), [], tk1⟩ →
        (parse_loop (xml.length + 1 + 1) (xml.length + 1) s1 nd).2.2._root._children
          = [node_base_t.node e] := by
      intro s1 nd hs1
      subst hs1
      rw [parse_loop_succ, parse_node_eof]
      simp [node_node_t.add_child, node_node_t.ctor]
    rcases htk with rfl | rfl
    · simp only [beq_self_eq_true, Bool.true_or, Bool.or_true, if_true, node_base_t.type]
      exact hstep _ _ rfl
    · simp only [beq_self_eq_true, Bool.true_or, Bool.or_true, if_true, node_base_t.type]
      exact hstep _ _ rfl

/-! ## Claims on attribute positions and on closing tags -/

theorem attr_loop_fixed : ∀ (k ai : Nat), attr_loop k ai = ai
  | 0, _ => rfl
  | k + 1, ai => by
    rw [attr_loop]
    exact attr_loop_fixed k ai

/-- C2 (the code at the failing input): the element parsed from `<a x="1" y='2'/>`
holds the entries (x, 1), (y, 2) in key order and `size_attr()` is 2, but both
`attr(0)` and `attr(1)` point at the first entry (x, 1): the loop statement
`ai = ai++` leaves the iterator where it was, so that for every element every
index in range yields `cbegin()`.  Outside the range `attr` is `cend()`. -/
theorem C2_attr_position_stays_at_first_entry :
    ∃ a : element,
      (taoxml_t.ctor.parse "<a x=\"1\" y='2'/>".toList).2._root._children = [node_base_t.node a]
        ∧ a._attrs = [("x".toList, "1".toList), ("y".toList, "2".toList)]
        ∧ a.size_attr = 2
        ∧ a.attr_deref (a.attr 0) = some ("x".toList, "1".toList)
        ∧ a.attr_deref (a.attr 1) = some ("x".toList, "1".toList)
        ∧ a.attr_deref (a.attr 2) = none
        ∧ a.attr_deref (a.attr (-1)) = none
        ∧ (∀ (e : element) (i : Int),
            e.attr i = if 0 ≤ i ∧ i < (e.size_attr : Int) then 0 else e._attrs.length) :=
  ⟨{ node_node_t.ctor with
      _tag := "a".toList, _attrs := [("x".toList, "1".toList), ("y".toList, "2".toList)] },
    by with_unfolding_all rfl, rfl, rfl, by decide, by decide, by decide, by decide,
    fun e i => by simp only [node_node_t.attr, attr_loop_fixed]⟩

/-- C3 (counterexample): after parsing `<a><b></a>` the root does not have exactly
one child. -/
theorem C3_counterexample_root_has_no_child :
    ¬ ((taoxml_t.ctor.parse "<a><b></a>".toList).2._root.size = 1) := by
  decide!

/-- C3 (amended): on `<a><b></a>` the single closer closes only b: the node parser
run on `<b></a>` returns `close` with the childless element b and consumes the
closer; a is then still open at the end of input, so the node parser run on
`<a><b></a>` returns `error` and produces no node, and after `parse` the root has
no children. -/
theorem C3_single_closer_closes_innermost_only :
    taoxml_t._parse_node ("<a><b></a>".toList.length + 1)
        ⟨node_node_t.ctor, "<b></a>".toList, []⟩ none
      = (token.close, some (node_base_t.node (node_node_t.ctor.set_tag "b".toList)),
          ⟨node_node_t.ctor, [], "a".toList⟩)
    ∧ (taoxml_t._parse_node ("<a><b></a>".toList.length + 1)
        ⟨node_node_t.ctor, "<a><b></a>".toList, []⟩ none).1 = token.error
    ∧ (taoxml_t._parse_node ("<a><b></a>".toList.length + 1)
        ⟨node_node_t.ctor, "<a><b></a>".toList, []⟩ none).2.1 = none
    ∧ (taoxml_t.ctor.parse "<a><b></a>".toList).2._root._children = [] :=
  ⟨by with_unfolding_all rfl, by decide!, by with_unfolding_all rfl, by with_unfolding_all rfl⟩

theorem doc_open_close_eq (n m : List Char) :
    "<".toList ++ n ++ "></".toList ++ m ++ ">".toList
      = '<' :: (n ++ '>' :: '<' :: '/' :: (m ++ '>' :: [])) := by
  simp

theorem doc_self_closed_eq (n : List Char) :
    "<".toList ++ n ++ "/>".toList = '<' :: (n ++ '/' :: '>' :: []) := by
  simp

/-- C4: for non-empty alphanumeric names `n` and `m`, equal or not, the node parser
run on `<n></m>` returns `close` (not `error`) with the element tagged `n` with
no attributes and no children, and `parse` leaves exactly that element under
the root, as it does for `<n></n>`. -/
theorem C4_closing_name_not_compared (n m : List Char)
    (hn : n ≠ []) (hna : ∀ c ∈ n, is_alnum_char c = true)
    (hm : m ≠ []) (hma : ∀ c ∈ m, is_alnum_char c = true) :
    taoxml_t._parse_node (("<".toList ++ n ++ "></".toList ++ m ++ ">".toList).length + 1)
        ⟨node_node_t.ctor, "<".toList ++ n ++ "></".toList ++ m ++ ">".toList, []⟩ none
      = (token.close, some (node_base_t.node (node_node_t.ctor.set_tag n)),
          ⟨node_node_t.ctor, [], m⟩)
    ∧ (node_node_t.ctor.set_tag n)._attrs = [] ∧ (node_node_t.ctor.set_tag n)._children = []
    ∧ (taoxml_t.ctor.parse ("<".toList ++ n ++ "></".toList ++ m ++ ">".toList)).2._root._children
      = [node_base_t.node (node_node_t.ctor.set_tag n)]
    ∧ (taoxml_t.ctor.parse ("<".toList ++ n ++ "></".toList ++ m ++ ">".toList)).2._root._children
      = (taoxml_t.ctor.parse ("<".toList ++ n ++ "></".toList ++ n ++ ">".toList)).2._root._children := by
  have key : ∀ k : List Char, k ≠ [] → (∀ c ∈ k, is_alnum_char c = true) →
      taoxml_t._parse_node (("<".toList ++ n ++ "></".toList ++ k ++ ">".toList).length + 1)
        ⟨node_node_t.ctor, "<".toList ++ n ++ "></".toList ++ k ++ ">".toList, []⟩ none
      = (token.close, some (node_base_t.node (node_node_t.ctor.set_tag n)),
          ⟨node_node_t.ctor, [], k⟩) := by
    intro k hk hka
    rw [doc_open_close_eq n k]
    have hlen : ('<' :: (n ++ '>' :: '<' :: '/' :: (k ++ '>' :: []))).length + 1
        = (n.length + k.length + 4) + 2 := by
      simp only [List.length_cons, List.length_append, List.length_nil]
      omega
    rw [hlen]
    exact parse_node_open_close _ node_node_t.ctor n k [] [] none hn hna hk hka
  have hp : ∀ k : List Char, k ≠ [] → (∀ c ∈ k, is_alnum_char c = true) →
      (taoxml_t.ctor.parse ("<".toList ++ n ++ "></".toList ++ k ++ ">".toList)).2._root._children
        = [node_base_t.node (node_node_t.ctor.set_tag n)] :=
    fun k hk hka => parse_single _ k _ token.close (Or.inl rfl) (key k hk hka)
  exact ⟨key m hm hma, rfl, rfl, hp m hm hma, by rw [hp m hm hma, hp n hn hna]⟩

/-- C4 at `n = a`, `m = b`. -/
theorem C4_closing_name_not_compared_witness :
    "a".toList ≠ [] ∧ (∀ c ∈ "a".toList, is_alnum_char c = true)
    ∧ "b".toList ≠ [] ∧ (∀ c ∈ "b".toList, is_alnum_char c = true)
    ∧ (taoxml_t.ctor.parse ("<".toList ++ "a".toList ++ "></".toList ++ "b".toList ++ ">".toList)).2._root._children
      = [node_base_t.node (node_node_t.ctor.set_tag "a".toList)] :=
  ⟨by decide, by decide, by decide, by decide,
    (C4_closing_name_not_compared "a".toList "b".toList (by decide) (by decide) (by decide)
      (by decide)).2.2.2.1⟩

/-- C5: for a non-empty alphanumeric name `n`, parsing `<n/>` and parsing `<n></n>`
each leave the root with exactly one child, the element tagged `n` with no
attributes and no children. -/
theorem C5_self_closing_equals_open_close (n : List Char)
    (hn : n ≠ []) (hna : ∀ c ∈ n, is_alnum_char c = true) :
    (taoxml_t.ctor.parse ("<".toList ++ n ++ "/>".toList)).2._root._children
      = [node_base_t.node (node_node_t.ctor.set_tag n)]
    ∧ (taoxml_t.ctor.parse ("<".toList ++ n ++ "></".toList ++ n ++ ">".toList)).2._root._children
      = [node_base_t.node (node_node_t.ctor.set_tag n)]
    ∧ (node_node_t.ctor.set_tag n).tag = n ∧ (node_node_t.ctor.set_tag n).size_attr = 0
    ∧ (node_node_t.ctor.set_tag n).size = 0 := by
  refine ⟨?_, ?_, rfl, rfl, rfl⟩
  · apply parse_single _ n _ token.close2 (Or.inr rfl)
    rw [doc_self_closed_eq n]
    exact parse_node_self_closed _ node_node_t.ctor n [] [] none hn hna
  · apply parse_single _ n _ token.close (Or.inl rfl)
    rw [doc_open_close_eq n n]
    have hlen : ('<' :: (n ++ '>' :: '<' :: '/' :: (n ++ '>' :: []))).length + 1
        = (n.length + n.length + 4) + 2 := by
      simp only [List.length_cons, List.length_append, List.length_nil]
      omega
    rw [hlen]
    exact parse_node_open_close _ node_node_t.ctor n n [] [] none hn hna hn hna

/-- C5 at `n = a`: `<a/>` and `<a></a>`. -/
theorem C5_self_closing_equals_open_close_witness :
    "a".toList ≠ [] ∧ (∀ c ∈ "a".toList, is_alnum_char c = true)
    ∧ (taoxml_t.ctor.parse "<a/>".toList).2._root._children
      = [node_base_t.node (node_node_t.ctor.set_tag "a".toList)]
    ∧ (taoxml_t.ctor.parse "<a></a>".toList).2._root._children
      = [node_base_t.node (node_node_t.ctor.set_tag "a".toList)] :=
  ⟨by decide, by decide,
    (C5_self_closing_equals_open_close "a".toList (by decide) (by decide)).1,
    (C5_self_closing_equals_open_close "a".toList (by decide) (by decide)).2.1⟩

/-! ## Text content -/

theorem parse_children_stop_pos
    (pn : taoxml_t → Option node_base_t → token × Option node_base_t × taoxml_t)
    (fuel : Nat) (nn : element) (cnode : Option node_base_t) (s : taoxml_t) (hf : 0 < fuel)
    (h : (pn s cnode).1 = token.close3 ∨ (pn s cnode).1 = token.error) :
    parse_children pn fuel nn cnode s
      = ((pn s cnode).1, nn, (pn s cnode).2.1, (pn s cnode).2.2) := by
  obtain ⟨k, rfl⟩ := Nat.exists_eq_succ_of_ne_zero (Nat.pos_iff_ne_zero.mp hf)
  exact parse_children_stop pn k nn cnode s h

theorem parse_children_step_pos
    (pn : taoxml_t → Option node_base_t → token × Option node_base_t × taoxml_t)
    (fuel : Nat) (nn : element) (cnode : Option node_base_t) (s : taoxml_t) (hf : 0 < fuel)
    (h3 : (pn s cnode).1 ≠ token.close3) (he : (pn s cnode).1 ≠ token.error) :
    parse_children pn fuel nn cnode s
      = parse_children pn (fuel - 1)
          (match (pn s cnode).2.1 with
           | some c => nn.add_child c
           | none => nn)
          (pn s cnode).2.1 (pn s cnode).2.2 := by
  obtain ⟨k, rfl⟩ := Nat.exists_eq_succ_of_ne_zero (Nat.pos_iff_ne_zero.mp hf)
  exact parse_children_step pn k nn cnode s h3 he

theorem decode_fuel_no_NUL : ∀ (f : Nat) (t : List Char), (∀ c ∈ t, c ≠ NUL) →
    ∀ c ∈ decode_fuel f t, c ≠ NUL
  | 0, _, _ => by simp [decode_fuel]
  | _ + 1, [], _ => by simp [decode_fuel]
  | f + 1, a :: t, h => by
    have ha : a ≠ NUL := h a (List.mem_cons_self _ _)
    have ht : ∀ c ∈ t, c ≠ NUL := fun c hc => h c (List.mem_cons_of_mem _ hc)
    have hd : ∀ k, ∀ c ∈ t.drop k, c ≠ NUL := fun k c hc => ht c (List.mem_of_mem_drop hc)
    have hamp : ('&' : Char) ≠ NUL := by decide
    have htab : ∀ e ∈ ref_entities, e.2 ≠ NUL := by decide
    simp only [decode_fuel]
    split
    · split
      · rename_i name ch hl
        have hmem : (name, ch) ∈ ref_entities := List.mem_of_find?_eq_some hl
        intro c hc
        rcases List.mem_cons.mp hc with rfl | hc
        · exact htab _ hmem
        · exact decode_fuel_no_NUL f _ (hd _) c hc
      · intro c hc
        rcases List.mem_cons.mp hc with rfl | hc
        · exact hamp
        · exact decode_fuel_no_NUL f t ht c hc
    · intro c hc
      rcases List.mem_cons.mp hc with rfl | hc
      · exact ha
      · exact decode_fuel_no_NUL f t ht c hc

theorem decode_ref_no_NUL (t : List Char) (h : ∀ c ∈ t, c ≠ NUL) :
    ∀ c ∈ decode_ref t, c ≠ NUL :=
  decode_fuel_no_NUL t.length t h

theorem is_empty_iff (root : element) (p : List Char) :
    ∀ tk : List Char, (∀ c ∈ tk, c ≠ NUL) →
      (taoxml_t._is_empty ⟨root, p, tk⟩ = true ↔ ∀ c ∈ tk, is_ws_char c = true)
  | [], _ => by simp [taoxml_t._is_empty, cur_nil]
  | a :: tk, h => by
    have ha : a ≠ NUL := h a (List.mem_cons_self _ _)
    have ih := is_empty_iff root p tk (fun c hc => h c (List.mem_cons_of_mem _ hc))
    simp only [taoxml_t._is_empty] at ih ⊢
    cases hw : is_ws_char a with
    | true => simp [List.dropWhile, hw, ih]
    | false => simp [List.dropWhile, hw, cur_cons, ha]

theorem is_ws_char_iff (c : Char) :
    is_ws_char c = true ↔ (c = ' ' ∨ c = '\t' ∨ c = '\r' ∨ c = '\n') := by
  simp only [is_ws_char, Bool.or_eq_true, beq_iff_eq]
  tauto

/-- An element with an empty header whose content is one run of text. -/
theorem parse_node_text_content (d : Nat) (root : element) (n m t rest tk : List Char)
    (node : Option node_base_t) (hne : n ≠ []) (hn : ∀ c ∈ n, is_alnum_char c = true)
    (hme : m ≠ []) (hm : ∀ c ∈ m, is_alnum_char c = true)
    (hte : t ≠ []) (ht : ∀ c ∈ t, is_text_char c = true) :
    taoxml_t._parse_node (d + 2)
        ⟨root, '<' :: (n ++ '>' :: (t ++ '<' :: '/' :: (m ++ '>' :: rest))), tk⟩ node
      = (token.close,
          some (node_base_t.node
            (if taoxml_t._is_empty ⟨root, '<' :: '/' :: (m ++ '>' :: rest), decode_ref t⟩
              then node_node_t.ctor.set_tag n
              else (node_node_t.ctor.set_tag n).add_child (node_base_t.text ⟨decode_ref t⟩))),
          ⟨root, rest, m⟩) := by
  have hb : is_text_char (cur ('<' :: '/' :: (m ++ '>' :: rest))) = false := by
    rw [cur_cons]; decide
  have h1 := parse_node_text d root t ('<' :: '/' :: (m ++ '>' :: rest)) n none hte ht hb
  rw [parse_node_succ]
  simp only [token_open root n ('>' :: (t ++ '<' :: '/' :: (m ++ '>' :: rest))) tk hne hn
    (show is_alnum_char '>' = false by decide)]
  simp only [parse_attrs_open2]
  rw [parse_children_step_pos _ _ _ _ _ (by simp) (by rw [h1]; simp) (by rw [h1]; simp)]
  rw [h1]
  have h2 : ∀ (nn : element) (cn : Option node_base_t),
      taoxml_t._parse_node (d + 1) ⟨root, '<' :: '/' :: (m ++ '>' :: rest), decode_ref t⟩ cn
        = (token.close3, cn, ⟨root, rest, m⟩) :=
    fun _ cn => parse_node_closer d root m rest _ cn hme hm
  rw [parse_children_stop_pos _ _ _ _ _ (by simp) (by rw [h2 node_node_t.ctor]; simp)]
  rw [h2 node_node_t.ctor]
  cases hemp : taoxml_t._is_empty ⟨root, '<' :: '/' :: (m ++ '>' :: rest), decode_ref t⟩ <;>
    simp

theorem doc_text_content_eq (t : List Char) :
    "<a>".toList ++ t ++ "</a>".toList
      = '<' :: (['a'] ++ '>' :: (t ++ '<' :: '/' :: (['a'] ++ '>' :: []))) := by
  simp

/-- C6: for every non-empty run `t` of characters other than `<`, `>` and NUL,
parsing `<a>t</a>` leaves under the root the element a, which has no children
when the reference decoding of `t` consists only of space, tab, CR and LF, and
otherwise has exactly one child, the text node whose value is that decoding. -/
theorem C6_text_child_unless_whitespace (t : List Char) (hne : t ≠ [])
    (ht : ∀ c ∈ t, c ≠ '<' ∧ c ≠ '>' ∧ c ≠ NUL) :
    ((∀ c ∈ decode_ref t, c = ' ' ∨ c = '\t' ∨ c = '\r' ∨ c = '\n') →
      (taoxml_t.ctor.parse ("<a>".toList ++ t ++ "</a>".toList)).2._root._children
        = [node_base_t.node (node_node_t.ctor.set_tag "a".toList)])
    ∧ (¬ (∀ c ∈ decode_ref t, c = ' ' ∨ c = '\t' ∨ c = '\r' ∨ c = '\n') →
      (taoxml_t.ctor.parse ("<a>".toList ++ t ++ "</a>".toList)).2._root._children
        = [node_base_t.node
            ((node_node_t.ctor.set_tag "a".toList).add_child (node_base_t.text ⟨decode_ref t⟩))])
    ∧ (node_node_t.ctor.set_tag "a".toList)._children = []
    ∧ ((node_node_t.ctor.set_tag "a".toList).add_child
          (node_base_t.text ⟨decode_ref t⟩))._children
        = [node_base_t.text ⟨decode_ref t⟩] := by
  have htext : ∀ c ∈ t, is_text_char c = true := by
    intro c hc
    simp [is_text_char, (ht c hc).1, (ht c hc).2.1, (ht c hc).2.2]
  have hnul : ∀ c ∈ decode_ref t, c ≠ NUL :=
    decode_ref_no_NUL t (fun c hc => (ht c hc).2.2)
  have hemp := is_empty_iff node_node_t.ctor ('<' :: '/' :: (['a'] ++ '>' :: [])) (decode_ref t) hnul
  have hlen : ('<' :: (['a'] ++ '>' :: (t ++ '<' :: '/' :: (['a'] ++ '>' :: [])))).length + 1
      = (t.length + 6) + 2 := by
    simp only [List.length_cons, List.length_append, List.length_nil]
    omega
  have hnode := parse_node_text_content (t.length + 6) node_node_t.ctor ['a'] ['a'] t [] [] none
    (by decide) (by decide) (by decide) (by decide) hne htext
  rw [← hlen, ← doc_text_content_eq t] at hnode
  refine ⟨?_, ?_, rfl, rfl⟩
  · intro hall
    have he : taoxml_t._is_empty
        ⟨node_node_t.ctor, '<' :: '/' :: (['a'] ++ '>' :: []), decode_ref t⟩ = true :=
      hemp.mpr (fun c hc => (is_ws_char_iff c).mpr (hall c hc))
    rw [he] at hnode
    exact parse_single _ _ _ token.close (Or.inl rfl) hnode
  · intro hnot
    have he : taoxml_t._is_empty
        ⟨node_node_t.ctor, '<' :: '/' :: (['a'] ++ '>' :: []), decode_ref t⟩ = false := by
      cases h : taoxml_t._is_empty
          ⟨node_node_t.ctor, '<' :: '/' :: (['a'] ++ '>' :: []), decode_ref t⟩ with
      | false => rfl
      | true =>
        exact absurd (fun c hc => (is_ws_char_iff c).mp (hemp.mp h c hc)) hnot
    rw [he] at hnode
    exact parse_single _ _ _ token.close (Or.inl rfl) hnode

/-- C6 at `t = " &nbsp; "` (whitespace once decoded) and at `t = "x &lt; y"`. -/
theorem C6_text_child_unless_whitespace_witness :
    (" &nbsp; ".toList ≠ [] ∧ (∀ c ∈ " &nbsp; ".toList, c ≠ '<' ∧ c ≠ '>' ∧ c ≠ NUL)
      ∧ (∀ c ∈ decode_ref " &nbsp; ".toList, c = ' ' ∨ c = '\t' ∨ c = '\r' ∨ c = '\n')
      ∧ (taoxml_t.ctor.parse ("<a>".toList ++ " &nbsp; ".toList ++ "</a>".toList)).2._root._children
        = [node_base_t.node (node_node_t.ctor.set_tag "a".toList)])
    ∧ ("x &lt; y".toList ≠ [] ∧ (∀ c ∈ "x &lt; y".toList, c ≠ '<' ∧ c ≠ '>' ∧ c ≠ NUL)
      ∧ ¬ (∀ c ∈ decode_ref "x &lt; y".toList, c = ' ' ∨ c = '\t' ∨ c = '\r' ∨ c = '\n')
      ∧ (taoxml_t.ctor.parse ("<a>".toList ++ "x &lt; y".toList ++ "</a>".toList)).2._root._children
        = [node_base_t.node ((node_node_t.ctor.set_tag "a".toList).add_child
            (node_base_t.text ⟨decode_ref "x &lt; y".toList⟩))]) :=
  ⟨⟨by decide, by decide, by decide,
      (C6_text_child_unless_whitespace " &nbsp; ".toList (by decide) (by decide)).1 (by decide)⟩,
    ⟨by decide, by decide, by decide,
      (C6_text_child_unless_whitespace "x &lt; y".toList (by decide) (by decide)).2.1
        (by decide)⟩⟩

/-! ## Traversal cursor and find-chain -/

theorem child_matches_nil (c : node_base_t) : child_matches [] c = true := by
  simp [child_matches]

theorem child_matches_tagged (t : List Char) (ht : t ≠ []) (c : node_base_t) :
    child_matches t c = is_element_tagged t c := by
  have hl : t.length ≠ 0 := fun h => ht (List.eq_nil_of_length_eq_zero h)
  cases c with
  | node n =>
    simp [child_matches, is_element_tagged, node_base_t.type, node_base_t.to_node,
      node_node_t.tag, hl]
  | text x =>
    simp [child_matches, is_element_tagged, node_base_t.type, node_base_t.to_node, hl]

theorem next_scan_none (f : List Char) :
    ∀ (l : List node_base_t) (i : Int), next_scan f l i = none →
      l.filter (child_matches f) = []
  | [], _, _ => rfl
  | c :: l, i, h => by
    rw [next_scan] at h
    split at h
    · cases h
    · rename_i hc
      simp only [List.filter, hc]
      exact next_scan_none f l (i + 1) h

theorem next_scan_some (f : List Char) :
    ∀ (l : List node_base_t) (i j : Int) (c : node_base_t), next_scan f l i = some (j, c) →
      ∃ pre post, l = pre ++ c :: post ∧ pre.filter (child_matches f) = []
        ∧ child_matches f c = true ∧ j = i + (pre.length : Int)
  | [], _, _, _, h => by simp [next_scan] at h
  | a :: l, i, j, c, h => by
    rw [next_scan] at h
    split at h
    · rename_i ha
      simp only [Option.some.injEq, Prod.mk.injEq] at h
      obtain ⟨rfl, rfl⟩ := h
      exact ⟨[], l, rfl, rfl, ha, by simp⟩
    · rename_i ha
      obtain ⟨pre, post, hl, hpre, hc, hj⟩ := next_scan_some f l (i + 1) j c h
      refine ⟨a :: pre, post, by rw [hl]; rfl, ?_, hc, ?_⟩
      · simp only [List.filter, ha]
        exact hpre
      · rw [hj]
        simp only [List.length_cons, Nat.cast_add, Nat.cast_one]
        omega

theorem take_append_replicate {α : Type} (a : α) :
    ∀ (k : Nat) (X : List α) (m n : Nat), k ≤ m → k ≤ n →
      (X ++ List.replicate m a).take k = (X ++ List.replicate n a).take k
  | 0, _, _, _, _, _ => by simp
  | k + 1, [], m, n, hm, hn => by
    obtain ⟨m', rfl⟩ := Nat.exists_eq_succ_of_ne_zero (by omega : m ≠ 0)
    obtain ⟨n', rfl⟩ := Nat.exists_eq_succ_of_ne_zero (by omega : n ≠ 0)
    have ih := take_append_replicate a k [] m' n' (by omega) (by omega)
    simp only [List.nil_append] at ih
    simp only [List.nil_append, List.replicate_succ, List.take_succ_cons, ih]
  | k + 1, x :: X, m, n, hm, hn => by
    have ih := take_append_replicate a k X m n (by omega) (by omega)
    simp only [List.cons_append, List.take_succ_cons, ih]

/-- The results of successive `next` calls from any cursor position at or above -1. -/
theorem next_times_from_cursor :
    ∀ (k : Nat) (e : element), -1 ≤ e._cindex →
      (next_times k e).1
        = ((((e._children.drop (e._cindex + 1).toNat).filter (child_matches e._search)).map some)
            ++ List.replicate k none).take k
  | 0, _, _ => by simp [next_times]
  | k + 1, e, hc => by
    rw [next_times]
    simp only [node_node_t.next]
    cases hs : next_scan e._search (e._children.drop (e._cindex + 1).toNat) (e._cindex + 1) with
    | none =>
      have hf := next_scan_none _ _ _ hs
      have ih := next_times_from_cursor k e hc
      rw [hf] at ih
      simp only [ih, hf, List.map_nil, List.nil_append, List.replicate_succ, List.take_succ_cons]
    | some r =>
      obtain ⟨j, c⟩ := r
      obtain ⟨pre, post, hl, hpre, hm, hj⟩ := next_scan_some _ _ _ _ _ hs
      have hj1 : (j + 1).toNat = (e._cindex + 1).toNat + (pre.length + 1) := by omega
      have hdrop : e._children.drop (j + 1).toNat = post := by
        rw [hj1, ← List.drop_drop, hl]
        simp
      have ih := next_times_from_cursor k { e with _cindex := j } (by simp only; omega)
      simp only at ih
      rw [hdrop] at ih
      simp only [ih, hl, List.filter_append, hpre, List.nil_append, List.filter, hm, List.map_cons,
        List.cons_append, List.take_succ_cons]
      rw [take_append_replicate none k _ (k + 1) k (by omega) le_rfl]

theorem next_times_after_select (e : element) (f : List Char) (k : Nat) :
    (next_times k (e.select f)).1
      = (((e._children.filter (child_matches f)).map some) ++ List.replicate k none).take k := by
  have h := next_times_from_cursor k (e.select f) (by simp [node_node_t.select])
  simpa [node_node_t.select] using h

/-- C8: after `e.select(f)`, the first `k` results of `e.next()` are, for every `k`,
the first `k` entries of the list made of the children of `e` that match `f`, in
document order, followed by nulls only; every child matches the empty filter,
and a non-empty filter is matched exactly by the Element children whose tag
equals it. -/
theorem C8_filtered_traversal (e : element) (f : List Char) (k : Nat) :
    (next_times k (e.select f)).1
        = (((e._children.filter (child_matches f)).map some) ++ List.replicate k none).take k
    ∧ (∀ c : node_base_t, child_matches [] c = true)
    ∧ (f ≠ [] → ∀ c : node_base_t, child_matches f c = is_element_tagged f c) :=
  ⟨next_times_after_select e f k, child_matches_nil, fun hf c => child_matches_tagged f hf c⟩

/-- C8 on the element a parsed from `<a><b/>text<c/><b/></a>`: `select("b")` yields
children 0 and 3 and then null, `select("")` yields children 0, 1, 2, 3 and then
null. -/
theorem C8_filtered_traversal_witness :
    ∃ a : element,
      (taoxml_t.ctor.parse "<a><b/>text<c/><b/></a>".toList).2._root._children
          = [node_base_t.node a]
      ∧ a._children
          = [node_base_t.node (node_node_t.ctor.set_tag "b".toList),
             node_base_t.text ⟨"text".toList⟩,
             node_base_t.node (node_node_t.ctor.set_tag "c".toList),
             node_base_t.node (node_node_t.ctor.set_tag "b".toList)]
      ∧ "b".toList ≠ []
      ∧ (next_times 3 (a.select "b".toList)).1 = [a._children[0]?, a._children[3]?, none]
      ∧ ((a.select "b".toList).next).2._cindex = 0
      ∧ (((a.select "b".toList).next).2.next).2._cindex = 3
      ∧ (next_times 5 (a.select [])).1
          = [a._children[0]?, a._children[1]?, a._children[2]?, a._children[3]?, none]
      ∧ (next_times 3 (a.select "b".toList)).1
          = (((a._children.filter (child_matches "b".toList)).map some)
              ++ List.replicate 3 none).take 3
      ∧ (∀ c : node_base_t, child_matches "b".toList c = is_element_tagged "b".toList c) :=
  ⟨{ node_node_t.ctor with
      _tag := "a".toList,
      _children :=
        [node_base_t.node (node_node_t.ctor.set_tag "b".toList),
         node_base_t.text ⟨"text".toList⟩,
         node_base_t.node (node_node_t.ctor.set_tag "c".toList),
         node_base_t.node (node_node_t.ctor.set_tag "b".toList)] },
    by with_unfolding_all rfl, rfl, by decide, by rfl, by rfl, by rfl, by rfl,
    (C8_filtered_traversal _ "b".toList 3).1,
    (C8_filtered_traversal node_node_t.ctor "b".toList 0).2.2 (by decide)⟩

theorem next_scan_find (f : List Char) :
    ∀ (l : List node_base_t) (i : Int),
      (next_scan f l i).map Prod.snd = l.find? (child_matches f)
  | [], _ => rfl
  | c :: l, i => by
    rw [next_scan, List.find?_cons]
    cases hc : child_matches f c with
    | true => simp
    | false => simpa using next_scan_find f l (i + 1)

theorem subscript_element (e : element) (t : List Char) :
    ((find_node_t.mk (some (node_base_t.node e))).subscript t).1._base
      = e._children.find? (child_matches t) := by
  have h := next_scan_find t e._children 0
  simp only [find_node_t.subscript, node_node_t.next, node_node_t.select]
  simp only [Int.reduceNeg, neg_add_cancel, Int.toNat_zero, List.drop_zero]
  cases hs : next_scan t e._children 0 with
  | none => rw [hs] at h; simpa using h
  | some r => rw [hs] at h; simpa using h

theorem find_chain_null : ∀ tags : List (List Char), (find_chain ⟨none⟩ tags)._base = none
  | [] => rfl
  | _ :: tags => by
    have ih := find_chain_null tags
    simpa [find_chain, find_node_t.subscript] using ih

set_option maxRecDepth 100000 in
/-- C9: indexing a chain that wraps an Element `e` by a non-empty tag `t` gives the
first child of `e`, in document order, that is an Element with tag `t`, and the
not-found chain when there is none; indexing a not-found chain or a chain that
wraps a Text node gives not-found, and so does every further indexing; on the
demo document the path html, body, div, span followed by `to_text()` is the text
node with the decoded value. -/
theorem C9_find_chain_indexing (e : element) (t : List Char) (ht : t ≠ []) :
    ((find_node_t.mk (some (node_base_t.node e))).subscript t).1._base
        = e._children.find? (is_element_tagged t)
    ∧ (∀ u : List Char, ((find_node_t.mk none).subscript u).1._base = none)
    ∧ (∀ (x : text_node_t) (u : List Char),
        ((find_node_t.mk (some (node_base_t.text x))).subscript u).1._base = none)
    ∧ (∀ tags : List (List Char), (find_chain ⟨none⟩ tags)._base = none)
    ∧ (find_chain ⟨some (node_base_t.node (taoxml_t.ctor.parse demo_xml).2.root)⟩
          ["html".toList, "body".toList, "div".toList, "span".toList]).to_text
        = some ⟨"a < b > c & d &unknown e \" f '".toList⟩ := by
  refine ⟨?_, fun _ => rfl, fun _ _ => rfl, find_chain_null, by with_unfolding_all rfl⟩
  rw [subscript_element]
  exact find?_congr_mem _ _ _ (fun c _ => child_matches_tagged t ht c)

set_option maxRecDepth 100000 in
/-- C9 on the root of the parsed demo document, indexed by `html` and by `body`. -/
theorem C9_find_chain_indexing_witness :
    "html".toList ≠ []
    ∧ ((find_node_t.mk (some (node_base_t.node (taoxml_t.ctor.parse demo_xml).2.root))).subscript
          "html".toList).1._base
        = (taoxml_t.ctor.parse demo_xml).2.root._children.find? (is_element_tagged "html".toList)
    ∧ "body".toList ≠ []
    ∧ ((find_node_t.mk (some (node_base_t.node (taoxml_t.ctor.parse demo_xml).2.root))).subscript
          "body".toList).1._base = none :=
  ⟨by decide,
    (C9_find_chain_indexing (taoxml_t.ctor.parse demo_xml).2.root "html".toList (by decide)).1,
    by decide, by with_unfolding_all rfl⟩

/-! ## Attributes in a tag header -/

/-- What the kind of an `in_tag` token says about the character it started at. -/
theorem token_in_tag_kind (root : element) (p tk : List Char) :
    ((taoxml_t._token ⟨root, p, tk⟩ start_condition.in_tag).1 = token.space
        → is_ws_char (cur p) = true)
    ∧ ((taoxml_t._token ⟨root, p, tk⟩ start_condition.in_tag).1 = token.attr
        → is_ws_char (cur p) = false ∧ is_alnum_char (cur p) = true)
    ∧ ((taoxml_t._token ⟨root, p, tk⟩ start_condition.in_tag).1 = token.assign
        → cur p = '=')
    ∧ ((taoxml_t._token ⟨root, p, tk⟩ start_condition.in_tag).1 = token.value
        → cur p = SQUOTE ∨ cur p = DQUOTE) := by
  simp only [taoxml_t._token, taoxml_t._is_ws, taoxml_t._is_alnum]
  cases h1 : is_ws_char (cur p) with
  | true =>
    simp only [if_true]
    refine ⟨fun _ => trivial, ?_, ?_, ?_⟩ <;> (split_ifs <;> simp)
  | false =>
    simp only [Bool.false_eq_true, if_false]
    cases h2 : is_alnum_char (cur p) with
    | true =>
      simp only [if_true]
      refine ⟨?_, ?_, ?_, ?_⟩ <;> (split_ifs <;> simp)
    | false =>
      simp only [Bool.false_eq_true, if_false]
      by_cases h3 : cur p = '='
      · simp [h3]
      · by_cases h4 : cur p = SQUOTE ∨ cur p = DQUOTE
        · simp only [beq_iff_eq, h3, if_false, Bool.or_eq_true, h4, if_true]
          cases (accumulate (value_func (cur p)) p.tail.length ⟨root, p.tail, []⟩ 0).1 with
          | none => simp
          | some n =>
            refine ⟨?_, ?_, ?_, ?_⟩ <;> (split_ifs <;> simp)
        · simp only [beq_iff_eq, h3, if_false, Bool.or_eq_true, h4]
          refine ⟨?_, ?_, ?_, ?_⟩ <;> (split_ifs <;> simp)

theorem token_past_space_run (root : element) (w rest tk : List Char)
    (hw : ∀ c ∈ w, is_ws_char c = true) (hrest : is_ws_char (cur rest) = false) :
    taoxml_t._token_past_space ⟨root, w ++ rest, tk⟩
      = taoxml_t._token ⟨root, rest, if w = [] then tk else w⟩ start_condition.in_tag := by
  cases w with
  | nil =>
    have hk := (token_in_tag_kind root rest tk).1
    have hne : (taoxml_t._token ⟨root, rest, tk⟩ start_condition.in_tag).1 ≠ token.space := by
      intro h
      rw [hk h] at hrest
      cases hrest
    simp [taoxml_t._token_past_space, hne]
  | cons c w =>
    have h := token_space root (c :: w) rest tk (by simp) hw hrest
    simp only [taoxml_t._token_past_space, h]
    simp

theorem not_alnum_cur_ws_append (w rest : List Char) (hw : ∀ c ∈ w, is_ws_char c = true)
    (hr : is_alnum_char (cur rest) = false) : is_alnum_char (cur (w ++ rest)) = false := by
  cases w with
  | nil => exact hr
  | cons c w => exact ws_not_alnum c (hw c (List.mem_cons_self _ _))

theorem not_ws_cur_alnum_append (k rest : List Char) (hk : k ≠ [])
    (hka : ∀ c ∈ k, is_alnum_char c = true) : is_ws_char (cur (k ++ rest)) = false := by
  cases k with
  | nil => exact absurd rfl hk
  | cons c k => exact alnum_not_ws c (hka c (List.mem_cons_self _ _))

/-- One well-formed attribute takes two rounds of the attribute loop. -/
theorem parse_attrs_pair (fuel : Nat) (nn root : element) (a : attr_src) (rest tk : List Char)
    (ha : a.well_formed) :
    taoxml_t._parse_attrs (fuel + 2) nn ⟨root, a.text_then rest, tk⟩
      = taoxml_t._parse_attrs fuel (nn.add_attr a.key a.value) ⟨root, rest, a.value⟩ := by
  obtain ⟨hl, hlw, hk, hka, hpre, hpost, hq, hraw⟩ := ha
  have hqws : is_ws_char a.quote = false := by rcases hq with h | h <;> rw [h] <;> decide
  have h1 := token_space root a.lead
    (a.key ++ (a.pre ++ '=' :: (a.post ++ a.quote :: (a.raw ++ a.quote :: rest)))) tk hl hlw
    (not_ws_cur_alnum_append a.key _ hk hka)
  have h2 := token_attr root a.key
    (a.pre ++ '=' :: (a.post ++ a.quote :: (a.raw ++ a.quote :: rest))) a.lead hk hka
    (not_alnum_cur_ws_append a.pre _ hpre (by rw [cur_cons]; decide))
  have h3 := token_past_space_run root a.pre
    ('=' :: (a.post ++ a.quote :: (a.raw ++ a.quote :: rest))) a.key hpre
    (by rw [cur_cons]; decide)
  have h4 := fun t => token_past_space_run root a.post
    (a.quote :: (a.raw ++ a.quote :: rest)) t hpost (by rw [cur_cons]; exact hqws)
  rw [attr_src.text_then, parse_attrs_succ]
  simp only [h1, beq_self_eq_true, if_true]
  rw [parse_attrs_succ]
  simp only [h2, h3, token_assign, h4, token_value root a.quote hq a.raw rest _ hraw]
  simp [attr_src.value]

theorem parse_attrs_header (root : element) (rest : List Char) :
    ∀ (attrs : List attr_src) (fuel : Nat) (nn : element) (tk : List Char),
      (∀ a ∈ attrs, a.well_formed) →
      taoxml_t._parse_attrs (fuel + 2 * attrs.length) nn ⟨root, header_then attrs rest, tk⟩
        = taoxml_t._parse_attrs fuel (add_attrs nn attrs)
            ⟨root, rest, attrs.foldl (fun _ a => a.value) tk⟩
  | [], fuel, nn, tk, _ => by simp [header_then, add_attrs]
  | a :: attrs, fuel, nn, tk, h => by
    have ha := h a (List.mem_cons_self _ _)
    have ih := parse_attrs_header root rest attrs fuel (nn.add_attr a.key a.value) a.value
      (fun b hb => h b (List.mem_cons_of_mem _ hb))
    have hf : fuel + 2 * (a :: attrs).length = (fuel + 2 * attrs.length) + 2 := by
      simp only [List.length_cons]
      omega
    rw [hf, header_then, parse_attrs_pair _ nn root a _ tk ha, ih]
    simp [add_attrs]

theorem parse_attrs_end_close2 (fuel : Nat) (nn root : element) (tl rest tk : List Char)
    (htl : ∀ c ∈ tl, is_ws_char c = true) :
    taoxml_t._parse_attrs (fuel + 2) nn ⟨root, tl ++ '/' :: '>' :: rest, tk⟩
      = (some (token.close2, nn), ⟨root, rest, if tl = [] then tk else tl⟩) := by
  cases tl with
  | nil => simpa using parse_attrs_close2 (fuel + 1) nn root rest tk
  | cons c tl =>
    have h := token_space root (c :: tl) ('/' :: '>' :: rest) tk (by simp) htl
      (by rw [cur_cons]; decide)
    rw [parse_attrs_succ]
    simp only [h, beq_self_eq_true, if_true]
    rw [parse_attrs_close2]
    simp

theorem header_then_length (rest : List Char) :
    ∀ attrs : List attr_src, (∀ a ∈ attrs, a.well_formed) →
      2 * attrs.length + rest.length ≤ (header_then attrs rest).length
  | [], _ => by simp [header_then]
  | a :: attrs, h => by
    have ih := header_then_length rest attrs (fun b hb => h b (List.mem_cons_of_mem _ hb))
    obtain ⟨hl, -, hk, -⟩ := h a (List.mem_cons_self _ _)
    have h1 : 0 < a.lead.length := List.length_pos.mpr hl
    have h2 : 0 < a.key.length := List.length_pos.mpr hk
    simp only [header_then, attr_src.text_then, List.length_append, List.length_cons]
    omega

theorem header_then_cur_not_alnum (rest : List Char) (hr : is_alnum_char (cur rest) = false) :
    ∀ attrs : List attr_src, (∀ a ∈ attrs, a.well_formed) →
      is_alnum_char (cur (header_then attrs rest)) = false
  | [], _ => hr
  | a :: attrs, h => by
    obtain ⟨hl, hlw, -⟩ := h a (List.mem_cons_self _ _)
    rw [header_then, attr_src.text_then, cur_append_of_ne_nil _ _ hl]
    exact ws_not_alnum _ (hlw _ (cur_mem _ hl))

/-- A self-closed element with well-formed attributes and optional whitespace
before `/>`. -/
theorem parse_node_attrs_self_closed (d : Nat) (root : element) (tag : List Char)
    (attrs : List attr_src) (tl rest tk : List Char) (node : Option node_base_t)
    (htag : tag ≠ []) (htaga : ∀ c ∈ tag, is_alnum_char c = true)
    (hattrs : ∀ a ∈ attrs, a.well_formed) (htl : ∀ c ∈ tl, is_ws_char c = true) :
    taoxml_t._parse_node (d + 1)
        ⟨root, '<' :: (tag ++ header_then attrs (tl ++ '/' :: '>' :: rest)), tk⟩ node
      = (token.close2, some (node_base_t.node (add_attrs (node_node_t.ctor.set_tag tag) attrs)),
          ⟨root, rest, if tl = [] then attrs.foldl (fun _ a => a.value) tag else tl⟩) := by
  have hcur : is_alnum_char (cur (header_then attrs (tl ++ '/' :: '>' :: rest))) = false :=
    header_then_cur_not_alnum _
      (not_alnum_cur_ws_append tl _ htl (by rw [cur_cons]; decide)) attrs hattrs
  have hlen := header_then_length (tl ++ '/' :: '>' :: rest) attrs hattrs
  simp only [List.length_append, List.length_cons] at hlen
  obtain ⟨f, hf⟩ : ∃ f, (header_then attrs (tl ++ '/' :: '>' :: rest)).length + 1
      = (f + 2) + 2 * attrs.length :=
    ⟨(header_then attrs (tl ++ '/' :: '>' :: rest)).length + 1 - 2 - 2 * attrs.length, by omega⟩
  rw [parse_node_succ]
  simp only [token_open root tag _ tk htag htaga hcur]
  simp only [beq_self_eq_true, if_true, hf, reduceCtorEq, beq_iff_eq, if_false]
  rw [parse_attrs_header root _ attrs (f + 2) _ tag hattrs,
    parse_attrs_end_close2 f _ root tl rest _ htl]
  simp

/-! ## The attribute map -/

theorem string_less_irrefl : ∀ a : List Char, string_less a a = false
  | [] => rfl
  | c :: a => by simp [string_less, string_less_irrefl a]

theorem string_less_trichotomy : ∀ a b : List Char,
    string_less a b = false → string_less b a = false → a = b
  | [], [], _, _ => rfl
  | [], _ :: _, h, _ => by simp [string_less] at h
  | _ :: _, [], _, h => by simp [string_less] at h
  | x :: a, y :: b, h1, h2 => by
    simp only [string_less] at h1 h2
    by_cases hxy : x.toNat < y.toNat
    · simp [hxy] at h1
    · by_cases hyx : y.toNat < x.toNat
      · simp [hyx] at h2
      · simp only [hxy, hyx, if_false] at h1 h2
        have hn : x.toNat = y.toNat := by omega
        have hc : x = y := by rw [← Char.ofNat_toNat x, ← Char.ofNat_toNat y, hn]
        rw [hc, string_less_trichotomy a b h1 h2]

theorem string_less_trans : ∀ a b c : List Char,
    string_less a b = true → string_less b c = true → string_less a c = true
  | [], [], _, h, _ => by simp [string_less] at h
  | [], _ :: _, [], _, h => by simp [string_less] at h
  | [], _ :: _, _ :: _, _, _ => rfl
  | _ :: _, [], _, h, _ => by simp [string_less] at h
  | _ :: _, _ :: _, [], _, h => by simp [string_less] at h
  | x :: a, y :: b, z :: c, h1, h2 => by
    simp only [string_less] at h1 h2 ⊢
    by_cases hxy : x.toNat < y.toNat
    · by_cases hyz : y.toNat < z.toNat
      · simp [show x.toNat < z.toNat by omega]
      · by_cases hzy : z.toNat < y.toNat
        · simp [hyz, hzy] at h2
        · simp [show x.toNat < z.toNat by omega]
    · by_cases hyx : y.toNat < x.toNat
      · simp [hxy, hyx] at h1
      · simp only [hxy, hyx, if_false] at h1
        by_cases hyz : y.toNat < z.toNat
        · simp [show x.toNat < z.toNat by omega]
        · by_cases hzy : z.toNat < y.toNat
          · simp [hyz, hzy] at h2
          · simp only [hyz, hzy, if_false] at h2
            simp [show ¬ x.toNat < z.toNat by omega, show ¬ z.toNat < x.toNat by omega,
              string_less_trans a b c h1 h2]

theorem map_assign_keys (key val : List Char) :
    ∀ (m : attr_t) (x : List Char),
      x ∈ (map_assign m key val).map Prod.fst ↔ x = key ∨ x ∈ m.map Prod.fst
  | [], x => by simp [map_assign]
  | (k, v) :: rest, x => by
    have ih := map_assign_keys key val rest x
    rw [map_assign]
    split
    · simp
    · split
      · simp only [List.map_cons, List.mem_cons, ih]
        tauto
      · rename_i h1 h2
        have hk : key = k :=
          string_less_trichotomy key k (by simpa using h1) (by simpa using h2)
        subst hk
        simp

theorem map_assign_sorted (key val : List Char) :
    ∀ m : attr_t, m.Pairwise (fun a b => string_less a.1 b.1 = true) →
      (map_assign m key val).Pairwise (fun a b => string_less a.1 b.1 = true)
  | [], _ => by simp [map_assign]
  | (k, v) :: rest, h => by
    have hrest := (List.pairwise_cons.mp h).2
    have hk := (List.pairwise_cons.mp h).1
    rw [map_assign]
    split
    · rename_i hlt
      refine List.pairwise_cons.mpr ⟨?_, h⟩
      intro b hb
      rcases List.mem_cons.mp hb with rfl | hb
      · exact hlt
      · exact string_less_trans _ _ _ hlt (hk b hb)
    · split
      · rename_i hlt
        refine List.pairwise_cons.mpr ⟨?_, map_assign_sorted key val rest hrest⟩
        intro b hb
        have hbk : b.1 ∈ (map_assign rest key val).map Prod.fst := List.mem_map_of_mem _ hb
        rcases (map_assign_keys key val rest b.1).mp hbk with h1 | h1
        · rw [h1]; exact hlt
        · obtain ⟨b', hb', hbe⟩ := List.mem_map.mp h1
          rw [← hbe]
          exact hk b' hb'
      · exact List.pairwise_cons.mpr ⟨fun b hb => hk b hb, hrest⟩

theorem lookup_cons_self (k v : List Char) (l : attr_t) :
    List.lookup k ((k, v) :: l) = some v := by
  simp [List.lookup]

theorem lookup_cons_of_ne (x k v : List Char) (l : attr_t) (h : x ≠ k) :
    List.lookup x ((k, v) :: l) = List.lookup x l := by
  simp [List.lookup, beq_false_of_ne h]

theorem map_assign_lookup (key val : List Char) :
    ∀ (m : attr_t) (x : List Char),
      (map_assign m key val).lookup x = if x = key then some val else m.lookup x
  | [], x => by
    rw [map_assign]
    by_cases hx : x = key
    · subst hx; simp [lookup_cons_self]
    · simp [lookup_cons_of_ne _ _ _ _ hx, hx]
  | (k, v) :: rest, x => by
    have ih := map_assign_lookup key val rest x
    rw [map_assign]
    split
    · by_cases hx : x = key
      · subst hx; simp [lookup_cons_self]
      · simp [lookup_cons_of_ne _ _ _ _ hx, hx]
    · split
      · rename_i h1 h2
        have hne : k ≠ key := by
          rintro rfl
          rw [string_less_irrefl] at h2
          cases h2
        by_cases hxk : x = k
        · subst hxk
          simp [lookup_cons_self, hne]
        · simp [lookup_cons_of_ne _ _ _ _ hxk, ih]
      · rename_i h1 h2
        have hk : key = k :=
          string_less_trichotomy key k (by simpa using h1) (by simpa using h2)
        subst hk
        by_cases hx : x = key
        · subst hx; simp [lookup_cons_self]
        · simp [lookup_cons_of_ne _ _ _ _ hx, hx]

theorem sorted_keys_nodup (m : attr_t)
    (h : m.Pairwise (fun a b => string_less a.1 b.1 = true)) : (m.map Prod.fst).Nodup := by
  rw [List.Nodup, List.pairwise_map]
  refine h.imp ?_
  intro a b hab heq
  rw [heq, string_less_irrefl] at hab
  cases hab

theorem add_attrs_eq : ∀ (attrs : List attr_src) (e : element),
    add_attrs e attrs
      = { e with _attrs := attrs.foldl (fun m a => map_assign m a.key a.value) e._attrs }
  | [], _ => rfl
  | a :: attrs, e => by
    have ih := add_attrs_eq attrs (e.add_attr a.key a.value)
    simp only [add_attrs, List.foldl_cons] at ih ⊢
    rw [ih]
    rfl

theorem fold_assign_sorted : ∀ (attrs : List attr_src) (m : attr_t),
    m.Pairwise (fun a b => string_less a.1 b.1 = true) →
    (attrs.foldl (fun m a => map_assign m a.key a.value) m).Pairwise
      (fun a b => string_less a.1 b.1 = true)
  | [], _, h => h
  | a :: attrs, m, h => fold_assign_sorted attrs _ (map_assign_sorted a.key a.value m h)

theorem fold_assign_keys : ∀ (attrs : List attr_src) (m : attr_t) (x : List Char),
    x ∈ (attrs.foldl (fun m a => map_assign m a.key a.value) m).map Prod.fst
      ↔ x ∈ attrs.map attr_src.key ∨ x ∈ m.map Prod.fst
  | [], m, x => by simp
  | a :: attrs, m, x => by
    rw [List.foldl_cons, fold_assign_keys attrs _ x, map_assign_keys]
    simp only [List.map_cons, List.mem_cons]
    tauto

theorem fold_assign_lookup : ∀ (attrs : List attr_src) (m : attr_t) (x : List Char),
    (attrs.foldl (fun m a => map_assign m a.key a.value) m).lookup x
      = match attrs.reverse.find? (fun a => a.key == x) with
        | some a => some a.value
        | none => m.lookup x
  | [], m, x => by simp
  | a :: attrs, m, x => by
    rw [List.foldl_cons, fold_assign_lookup attrs _ x, map_assign_lookup]
    simp only [List.reverse_cons, List.find?_append]
    cases h : attrs.reverse.find? (fun a => a.key == x) with
    | some b => simp
    | none =>
      by_cases hx : x = a.key
      · subst hx; simp [List.find?]
      · have hx1 : (a.key == x) = false := beq_false_of_ne (fun h => hx h.symm)
        simp [List.find?, hx, hx1]

/-- C10: for the element parsed from a header that carries well-formed attributes
in source order, the attribute mapping has no repeated key, its keys are exactly
the keys written, `size_attr()` is the number of distinct keys written, and the
value stored for a key is the value of the last written attribute with that key. -/
theorem C10_attribute_keys_unique_last_wins (tag : List Char) (attrs : List attr_src)
    (tl : List Char) (htag : tag ≠ []) (htaga : ∀ c ∈ tag, is_alnum_char c = true)
    (hattrs : ∀ a ∈ attrs, a.well_formed) (htl : ∀ c ∈ tl, is_ws_char c = true) :
    (taoxml_t.ctor.parse ('<' :: (tag ++ header_then attrs (tl ++ "/>".toList)))).2._root._children
        = [node_base_t.node (add_attrs (node_node_t.ctor.set_tag tag) attrs)]
    ∧ ((add_attrs (node_node_t.ctor.set_tag tag) attrs)._attrs.map Prod.fst).Nodup
    ∧ (∀ k : List Char,
        k ∈ (add_attrs (node_node_t.ctor.set_tag tag) attrs)._attrs.map Prod.fst
          ↔ k ∈ attrs.map attr_src.key)
    ∧ (add_attrs (node_node_t.ctor.set_tag tag) attrs).size_attr
        = (attrs.map attr_src.key).dedup.length
    ∧ (∀ k : List Char,
        (add_attrs (node_node_t.ctor.set_tag tag) attrs)._attrs.lookup k
          = (attrs.reverse.find? (fun a => a.key == k)).map attr_src.value) := by
  have hA : (add_attrs (node_node_t.ctor.set_tag tag) attrs)._attrs
      = attrs.foldl (fun m a => map_assign m a.key a.value) [] := by
    rw [add_attrs_eq]; rfl
  have hsorted := fold_assign_sorted attrs [] List.Pairwise.nil
  have hnodup := sorted_keys_nodup _ hsorted
  have hkeys : ∀ k : List Char,
      k ∈ (attrs.foldl (fun m a => map_assign m a.key a.value) []).map Prod.fst
        ↔ k ∈ attrs.map attr_src.key := by
    intro k
    rw [fold_assign_keys]
    simp
  refine ⟨?_, ?_, ?_, ?_, ?_⟩
  · apply parse_single _ _ _ token.close2 (Or.inr rfl)
    exact parse_node_attrs_self_closed _ node_node_t.ctor tag attrs tl [] [] none
      htag htaga hattrs htl
  · rw [hA]; exact hnodup
  · rw [hA]; exact hkeys
  · rw [node_node_t.size_attr, hA, ← List.length_map _ Prod.fst]
    apply List.Perm.length_eq
    rw [List.perm_ext_iff_of_nodup hnodup (List.nodup_dedup _)]
    intro k
    rw [hkeys, List.mem_dedup]
  · intro k
    rw [hA, fold_assign_lookup]
    cases attrs.reverse.find? (fun a => a.key == k) <;> simp

/-- C10 on `<a x="1" x="2"/>`: one attribute, x = 2. -/
theorem C10_attribute_keys_unique_last_wins_witness :
    "a".toList ≠ [] ∧ (∀ c ∈ "a".toList, is_alnum_char c = true)
    ∧ (∀ a ∈ [attr_src.mk " ".toList "x".toList [] [] DQUOTE "1".toList,
              attr_src.mk " ".toList "x".toList [] [] DQUOTE "2".toList], a.well_formed)
    ∧ (∀ c ∈ ([] : List Char), is_ws_char c = true)
    ∧ (taoxml_t.ctor.parse "<a x=\"1\" x=\"2\"/>".toList).2._root._children
        = [node_base_t.node
            { node_node_t.ctor with
              _tag := "a".toList, _attrs := [("x".toList, "2".toList)] }]
    ∧ (add_attrs (node_node_t.ctor.set_tag "a".toList)
          [attr_src.mk " ".toList "x".toList [] [] DQUOTE "1".toList,
           attr_src.mk " ".toList "x".toList [] [] DQUOTE "2".toList]).size_attr = 1
    ∧ (add_attrs (node_node_t.ctor.set_tag "a".toList)
          [attr_src.mk " ".toList "x".toList [] [] DQUOTE "1".toList,
           attr_src.mk " ".toList "x".toList [] [] DQUOTE "2".toList])._attrs.lookup "x".toList
        = some "2".toList := by
  have hwf : ∀ a ∈ [attr_src.mk " ".toList "x".toList [] [] DQUOTE "1".toList,
      attr_src.mk " ".toList "x".toList [] [] DQUOTE "2".toList], a.well_formed := by
    intro a ha
    simp only [List.mem_cons, List.mem_singleton, List.not_mem_nil, or_false] at ha
    rcases ha with rfl | rfl <;> (unfold attr_src.well_formed; decide)
  have h := C10_attribute_keys_unique_last_wins "a".toList
    [attr_src.mk " ".toList "x".toList [] [] DQUOTE "1".toList,
     attr_src.mk " ".toList "x".toList [] [] DQUOTE "2".toList] [] (by decide) (by decide) hwf
    (by simp)
  exact ⟨by decide, by decide, hwf, by simp, h.1, h.2.2.2.1, h.2.2.2.2 "x".toList⟩

/-! ## Attributes without a value -/

theorem token_value_unterminated (root : element) (q : Char) (hq : q = SQUOTE ∨ q = DQUOTE)
    (raw tk : List Char) (hraw : ∀ c ∈ raw, c ≠ NUL ∧ c ≠ q) :
    (taoxml_t._token ⟨root, q :: raw, tk⟩ start_condition.in_tag).1 = token.error := by
  have h1 : is_ws_char q = false := by rcases hq with rfl | rfl <;> decide
  have h2 : is_alnum_char q = false := by rcases hq with rfl | rfl <;> decide
  have h3 : q ≠ '=' := by rcases hq with rfl | rfl <;> decide
  have h4 : NUL ≠ q := by rcases hq with rfl | rfl <;> decide
  have hv1 : ∀ c ∈ raw, value_func q c = true := by
    intro c hc
    simp [value_func, (hraw c hc).1, (hraw c hc).2]
  have hrest : value_func q (cur []) = false := by simp [value_func, cur_nil]
  have hacc := accumulate_run (value_func q) (value_entity_chars q hq) [] hrest root
    raw.length raw [] 0 le_rfl hv1
  rw [List.append_nil] at hacc
  have hor : (q = SQUOTE ∨ q = DQUOTE) = True := eq_true hq
  simp only [taoxml_t._token, taoxml_t._is_ws, taoxml_t._is_alnum, cur_cons, h1, h2]
  simp only [List.tail_cons, beq_iff_eq, h3, Bool.or_eq_true, hor, if_true, if_false,
    Bool.false_eq_true]
  rw [hacc]
  simp [cur_nil, h4]

theorem parse_attrs_missing_value (fuel : Nat) (nn root : element) (lead key s tk : List Char)
    (hl : lead ≠ []) (hlw : ∀ c ∈ lead, is_ws_char c = true)
    (hk : key ≠ []) (hka : ∀ c ∈ key, is_alnum_char c = true) (hs : no_assigned_value s) :
    (taoxml_t._parse_attrs (fuel + 2) nn ⟨root, lead ++ (key ++ s), tk⟩).1 = none := by
  obtain ⟨hsa, w, bad, rfl, hw, hbws, hcase⟩ := hs
  have h1 := token_space root lead (key ++ (w ++ bad)) tk hl hlw
    (not_ws_cur_alnum_append key _ hk hka)
  have h2 := token_attr root key (w ++ bad) lead hk hka hsa
  have h3 := token_past_space_run root w bad key hw hbws
  rw [parse_attrs_succ]
  simp only [h1, beq_self_eq_true, if_true]
  rw [parse_attrs_succ]
  simp only [h2, h3, reduceCtorEq, beq_iff_eq, if_false, if_true, beq_self_eq_true]
  rcases hcase with hne | ⟨w2, bad2, rfl, hw2, hb2, hq1, hq2⟩ | ⟨w2, q, raw, rfl, hw2, hq, hraw⟩
  · have hk3 := (token_in_tag_kind root bad (if w = [] then key else w)).2.2.1
    have hna : (taoxml_t._token ⟨root, bad, if w = [] then key else w⟩
        start_condition.in_tag).1 ≠ token.assign := fun h => hne (hk3 h)
    simp [hna]
  · have hk4 := fun t => (token_in_tag_kind root bad2 t).2.2.2
    have hnv : ∀ t, (taoxml_t._token ⟨root, bad2, t⟩ start_condition.in_tag).1 ≠ token.value := by
      intro t h
      rcases hk4 t h with h | h
      · exact hq1 h
      · exact hq2 h
    simp only [token_assign, bne_self_eq_false, Bool.false_eq_true, if_false,
      token_past_space_run root w2 bad2 _ hw2 hb2]
    simp [hnv]
  · have hqws : is_ws_char (cur (q :: raw)) = false := by
      rw [cur_cons]; rcases hq with rfl | rfl <;> decide
    simp only [token_assign, bne_self_eq_false, Bool.false_eq_true, if_false,
      token_past_space_run root w2 (q :: raw) _ hw2 hqws]
    simp [token_value_unterminated root q hq raw _ hraw]

/-- C7: in a tag header, after any well-formed attributes, an attribute name that
is not followed (after optional whitespace) by `=` and then (after optional
whitespace) by a closed quoted value makes the node parser return `error` and
leave its out-parameter as it was (no node); on `<a x=1/>` the node parser
returns `error` and the root has no children afterwards. -/
theorem C7_attribute_without_value_fails (d : Nat) (root : element) (tag : List Char)
    (attrs : List attr_src) (lead key s tk : List Char) (node : Option node_base_t)
    (htag : tag ≠ []) (htaga : ∀ c ∈ tag, is_alnum_char c = true)
    (hattrs : ∀ a ∈ attrs, a.well_formed)
    (hl : lead ≠ []) (hlw : ∀ c ∈ lead, is_ws_char c = true)
    (hk : key ≠ []) (hka : ∀ c ∈ key, is_alnum_char c = true) (hs : no_assigned_value s) :
    (taoxml_t._parse_node (d + 1)
        ⟨root, '<' :: (tag ++ header_then attrs (lead ++ (key ++ s))), tk⟩ node).1 = token.error
    ∧ (taoxml_t._parse_node (d + 1)
        ⟨root, '<' :: (tag ++ header_then attrs (lead ++ (key ++ s))), tk⟩ node).2.1 = node
    ∧ (taoxml_t._parse_node ("<a x=1/>".toList.length + 1)
        ⟨node_node_t.ctor, "<a x=1/>".toList, []⟩ none).1 = token.error
    ∧ (taoxml_t.ctor.parse "<a x=1/>".toList).2._root._children = [] := by
  have hcur : is_alnum_char (cur (header_then attrs (lead ++ (key ++ s)))) = false :=
    header_then_cur_not_alnum _
      (by rw [cur_append_of_ne_nil _ _ hl]; exact ws_not_alnum _ (hlw _ (cur_mem _ hl)))
      attrs hattrs
  have hlen := header_then_length (lead ++ (key ++ s)) attrs hattrs
  have h1 : 0 < lead.length := List.length_pos.mpr hl
  have h2 : 0 < key.length := List.length_pos.mpr hk
  simp only [List.length_append] at hlen
  obtain ⟨f, hf⟩ : ∃ f, (header_then attrs (lead ++ (key ++ s))).length + 1
      = (f + 2) + 2 * attrs.length :=
    ⟨(header_then attrs (lead ++ (key ++ s))).length + 1 - 2 - 2 * attrs.length, by omega⟩
  have hnone := fun nn t =>
    parse_attrs_missing_value f nn root lead key s t hl hlw hk hka hs
  have hmain : ∀ x : token × Option node_base_t × taoxml_t,
      x = taoxml_t._parse_node (d + 1)
        ⟨root, '<' :: (tag ++ header_then attrs (lead ++ (key ++ s))), tk⟩ node →
      x.1 = token.error ∧ x.2.1 = node := by
    intro x hx
    rw [parse_node_succ] at hx
    simp only [token_open root tag _ tk htag htaga hcur] at hx
    simp only [beq_self_eq_true, if_true, hf, reduceCtorEq, beq_iff_eq, if_false] at hx
    rw [parse_attrs_header root _ attrs (f + 2) _ tag hattrs] at hx
    simp only [hnone] at hx
    rw [hx]
    exact ⟨rfl, rfl⟩
  exact ⟨(hmain _ rfl).1, (hmain _ rfl).2, by decide!, by with_unfolding_all rfl⟩

/-- C7 on `<a x=1/>`: tag a, no earlier attribute, name x followed by `=1/>`. -/
theorem C7_attribute_without_value_fails_witness :
    "a".toList ≠ [] ∧ (∀ c ∈ "a".toList, is_alnum_char c = true)
    ∧ (∀ a ∈ ([] : List attr_src), a.well_formed)
    ∧ " ".toList ≠ [] ∧ (∀ c ∈ " ".toList, is_ws_char c = true)
    ∧ "x".toList ≠ [] ∧ (∀ c ∈ "x".toList, is_alnum_char c = true)
    ∧ no_assigned_value "=1/>".toList
    ∧ (taoxml_t._parse_node 1 ⟨node_node_t.ctor, "<a x=1/>".toList, []⟩ none).1 = token.error
    ∧ (taoxml_t._parse_node 1 ⟨node_node_t.ctor, "<a x=1/>".toList, []⟩ none).2.1 = none := by
  have hs : no_assigned_value "=1/>".toList :=
    ⟨by decide, [], "=1/>".toList, rfl, by simp, by decide,
      Or.inr (Or.inl ⟨[], "1/>".toList, rfl, by simp, by decide, by decide, by decide⟩)⟩
  have h := C7_attribute_without_value_fails 0 node_node_t.ctor "a".toList [] " ".toList
    "x".toList "=1/>".toList [] none (by decide) (by decide) (by simp) (by decide) (by decide)
    (by decide) (by decide) hs
  exact ⟨by decide, by decide, by simp, by decide, by decide, by decide, by decide, hs,
    h.1, h.2.1⟩

/-! ## Attribute values, and the result of `parse` -/

theorem doc_one_attr_eq (q : Char) (k v : List Char) :
    "<a ".toList ++ k ++ "=".toList ++ [q] ++ v ++ [q] ++ "/>".toList
      = '<' :: (['a'] ++ header_then [attr_src.mk [' '] k [] [] q v] ([] ++ '/' :: '>' :: [])) := by
  simp [header_then, attr_src.text_then]

set_option maxRecDepth 100000 in
/-- C11: for a quote `q` (single or double), a non-empty alphanumeric key `k` and
every `v` that contains neither `q` nor NUL, parsing `<a k=` q v q `/>` gives the
element a whose attribute mapping is the single entry of `k` with the reference
decoding of `v`; a value whose opening quote has no matching quote before the
end of input makes the scanner return `error`; and in the demo document the
attribute `data` of `div` has the value `1 << 20`. -/
theorem C11_attribute_value_between_quotes (q : Char) (hq : q = SQUOTE ∨ q = DQUOTE)
    (k v : List Char) (hk : k ≠ []) (hka : ∀ c ∈ k, is_alnum_char c = true)
    (hv : ∀ c ∈ v, c ≠ q ∧ c ≠ NUL) :
    (taoxml_t.ctor.parse
        ("<a ".toList ++ k ++ "=".toList ++ [q] ++ v ++ [q] ++ "/>".toList)).2._root._children
      = [node_base_t.node
          { node_node_t.ctor with _tag := "a".toList, _attrs := [(k, decode_ref v)] }]
    ∧ (∀ (root : element) (tk : List Char),
        (taoxml_t._token ⟨root, q :: v, tk⟩ start_condition.in_tag).1 = token.error)
    ∧ ((find_chain ⟨some (node_base_t.node (taoxml_t.ctor.parse demo_xml).2.root)⟩
          ["html".toList, "body".toList, "div".toList]).to_node.map
          (fun e => e._attrs.lookup "data".toList))
        = some (some "1 << 20".toList) := by
  have hwf : ∀ a ∈ [attr_src.mk [' '] k [] [] q v], a.well_formed := by
    intro a ha
    rw [List.mem_singleton] at ha
    subst ha
    exact ⟨by simp, by simp [is_ws_char], hk, hka, by simp, by simp, hq,
      fun c hc => ⟨(hv c hc).2, (hv c hc).1⟩⟩
  refine ⟨?_, ?_, by with_unfolding_all rfl⟩
  · rw [doc_one_attr_eq]
    have h := parse_node_attrs_self_closed
      (('<' :: (['a'] ++ header_then [attr_src.mk [' '] k [] [] q v]
        ([] ++ '/' :: '>' :: []))).length)
      node_node_t.ctor ['a'] [attr_src.mk [' '] k [] [] q v] [] [] [] none
      (by decide) (by decide) hwf (by simp)
    exact parse_single _ _ _ token.close2 (Or.inr rfl) h
  · intro root tk
    exact token_value_unterminated root q hq v tk (fun c hc => ⟨(hv c hc).2, (hv c hc).1⟩)

/-- C11 at the double quote with `v` = `1 &lt;&lt; ' > 20`. -/
theorem C11_attribute_value_between_quotes_witness :
    (DQUOTE = SQUOTE ∨ DQUOTE = DQUOTE) ∧ "k".toList ≠ []
    ∧ (∀ c ∈ "k".toList, is_alnum_char c = true)
    ∧ (∀ c ∈ "1 &lt;&lt; ' > 20".toList, c ≠ DQUOTE ∧ c ≠ NUL)
    ∧ (taoxml_t.ctor.parse "<a k=\"1 &lt;&lt; ' > 20\"/>".toList).2._root._children
      = [node_base_t.node
          { node_node_t.ctor with
            _tag := "a".toList, _attrs := [("k".toList, "1 << ' > 20".toList)] }]
    ∧ (taoxml_t._token ⟨node_node_t.ctor, "\"1 &lt;&lt; ' > 20".toList, []⟩
        start_condition.in_tag).1 = token.error :=
  ⟨by decide, by decide, by decide, by decide,
    (C11_attribute_value_between_quotes DQUOTE (by decide) "k".toList "1 &lt;&lt; ' > 20".toList
      (by decide) (by decide) (by decide)).1,
    (C11_attribute_value_between_quotes DQUOTE (by decide) "k".toList "1 &lt;&lt; ' > 20".toList
      (by decide) (by decide) (by decide)).2.1 node_node_t.ctor []⟩

/-- C14: `parse` returns true for every parser state and every input, also on
inputs where the node parser returned `error`, such as `<a x=1/>` and `<a>`. -/
theorem C14_parse_reports_success :
    (∀ (s : taoxml_t) (xml : List Char), (s.parse xml).1 = true)
    ∧ (taoxml_t._parse_node ("<a x=1/>".toList.length + 1)
        ⟨node_node_t.ctor, "<a x=1/>".toList, []⟩ none).1 = token.error
    ∧ (taoxml_t.ctor.parse "<a x=1/>".toList).1 = true
    ∧ (taoxml_t._parse_node ("<a>".toList.length + 1)
        ⟨node_node_t.ctor, "<a>".toList, []⟩ none).1 = token.error
    ∧ (taoxml_t.ctor.parse "<a>".toList).1 = true :=
  ⟨fun _ _ => rfl, by decide!, rfl, by decide!, rfl⟩

/-! ## Cursor invariant, frame of traversal, and `prev` after `next` -/

theorem get?_of_next_scan (e : element) (j : Int) (c : node_base_t)
    (hc : -1 ≤ e._cindex)
    (h : next_scan e._search (e._children.drop (e._cindex + 1).toNat) (e._cindex + 1)
      = some (j, c)) :
    e._cindex < j ∧ j < (e._children.length : Int) ∧ e._children.get? j.toNat = some c
      ∧ child_matches e._search c = true
      ∧ (∀ i : Nat, e._cindex < (i : Int) → (i : Int) < j → ∀ x, e._children.get? i = some x →
          child_matches e._search x = false) := by
  obtain ⟨pre, post, hl, hpre, hm, hj⟩ := next_scan_some _ _ _ _ _ h
  have hsplit : e._children = e._children.take (e._cindex + 1).toNat ++ (pre ++ c :: post) := by
    rw [← hl, List.take_append_drop]
  have hlt : (e._cindex + 1).toNat ≤ e._children.length := by
    by_contra hcon
    have : e._children.drop (e._cindex + 1).toNat = [] := List.drop_of_length_le (by omega)
    rw [this] at hl
    simp at hl
  have htl : (e._children.take (e._cindex + 1).toNat).length = (e._cindex + 1).toNat := by
    simp [hlt]
  have hlen : e._children.length = (e._cindex + 1).toNat + (pre.length + (post.length + 1)) := by
    have := congrArg List.length hsplit
    simp only [List.length_append, List.length_cons, htl] at this
    omega
  have hjn : j.toNat = (e._cindex + 1).toNat + pre.length := by omega
  refine ⟨by omega, by omega, ?_, hm, ?_⟩
  · rw [hsplit, hjn, List.get?_eq_getElem?, List.getElem?_append_right (by omega), htl,
      Nat.add_sub_cancel_left, List.getElem?_append_right (le_refl _), Nat.sub_self]
    simp
  · intro i hi1 hi2 x hx
    rw [hsplit, List.get?_eq_getElem?, List.getElem?_append_right (by omega)] at hx
    have hi3 : i - (e._children.take (e._cindex + 1).toNat).length < pre.length := by omega
    rw [List.getElem?_append_left hi3] at hx
    have hmem : x ∈ pre := List.mem_iff_getElem?.mpr ⟨_, hx⟩
    have hf : x ∉ pre.filter (child_matches e._search) := by rw [hpre]; simp
    cases hcm : child_matches e._search x with
    | false => rfl
    | true => exact absurd (List.mem_filter.mpr ⟨hmem, hcm⟩) hf

theorem prev_scan_some (search : List Char) (cs : List node_base_t) :
    ∀ (k : Nat) (i : Int) (c : node_base_t), prev_scan search cs k = some (i, c) →
      0 ≤ i ∧ i < (k : Int) ∧ cs.get? i.toNat = some c
  | 0, _, _, h => by simp [prev_scan] at h
  | k + 1, i, c, h => by
    rw [prev_scan] at h
    split at h
    · rename_i x hx
      split at h
      · simp only [Option.some.injEq, Prod.mk.injEq] at h
        obtain ⟨rfl, rfl⟩ := h
        exact ⟨by omega, by omega, by simpa using hx⟩
      · obtain ⟨h1, h2, h3⟩ := prev_scan_some search cs k i c h
        exact ⟨h1, by omega, h3⟩
    · cases h

theorem prev_scan_skip (search : List Char) (cs : List node_base_t) (m : Nat) :
    ∀ k : Nat, m ≤ k → k ≤ cs.length →
      (∀ i : Nat, m ≤ i → i < k → ∀ x, cs.get? i = some x → child_matches search x = false) →
      prev_scan search cs k = prev_scan search cs m
  | 0, hm, _, _ => by
    have : m = 0 := by omega
    rw [this]
  | k + 1, hm, hk, h => by
    by_cases hmk : m = k + 1
    · rw [hmk]
    · have hlt : k < cs.length := by omega
      have hx : cs.get? k = some cs[k] := by simp [List.get?_eq_getElem?, hlt]
      rw [prev_scan, hx]
      simp only [h k (by omega) (by omega) _ hx, Bool.false_eq_true, if_false]
      exact prev_scan_skip search cs m k (by omega) (by omega)
        (fun i h1 h2 x hx => h i h1 (by omega) x hx)

/-- The cursor invariant: the position is in [-1, childCount - 1], and a position at
or above 0 is the index of the child most recently returned. -/
theorem cursor_inv_step (e : element) (last : Option node_base_t) (c : cursor_call)
    (h1 : -1 ≤ e._cindex) (h2 : e._cindex < (e._children.length : Int))
    (h3 : 0 ≤ e._cindex → last ≠ none ∧ e._children.get? e._cindex.toNat = last) :
    -1 ≤ (run_call e c).2._cindex
      ∧ (run_call e c).2._cindex < ((run_call e c).2._children.length : Int)
      ∧ (0 ≤ (run_call e c).2._cindex →
          (match (run_call e c).1 with
           | some x => some x
           | none => last) ≠ none
          ∧ (run_call e c).2._children.get? (run_call e c).2._cindex.toNat
            = (match (run_call e c).1 with
               | some x => some x
               | none => last)) := by
  cases c with
  | select tag =>
    refine ⟨by simp [run_call, node_node_t.select], ?_, ?_⟩
    · simp only [run_call, node_node_t.select]; omega
    · intro h; simp [run_call, node_node_t.select] at h
  | add_child n =>
    refine ⟨by simpa [run_call, node_node_t.add_child] using h1, ?_, ?_⟩
    · simp only [run_call, node_node_t.add_child, List.length_append, List.length_singleton]
      push_cast
      omega
    · intro h
      have h0 : 0 ≤ e._cindex := by simpa [run_call, node_node_t.add_child] using h
      obtain ⟨ha, hb⟩ := h3 h0
      refine ⟨by simpa [run_call] using ha, ?_⟩
      simp only [run_call, node_node_t.add_child]
      rw [List.get?_eq_getElem?, List.getElem?_append_left (by omega), ← List.get?_eq_getElem?]
      exact hb
  | next =>
    simp only [run_call, node_node_t.next]
    cases hs : next_scan e._search (e._children.drop (e._cindex + 1).toNat) (e._cindex + 1) with
    | none => exact ⟨h1, h2, h3⟩
    | some r =>
      obtain ⟨j, x⟩ := r
      obtain ⟨g1, g2, g3, -, -⟩ := get?_of_next_scan e j x h1 hs
      exact ⟨by simp only; omega, g2, fun _ => ⟨by simp, g3⟩⟩
  | prev =>
    simp only [run_call, node_node_t.prev]
    cases hs : prev_scan e._search e._children e._cindex.toNat with
    | none => exact ⟨h1, h2, h3⟩
    | some r =>
      obtain ⟨i, x⟩ := r
      obtain ⟨g1, g2, g3⟩ := prev_scan_some _ _ _ _ _ hs
      exact ⟨by simp only; omega, by simp only; omega, fun _ => ⟨by simp, g3⟩⟩

theorem cursor_inv_run : ∀ (calls : List cursor_call) (e : element) (last : Option node_base_t),
    -1 ≤ e._cindex → e._cindex < (e._children.length : Int) →
    (0 ≤ e._cindex → last ≠ none ∧ e._children.get? e._cindex.toNat = last) →
    -1 ≤ (run_calls calls (e, last)).1._cindex
      ∧ (run_calls calls (e, last)).1._cindex
          < ((run_calls calls (e, last)).1._children.length : Int)
      ∧ (0 ≤ (run_calls calls (e, last)).1._cindex →
          (run_calls calls (e, last)).2 ≠ none
          ∧ (run_calls calls (e, last)).1._children.get?
              (run_calls calls (e, last)).1._cindex.toNat
            = (run_calls calls (e, last)).2)
  | [], _, _, h1, h2, h3 => ⟨h1, h2, h3⟩
  | c :: calls, e, last, h1, h2, h3 => by
    obtain ⟨g1, g2, g3⟩ := cursor_inv_step e last c h1 h2 h3
    rw [run_calls]
    exact cursor_inv_run calls _ _ g1 g2 g3

/-- C15: from an element as constructed (cursor -1), after any sequence of
`select`, `next`, `prev` and `add_child` calls the cursor is at least -1 and at
most the number of children minus 1, and when it is at or above 0 it is the
index of the child most recently returned by `next` or `prev`; right after
`select` it is -1. -/
theorem C15_cursor_range_invariant (e : element) (calls : List cursor_call)
    (he : e._cindex = -1) :
    -1 ≤ (run_calls calls (e, none)).1._cindex
      ∧ (run_calls calls (e, none)).1._cindex ≤ ((run_calls calls (e, none)).1.size : Int) - 1
      ∧ (0 ≤ (run_calls calls (e, none)).1._cindex →
          (run_calls calls (e, none)).2 ≠ none
          ∧ (run_calls calls (e, none)).1._children.get?
              (run_calls calls (e, none)).1._cindex.toNat
            = (run_calls calls (e, none)).2)
      ∧ (∀ (x : element) (tag : List Char), (x.select tag)._cindex = -1)
      ∧ node_node_t.ctor._cindex = -1 := by
  obtain ⟨g1, g2, g3⟩ := cursor_inv_run calls e none (by omega) (by omega)
    (fun h => by omega)
  exact ⟨g1, by simp only [node_node_t.size]; omega, g3, fun _ _ => rfl, rfl⟩

theorem next_fst_some (e : element) (y : node_base_t) (hy : e.next.1 = some y) :
    ∃ j, next_scan e._search (e._children.drop (e._cindex + 1).toNat) (e._cindex + 1)
        = some (j, y) ∧ e.next.2 = { e with _cindex := j } := by
  simp only [node_node_t.next] at hy ⊢
  cases hs : next_scan e._search (e._children.drop (e._cindex + 1).toNat) (e._cindex + 1) with
  | none => rw [hs] at hy; cases hy
  | some r =>
    obtain ⟨j, x⟩ := r
    rw [hs] at hy
    simp only [Option.some.injEq] at hy
    subst hy
    exact ⟨j, rfl, rfl⟩

theorem prev_after_next (e : element) (hc : -1 ≤ e._cindex) (y : node_base_t)
    (hy : e.next.1 = some y) :
    e.next.2.prev
      = (match prev_scan e._search e._children (e._cindex + 1).toNat with
         | some (i, c) => (some c, { e with _cindex := i })
         | none => (none, e.next.2)) := by
  obtain ⟨j, hs, hn⟩ := next_fst_some e y hy
  obtain ⟨g1, g2, -, -, g5⟩ := get?_of_next_scan e j y hc hs
  have hskip := prev_scan_skip e._search e._children (e._cindex + 1).toNat j.toNat
    (by omega) (by omega) (fun i h1 h2 x hx => g5 i (by omega) (by omega) x hx)
  rw [hn]
  simp only [node_node_t.prev, hskip]

/-- C20: with the cursor at an index `c` at or above 0 whose child matches the
filter, if `next()` returns a child then an immediately following `prev()`
returns the child at index `c` and puts the cursor back at `c`; a `next()` or
`prev()` that returns null leaves the cursor where it was; and `prev()` right
after `select`, or right after the first `next()` that follows `select`, returns
null. -/
theorem C20_prev_undoes_next (e : element) (y : node_base_t)
    (h0 : 0 ≤ e._cindex) (hlt : e._cindex < (e.size : Int))
    (hm : ∀ x, e._children.get? e._cindex.toNat = some x → child_matches e._search x = true)
    (hy : e.next.1 = some y) :
    (e.next.2.prev).1 = e._children.get? e._cindex.toNat
    ∧ (e.next.2.prev).1 ≠ none
    ∧ (e.next.2.prev).2._cindex = e._cindex
    ∧ (∀ x : element, x.next.1 = none → x.next.2._cindex = x._cindex)
    ∧ (∀ x : element, x.prev.1 = none → x.prev.2._cindex = x._cindex)
    ∧ (∀ (x : element) (tag : List Char), (x.select tag).prev.1 = none)
    ∧ (∀ (x : element) (tag : List Char), ((x.select tag).next.2.prev).1 = none) := by
  have hlen : e._cindex.toNat < e._children.length := by
    simp only [node_node_t.size] at hlt; omega
  have hget : e._children.get? e._cindex.toNat = some e._children[e._cindex.toNat] := by
    simp [List.get?_eq_getElem?, hlen]
  have hsucc : (e._cindex + 1).toNat = e._cindex.toNat + 1 := by omega
  have hback : ((e._cindex.toNat : Nat) : Int) = e._cindex := by omega
  have hprev := prev_after_next e (by omega) y hy
  rw [hsucc, prev_scan, hget] at hprev
  simp only [hm _ hget, if_true, hback] at hprev
  refine ⟨?_, ?_, ?_, ?_, ?_, ?_, ?_⟩
  · rw [hprev, hget]
  · rw [hprev]; simp
  · rw [hprev]
  · intro x hx
    simp only [node_node_t.next] at hx ⊢
    cases hs : next_scan x._search (x._children.drop (x._cindex + 1).toNat) (x._cindex + 1) with
    | none => rfl
    | some r => rw [hs] at hx; cases hx
  · intro x hx
    simp only [node_node_t.prev] at hx ⊢
    cases hs : prev_scan x._search x._children x._cindex.toNat with
    | none => rfl
    | some r => rw [hs] at hx; cases hx
  · intro x tag
    simp [node_node_t.prev, node_node_t.select, prev_scan]
  · intro x tag
    cases hn : (x.select tag).next.1 with
    | none =>
      have hsame : (x.select tag).next.2 = x.select tag := by
        simp only [node_node_t.next] at hn ⊢
        cases hs : next_scan (x.select tag)._search
            ((x.select tag)._children.drop ((x.select tag)._cindex + 1).toNat)
            ((x.select tag)._cindex + 1) with
        | none => rfl
        | some r => rw [hs] at hn; cases hn
      rw [hsame]
      simp [node_node_t.prev, node_node_t.select, prev_scan]
    | some z =>
      have hp := prev_after_next (x.select tag) (by simp [node_node_t.select]) z hn
      rw [hp]
      simp [node_node_t.select, prev_scan]

theorem same_content_refl (e : element) : same_content e e := ⟨rfl, rfl, rfl, rfl, rfl, rfl⟩

theorem same_content_trans {a b c : element} (hab : same_content a b)
    (hbc : same_content b c) : same_content a c :=
  ⟨hbc.1.trans hab.1, hbc.2.1.trans hab.2.1, hbc.2.2.1.trans hab.2.2.1,
    hbc.2.2.2.1.trans hab.2.2.2.1, hbc.2.2.2.2.1.trans hab.2.2.2.2.1,
    hbc.2.2.2.2.2.trans hab.2.2.2.2.2⟩

theorem same_content_next (e : element) :
    same_content e e.next.2 ∧ e.next.2._search = e._search
      ∧ (∀ c, e.next.1 = some c → c ∈ e._children) := by
  simp only [node_node_t.next]
  cases hs : next_scan e._search (e._children.drop (e._cindex + 1).toNat) (e._cindex + 1) with
  | none => exact ⟨same_content_refl e, rfl, fun c h => by cases h⟩
  | some r =>
    obtain ⟨j, x⟩ := r
    obtain ⟨pre, post, hl, -, -, -⟩ := next_scan_some _ _ _ _ _ hs
    refine ⟨⟨rfl, rfl, rfl, rfl, rfl, rfl⟩, rfl, ?_⟩
    intro c hc
    simp only [Option.some.injEq] at hc
    subst hc
    apply List.mem_of_mem_drop (n := (e._cindex + 1).toNat)
    rw [hl]
    simp

theorem same_content_prev (e : element) :
    same_content e e.prev.2 ∧ e.prev.2._search = e._search
      ∧ (∀ c, e.prev.1 = some c → c ∈ e._children) := by
  simp only [node_node_t.prev]
  cases hs : prev_scan e._search e._children e._cindex.toNat with
  | none => exact ⟨same_content_refl e, rfl, fun c h => by cases h⟩
  | some r =>
    obtain ⟨i, x⟩ := r
    obtain ⟨-, -, g3⟩ := prev_scan_some _ _ _ _ _ hs
    refine ⟨⟨rfl, rfl, rfl, rfl, rfl, rfl⟩, rfl, ?_⟩
    intro c hc
    simp only [Option.some.injEq] at hc
    subst hc
    exact List.mem_iff_getElem?.mpr ⟨_, by rw [← List.get?_eq_getElem?]; exact g3⟩

theorem same_content_select (e : element) (tag : List Char) : same_content e (e.select tag) :=
  ⟨rfl, rfl, rfl, rfl, rfl, rfl⟩

theorem same_content_run : ∀ (calls : List cursor_call) (e : element)
    (last : Option node_base_t), (∀ c ∈ calls, c.is_traversal = true) →
    same_content e (run_calls calls (e, last)).1
  | [], e, _, _ => same_content_refl e
  | c :: calls, e, last, h => by
    have hc := h c (List.mem_cons_self _ _)
    have ih := fun e1 l1 => same_content_run calls e1 l1
      (fun x hx => h x (List.mem_cons_of_mem _ hx))
    rw [run_calls]
    have hstep : same_content e (run_call e c).2 := by
      cases c with
      | select tag => exact same_content_select e tag
      | next => exact (same_content_next e).1
      | prev => exact (same_content_prev e).1
      | add_child n => cases hc
    exact same_content_trans hstep (ih _ _)

/-- C16: `select`, `next`, `prev`, the subscript of a find-chain and `to_text` leave
the tag, the attribute mapping, the child sequence (hence every node below) and
the back-links of the element they are called on as they were; `next` and
`prev` also keep the filter; the child they return is one of the children as
stored; on a null or text base the find-chain calls change nothing. -/
theorem C16_traversal_is_read_only (e : element) (tag : List Char) :
    same_content e (e.select tag)
    ∧ (same_content e e.next.2 ∧ e.next.2._search = e._search
        ∧ ∀ c, e.next.1 = some c → c ∈ e._children)
    ∧ (same_content e e.prev.2 ∧ e.prev.2._search = e._search
        ∧ ∀ c, e.prev.1 = some c → c ∈ e._children)
    ∧ (∃ e1 : element,
        ((find_node_t.mk (some (node_base_t.node e))).subscript tag).2
            = ⟨some (node_base_t.node e1)⟩
          ∧ same_content e e1
          ∧ ∀ c, ((find_node_t.mk (some (node_base_t.node e))).subscript tag).1._base = some c →
              c ∈ e._children)
    ∧ (∃ e1 : element,
        (find_node_t.mk (some (node_base_t.node e))).after_to_text
            = ⟨some (node_base_t.node e1)⟩
          ∧ same_content e e1)
    ∧ (∀ x : text_node_t,
        ((find_node_t.mk (some (node_base_t.text x))).subscript tag).2
            = ⟨some (node_base_t.text x)⟩
          ∧ (find_node_t.mk (some (node_base_t.text x))).after_to_text
            = ⟨some (node_base_t.text x)⟩)
    ∧ ((find_node_t.mk none).subscript tag).2 = ⟨none⟩
    ∧ (find_node_t.mk none).after_to_text = ⟨none⟩
    ∧ (∀ (calls : List cursor_call) (last : Option node_base_t),
        (∀ c ∈ calls, c.is_traversal = true) →
        same_content e (run_calls calls (e, last)).1) := by
  refine ⟨same_content_select e tag, same_content_next e, same_content_prev e, ?_, ?_,
    fun x => ⟨rfl, rfl⟩, rfl, rfl, fun calls last h => same_content_run calls e last h⟩
  · refine ⟨((e.select tag).next).2, rfl,
      same_content_trans (same_content_select e tag) (same_content_next _).1, ?_⟩
    intro c hc
    exact (same_content_next (e.select tag)).2.2 c hc
  · exact ⟨((e.select []).next).2, rfl,
      same_content_trans (same_content_select e []) (same_content_next _).1⟩

/-- C16 on the element a of `<a><b/>text<c/><b/></a>` and the calls `select("b")`,
`next`, `next`, `prev`. -/
theorem C16_traversal_is_read_only_witness :
    (∀ c ∈ [cursor_call.select "b".toList, cursor_call.next, cursor_call.next,
          cursor_call.prev], c.is_traversal = true)
    ∧ same_content
        { node_node_t.ctor with
          _tag := "a".toList,
          _children :=
            [node_base_t.node (node_node_t.ctor.set_tag "b".toList),
             node_base_t.text ⟨"text".toList⟩,
             node_base_t.node (node_node_t.ctor.set_tag "c".toList),
             node_base_t.node (node_node_t.ctor.set_tag "b".toList)] }
        (run_calls [cursor_call.select "b".toList, cursor_call.next, cursor_call.next,
          cursor_call.prev]
          ({ node_node_t.ctor with
              _tag := "a".toList,
              _children :=
                [node_base_t.node (node_node_t.ctor.set_tag "b".toList),
                 node_base_t.text ⟨"text".toList⟩,
                 node_base_t.node (node_node_t.ctor.set_tag "c".toList),
                 node_base_t.node (node_node_t.ctor.set_tag "b".toList)] }, none)).1
    ∧ (run_calls [cursor_call.select "b".toList, cursor_call.next, cursor_call.next,
          cursor_call.prev]
          ({ node_node_t.ctor with
              _tag := "a".toList,
              _children :=
                [node_base_t.node (node_node_t.ctor.set_tag "b".toList),
                 node_base_t.text ⟨"text".toList⟩,
                 node_base_t.node (node_node_t.ctor.set_tag "c".toList),
                 node_base_t.node (node_node_t.ctor.set_tag "b".toList)] }, none)).1._cindex
        = 0 := by
  have h : ∀ c ∈ [cursor_call.select "b".toList, cursor_call.next, cursor_call.next,
      cursor_call.prev], c.is_traversal = true := by
    intro c hc
    simp only [List.mem_cons, List.mem_singleton, List.not_mem_nil, or_false] at hc
    rcases hc with rfl | rfl | rfl | rfl <;> rfl
  exact ⟨h, (C16_traversal_is_read_only _ []).2.2.2.2.2.2.2.2 _ none h, by rfl⟩

/-- C15 on the element a of `<a><b/>text<c/><b/></a>` with the calls `select("b")`,
`next`, `add_child`, `next`, `next`, `next`, `prev`: the cursor ends at 3 of 5
children. -/
theorem C15_cursor_range_invariant_witness :
    sample_element._cindex = -1
    ∧ -1 ≤ (run_calls [cursor_call.select "b".toList, cursor_call.next,
          cursor_call.add_child (node_base_t.node (node_node_t.ctor.set_tag "b".toList)),
          cursor_call.next, cursor_call.next, cursor_call.next, cursor_call.prev]
          (sample_element, none)).1._cindex
    ∧ (run_calls [cursor_call.select "b".toList, cursor_call.next,
          cursor_call.add_child (node_base_t.node (node_node_t.ctor.set_tag "b".toList)),
          cursor_call.next, cursor_call.next, cursor_call.next, cursor_call.prev]
          (sample_element, none)).1._cindex
        ≤ ((run_calls [cursor_call.select "b".toList, cursor_call.next,
          cursor_call.add_child (node_base_t.node (node_node_t.ctor.set_tag "b".toList)),
          cursor_call.next, cursor_call.next, cursor_call.next, cursor_call.prev]
          (sample_element, none)).1.size : Int) - 1
    ∧ (run_calls [cursor_call.select "b".toList, cursor_call.next,
          cursor_call.add_child (node_base_t.node (node_node_t.ctor.set_tag "b".toList)),
          cursor_call.next, cursor_call.next, cursor_call.next, cursor_call.prev]
          (sample_element, none)).1._cindex = 3
    ∧ (run_calls [cursor_call.select "b".toList, cursor_call.next,
          cursor_call.add_child (node_base_t.node (node_node_t.ctor.set_tag "b".toList)),
          cursor_call.next, cursor_call.next, cursor_call.next, cursor_call.prev]
          (sample_element, none)).1.size = 5 :=
  ⟨rfl,
    (C15_cursor_range_invariant sample_element _ rfl).1,
    (C15_cursor_range_invariant sample_element _ rfl).2.1,
    by rfl, by rfl⟩

/-- C20 on the element a of `<a><b/>text<c/><b/></a>` under the filter `b` with the
cursor at child 0: `next()` returns child 3 and `prev()` then returns child 0. -/
theorem C20_prev_undoes_next_witness :
    0 ≤ ((sample_element.select "b".toList).next).2._cindex
    ∧ ((sample_element.select "b".toList).next).2._cindex
        < (((sample_element.select "b".toList).next).2.size : Int)
    ∧ (((sample_element.select "b".toList).next).2.next).1
        = some (node_base_t.node (node_node_t.ctor.set_tag "b".toList))
    ∧ ((((sample_element.select "b".toList).next).2.next).2)._cindex = 3
    ∧ ((((sample_element.select "b".toList).next).2.next).2.prev).1
        = ((sample_element.select "b".toList).next).2._children.get? 0
    ∧ ((((sample_element.select "b".toList).next).2.next).2.prev).2._cindex = 0 := by
  have hm : ∀ x, ((sample_element.select "b".toList).next).2._children.get?
      ((sample_element.select "b".toList).next).2._cindex.toNat = some x →
      child_matches ((sample_element.select "b".toList).next).2._search x = true := by
    intro x hx
    have h0 : ((sample_element.select "b".toList).next).2._children.get?
        ((sample_element.select "b".toList).next).2._cindex.toNat
        = some (node_base_t.node (node_node_t.ctor.set_tag "b".toList)) := by rfl
    rw [h0] at hx
    simp only [Option.some.injEq] at hx
    subst hx
    rfl
  have h := C20_prev_undoes_next ((sample_element.select "b".toList).next).2
    (node_base_t.node (node_node_t.ctor.set_tag "b".toList)) (by decide) (by decide) hm (by rfl)
  exact ⟨by decide, by decide, by rfl, by rfl, h.1, h.2.2.1⟩

/-! ## Closed forms of the reads, and what every token does to the read pointer -/

theorem advanced_refl (p : List Char) : advanced p p := ⟨[], rfl, by simp⟩

theorem advanced_trans {p q r : List Char} (h1 : advanced p q) (h2 : advanced q r) :
    advanced p r := by
  obtain ⟨x, hx, hxn⟩ := h1
  obtain ⟨y, hy, hyn⟩ := h2
  refine ⟨x ++ y, by rw [hx, hy, List.append_assoc], ?_⟩
  intro c hc
  rcases List.mem_append.mp hc with h | h
  · exact hxn c h
  · exact hyn c h

theorem advanced_length {p q : List Char} (h : advanced p q) : q.length ≤ p.length := by
  obtain ⟨x, hx, -⟩ := h
  rw [hx, List.length_append]
  omega

theorem advanced_cons (c : Char) (q : List Char) (hc : c ≠ NUL) : advanced (c :: q) q :=
  ⟨[c], rfl, by simpa using hc⟩

theorem advanced_append (t rest : List Char) (ht : ∀ c ∈ t, c ≠ NUL) : advanced (t ++ rest) rest :=
  ⟨t, rfl, ht⟩

theorem cur_dropWhile (f : Char → Bool) (hN : f NUL = false) :
    ∀ p : List Char, f (cur (p.dropWhile f)) = false
  | [] => hN
  | c :: p => by
    cases hc : f c with
    | true => simpa [List.dropWhile, hc] using cur_dropWhile f hN p
    | false => simp [List.dropWhile, hc, cur_cons]

theorem takeWhile_ne_nil (f : Char → Bool) (hN : f NUL = false) (p : List Char)
    (h : f (cur p) = true) : p.takeWhile f ≠ [] := by
  cases p with
  | nil => rw [cur_nil, hN] at h; cases h
  | cons c p => rw [cur_cons] at h; simp [List.takeWhile, h]

theorem takeWhile_eq_nil (f : Char → Bool) (p : List Char) (h : f (cur p) = false) :
    p.takeWhile f = [] ∧ p.dropWhile f = p := by
  cases p with
  | nil => simp
  | cons c p => rw [cur_cons] at h; simp [List.takeWhile, List.dropWhile, h]

theorem mem_takeWhile (f : Char → Bool) : ∀ (p : List Char), ∀ c ∈ p.takeWhile f, f c = true
  | [], c, h => by simp at h
  | a :: p, c, h => by
    cases ha : f a with
    | true =>
      simp only [List.takeWhile, ha, List.mem_cons] at h
      rcases h with rfl | h
      · exact ha
      · exact mem_takeWhile f p c h
    | false => simp [List.takeWhile, ha] at h

theorem read_token_tk_form (root : element) (p tk : List Char) :
    taoxml_t._read_token ⟨root, p, tk⟩ read_type.tk
      = ((p.takeWhile is_alnum_char).length,
          ⟨root, p.dropWhile is_alnum_char, p.takeWhile is_alnum_char⟩) := by
  have h := read_token_tk_run root (p.takeWhile is_alnum_char) (p.dropWhile is_alnum_char) tk
    (mem_takeWhile _ p) (cur_dropWhile _ (by decide) p)
  rwa [List.takeWhile_append_dropWhile] at h

theorem read_token_ws_form (root : element) (p tk : List Char) :
    taoxml_t._read_token ⟨root, p, tk⟩ read_type.ws
      = ((p.takeWhile is_ws_char).length,
          ⟨root, p.dropWhile is_ws_char, p.takeWhile is_ws_char⟩) := by
  have h := read_token_ws_run root (p.takeWhile is_ws_char) (p.dropWhile is_ws_char) tk
    (mem_takeWhile _ p) (cur_dropWhile _ (by decide) p)
  rwa [List.takeWhile_append_dropWhile] at h

theorem read_token_text_form (root : element) (p tk : List Char) :
    taoxml_t._read_token ⟨root, p, tk⟩ read_type.text
      = ((decode_ref (p.takeWhile is_text_char)).length,
          ⟨root, p.dropWhile is_text_char, decode_ref (p.takeWhile is_text_char)⟩) := by
  have h := read_token_text_run root (p.takeWhile is_text_char) (p.dropWhile is_text_char) tk
    (mem_takeWhile _ p) (cur_dropWhile _ (by decide) p)
  rwa [List.takeWhile_append_dropWhile] at h

theorem alnum_run_no_NUL (t : List Char) (h : ∀ c ∈ t, is_alnum_char c = true) :
    ∀ c ∈ t, c ≠ NUL := fun c hc => alnum_ne c NUL (h c hc) (by decide)

theorem ws_run_no_NUL (t : List Char) (h : ∀ c ∈ t, is_ws_char c = true) :
    ∀ c ∈ t, c ≠ NUL := fun c hc => ws_ne c NUL (h c hc) (by decide)

theorem text_run_no_NUL (t : List Char) (h : ∀ c ∈ t, is_text_char c = true) :
    ∀ c ∈ t, c ≠ NUL := by
  intro c hc hn
  have := h c hc
  rw [hn] at this
  revert this
  decide

theorem token_initial_form (root : element) (p tk : List Char) :
    taoxml_t._token ⟨root, p, tk⟩ start_condition.initial =
      if cur p = '<' then
        if cur p.tail = NUL then (token.error, ⟨root, p.tail, tk⟩)
        else if is_alnum_char (cur p.tail) = true then
          (token.open_, ⟨root, p.tail.dropWhile is_alnum_char, p.tail.takeWhile is_alnum_char⟩)
        else if cur p.tail = '/' then
          if cur p.tail.tail = NUL then (token.error, ⟨root, p.tail.tail, tk⟩)
          else if p.tail.tail.takeWhile is_alnum_char = [] then
            (token.error, ⟨root, p.tail.tail.dropWhile is_alnum_char, []⟩)
          else if cur (p.tail.tail.dropWhile is_alnum_char) = NUL then
            (token.error, ⟨root, p.tail.tail.dropWhile is_alnum_char,
              p.tail.tail.takeWhile is_alnum_char⟩)
          else if cur (p.tail.tail.dropWhile is_alnum_char) = '>' then
            (token.close, ⟨root, (p.tail.tail.dropWhile is_alnum_char).tail,
              p.tail.tail.takeWhile is_alnum_char⟩)
          else
            (token.error, ⟨root, (p.tail.tail.dropWhile is_alnum_char).tail,
              p.tail.tail.takeWhile is_alnum_char⟩)
        else (token.error, ⟨root, p.tail, tk⟩)
      else if is_text_char (cur p) = true then
        (token.text, ⟨root, p.dropWhile is_text_char, decode_ref (p.takeWhile is_text_char)⟩)
      else (token.error, ⟨root, p, tk⟩) := by
  simp only [taoxml_t._token, taoxml_t._valid_ptr, taoxml_t._is_alnum, taoxml_t._is_text,
    read_token_tk_form, read_token_text_form, if_true]
  by_cases h1 : cur p = '<'
  · simp only [h1, beq_self_eq_true, if_true]
    by_cases h2 : cur p.tail = NUL
    · simp [h2]
    · by_cases h3 : is_alnum_char (cur p.tail) = true
      · have hn := takeWhile_ne_nil _ (by decide) p.tail h3
        simp [h2, h3, hn]
      · by_cases h4 : cur p.tail = '/'
        · have hs0 : ('/' : Char) ≠ NUL := by decide
          have hsa : is_alnum_char '/' = false := by decide
          by_cases h5 : cur p.tail.tail = NUL
          · simp [h2, h3, h4, h5, hs0, hsa]
          · by_cases h6 : p.tail.tail.takeWhile is_alnum_char = []
            · simp [h2, h3, h4, h5, h6, hs0, hsa]
            · by_cases h7 : cur (p.tail.tail.dropWhile is_alnum_char) = NUL
              · simp [h2, h3, h4, h5, h6, h7, hs0, hsa]
              · by_cases h8 : cur (p.tail.tail.dropWhile is_alnum_char) = '>'
                · simp [h2, h3, h4, h5, h6, h7, h8, hs0, hsa]
                · simp [h2, h3, h4, h5, h6, h7, h8, hs0, hsa]
        · simp [h2, h3, h4]
  · by_cases h2 : is_text_char (cur p) = true
    · have hn := decode_ref_ne_nil _ (takeWhile_ne_nil _ (by decide) p h2)
      simp [h1, h2, hn]
    · simp [h1, h2]

theorem accumulate_value_form (root : element) (q : Char) (hq : q = SQUOTE ∨ q = DQUOTE)
    (p : List Char) :
    accumulate (value_func q) p.length ⟨root, p, []⟩ 0
      = (some (decode_ref (p.takeWhile (value_func q))).length,
          ⟨root, p.dropWhile (value_func q), decode_ref (p.takeWhile (value_func q))⟩) := by
  have hN : value_func q NUL = false := by simp [value_func]
  have h := accumulate_run (value_func q) (value_entity_chars q hq) (p.dropWhile (value_func q))
    (cur_dropWhile _ hN p) root p.length (p.takeWhile (value_func q)) [] 0
    (by have := congrArg List.length (List.takeWhile_append_dropWhile (value_func q) p)
        rw [List.length_append] at this; omega)
    (mem_takeWhile _ p)
  rw [List.takeWhile_append_dropWhile] at h
  simpa using h

theorem token_in_tag_form (root : element) (p tk : List Char) :
    taoxml_t._token ⟨root, p, tk⟩ start_condition.in_tag =
      if is_ws_char (cur p) = true then
        (token.space, ⟨root, p.dropWhile is_ws_char, p.takeWhile is_ws_char⟩)
      else if is_alnum_char (cur p) = true then
        (token.attr, ⟨root, p.dropWhile is_alnum_char, p.takeWhile is_alnum_char⟩)
      else if cur p = '=' then (token.assign, ⟨root, p.tail, tk⟩)
      else if cur p = SQUOTE ∨ cur p = DQUOTE then
        if cur (p.tail.dropWhile (value_func (cur p))) = cur p then
          (token.value, ⟨root, (p.tail.dropWhile (value_func (cur p))).tail,
            decode_ref (p.tail.takeWhile (value_func (cur p)))⟩)
        else
          (token.error, ⟨root, p.tail.dropWhile (value_func (cur p)),
            decode_ref (p.tail.takeWhile (value_func (cur p)))⟩)
      else if cur p = '/' then
        if cur p.tail = '>' then (token.close2, ⟨root, p.tail.tail, tk⟩)
        else (token.error, ⟨root, p.tail, tk⟩)
      else if cur p = '>' then (token.open2, ⟨root, p.tail, tk⟩)
      else (token.error, ⟨root, p, tk⟩) := by
  simp only [taoxml_t._token, taoxml_t._is_ws, taoxml_t._is_alnum, read_token_tk_form,
    read_token_ws_form]
  by_cases h1 : is_ws_char (cur p) = true
  · have hn := takeWhile_ne_nil _ (by decide) p h1
    simp [h1, hn]
  · by_cases h2 : is_alnum_char (cur p) = true
    · have hn := takeWhile_ne_nil _ (by decide) p h2
      simp [h1, h2, hn]
    · simp only [h1, h2, if_false]
      by_cases h3 : cur p = '='
      · simp [h3]
      · by_cases h4 : cur p = SQUOTE ∨ cur p = DQUOTE
        · have hacc := accumulate_value_form root (cur p) h4 p.tail
          simp only [h3, h4, hacc, beq_iff_eq, Bool.or_eq_true, if_true, if_false,
            Bool.false_eq_true]
          by_cases h5 : cur (p.tail.dropWhile (value_func (cur p))) = cur p
          · simp [h5]
          · simp [h5]
        · simp only [h3, h4, beq_iff_eq, Bool.or_eq_true, if_false, Bool.false_eq_true]
          by_cases h6 : cur p = '/'
          · by_cases h7 : cur p.tail = '>'
            · simp [h6, h7]
            · simp [h6, h7]
          · simp only [h6, if_false]

theorem advanced_tail (p : List Char) (h : cur p ≠ NUL) : advanced p p.tail := by
  cases p with
  | nil => exact absurd rfl h
  | cons c q => exact advanced_cons _ _ h

theorem tail_length_lt (p : List Char) (h : cur p ≠ NUL) : p.tail.length < p.length := by
  cases p with
  | nil => exact absurd rfl h
  | cons c q => simp

theorem advanced_dropWhile (f : Char → Bool) (hf : ∀ c, f c = true → c ≠ NUL) (p : List Char) :
    advanced p (p.dropWhile f) := by
  have h := advanced_append (p.takeWhile f) (p.dropWhile f)
    (fun c hc => hf c (mem_takeWhile f p c hc))
  rwa [List.takeWhile_append_dropWhile] at h

theorem dropWhile_length_lt (f : Char → Bool) (hN : f NUL = false) (p : List Char)
    (h : f (cur p) = true) : (p.dropWhile f).length < p.length := by
  have h1 := congrArg List.length (List.takeWhile_append_dropWhile f p)
  have h2 : 0 < (p.takeWhile f).length := List.length_pos.mpr (takeWhile_ne_nil f hN p h)
  rw [List.length_append] at h1
  omega

theorem alnum_char_ne_NUL (c : Char) (h : is_alnum_char c = true) : c ≠ NUL :=
  alnum_ne c NUL h (by decide)

theorem ws_char_ne_NUL (c : Char) (h : is_ws_char c = true) : c ≠ NUL :=
  ws_ne c NUL h (by decide)

theorem text_char_ne_NUL (c : Char) (h : is_text_char c = true) : c ≠ NUL := by
  rintro rfl
  revert h
  decide

theorem value_char_ne_NUL (q c : Char) (h : value_func q c = true) : c ≠ NUL := by
  rintro rfl
  simp [value_func] at h

/-- Every token keeps the root, moves the read pointer forward over non-NUL
characters of the input only, and, unless it is `error`, moves it by at least
one character. -/
theorem token_spec (root : element) (p tk : List Char) (cond : start_condition) :
    (taoxml_t._token ⟨root, p, tk⟩ cond).2._root = root
      ∧ advanced p (taoxml_t._token ⟨root, p, tk⟩ cond).2._p
      ∧ ((taoxml_t._token ⟨root, p, tk⟩ cond).1 ≠ token.error →
          (taoxml_t._token ⟨root, p, tk⟩ cond).2._p.length < p.length) := by
  have hlt0 : ('<' : Char) ≠ NUL := by decide
  have hsl0 : ('/' : Char) ≠ NUL := by decide
  have hgt0 : ('>' : Char) ≠ NUL := by decide
  have heq0 : ('=' : Char) ≠ NUL := by decide
  cases cond with
  | initial =>
    rw [token_initial_form]
    split_ifs with h1 h2 h3 h4 h5 h6 h7 h8 h9
    · exact ⟨rfl, advanced_tail p (h1 ▸ hlt0), fun h => absurd rfl h⟩
    · refine ⟨rfl, advanced_trans (advanced_tail p (h1 ▸ hlt0))
        (advanced_dropWhile _ alnum_char_ne_NUL _), fun _ => ?_⟩
      have a := tail_length_lt p (h1 ▸ hlt0)
      have b := dropWhile_length_lt _ (by decide) p.tail h3
      simp only; omega
    · exact ⟨rfl, advanced_trans (advanced_tail p (h1 ▸ hlt0)) (advanced_tail _ (h4 ▸ hsl0)),
        fun h => absurd rfl h⟩
    · exact ⟨rfl, advanced_trans (advanced_tail p (h1 ▸ hlt0))
        (advanced_trans (advanced_tail _ (h4 ▸ hsl0)) (advanced_dropWhile _ alnum_char_ne_NUL _)),
        fun h => absurd rfl h⟩
    · exact ⟨rfl, advanced_trans (advanced_tail p (h1 ▸ hlt0))
        (advanced_trans (advanced_tail _ (h4 ▸ hsl0)) (advanced_dropWhile _ alnum_char_ne_NUL _)),
        fun h => absurd rfl h⟩
    · refine ⟨rfl, advanced_trans (advanced_tail p (h1 ▸ hlt0))
        (advanced_trans (advanced_tail _ (h4 ▸ hsl0))
          (advanced_trans (advanced_dropWhile _ alnum_char_ne_NUL _) (advanced_tail _ h7))),
        fun _ => ?_⟩
      have a := tail_length_lt p (h1 ▸ hlt0)
      have b := tail_length_lt p.tail (h4 ▸ hsl0)
      have c := advanced_length (advanced_dropWhile is_alnum_char alnum_char_ne_NUL p.tail.tail)
      have d := tail_length_lt _ h7
      simp only; omega
    · exact ⟨rfl, advanced_trans (advanced_tail p (h1 ▸ hlt0))
        (advanced_trans (advanced_tail _ (h4 ▸ hsl0))
          (advanced_trans (advanced_dropWhile _ alnum_char_ne_NUL _) (advanced_tail _ h7))),
        fun h => absurd rfl h⟩
    · exact ⟨rfl, advanced_tail p (h1 ▸ hlt0), fun h => absurd rfl h⟩
    · exact ⟨rfl, advanced_dropWhile _ text_char_ne_NUL _,
        fun _ => dropWhile_length_lt _ (by decide) p h9⟩
    · exact ⟨rfl, advanced_refl p, fun h => absurd rfl h⟩
  | in_tag =>
    rw [token_in_tag_form]
    split_ifs with h1 h2 h3 h4 h5 h6 h7 h8
    · exact ⟨rfl, advanced_dropWhile _ ws_char_ne_NUL _,
        fun _ => dropWhile_length_lt _ (by decide) p h1⟩
    · exact ⟨rfl, advanced_dropWhile _ alnum_char_ne_NUL _,
        fun _ => dropWhile_length_lt _ (by decide) p h2⟩
    · exact ⟨rfl, advanced_tail p (h3 ▸ heq0), fun _ => tail_length_lt p (h3 ▸ heq0)⟩
    · have hq0 : cur p ≠ NUL := by rcases h4 with h | h <;> rw [h] <;> decide
      refine ⟨rfl, advanced_trans (advanced_tail p hq0)
        (advanced_trans (advanced_dropWhile _ (value_char_ne_NUL _) _)
          (advanced_tail _ (by rw [h5]; exact hq0))), fun _ => ?_⟩
      have a := tail_length_lt p hq0
      have b := advanced_length (advanced_dropWhile (value_func (cur p))
        (value_char_ne_NUL _) p.tail)
      have c := tail_length_lt (p.tail.dropWhile (value_func (cur p))) (by rw [h5]; exact hq0)
      simp only; omega
    · have hq0 : cur p ≠ NUL := by rcases h4 with h | h <;> rw [h] <;> decide
      exact ⟨rfl, advanced_trans (advanced_tail p hq0)
        (advanced_dropWhile _ (value_char_ne_NUL _) _), fun h => absurd rfl h⟩
    · refine ⟨rfl, advanced_trans (advanced_tail p (h6 ▸ hsl0)) (advanced_tail _ (h7 ▸ hgt0)),
        fun _ => ?_⟩
      have a := tail_length_lt p (h6 ▸ hsl0)
      have b := tail_length_lt p.tail (h7 ▸ hgt0)
      simp only; omega
    · exact ⟨rfl, advanced_tail p (h6 ▸ hsl0), fun h => absurd rfl h⟩
    · exact ⟨rfl, advanced_tail p (h8 ▸ hgt0), fun _ => tail_length_lt p (h8 ▸ hgt0)⟩
    · exact ⟨rfl, advanced_refl p, fun h => absurd rfl h⟩

/-! ## Frame and progress of the node parser -/

theorem token_past_space_unfold (s : taoxml_t) :
    s._token_past_space
      = if (s._token start_condition.in_tag).1 = token.space then
          (s._token start_condition.in_tag).2._token start_condition.in_tag
        else s._token start_condition.in_tag := by
  simp only [taoxml_t._token_past_space, beq_iff_eq]

theorem parse_attrs_zero (nn : element) (s : taoxml_t) :
    taoxml_t._parse_attrs 0 nn s = (none, s) := by
  with_unfolding_all rfl

theorem parse_children_zero
    (pn : taoxml_t → Option node_base_t → token × Option node_base_t × taoxml_t)
    (nn : element) (cnode : Option node_base_t) (s : taoxml_t) :
    parse_children pn 0 nn cnode s = (token.error, nn, cnode, s) := by
  with_unfolding_all rfl

theorem parse_node_zero (s : taoxml_t) (node : Option node_base_t) :
    taoxml_t._parse_node 0 s node = (token.error, node, s) := by
  with_unfolding_all rfl

theorem parse_loop_zero (depth : Nat) (s : taoxml_t) (node : Option node_base_t) :
    parse_loop depth 0 s node = (token.error, node, s) := by
  with_unfolding_all rfl

attribute [irreducible] taoxml_t._token taoxml_t._token_past_space accumulate
  taoxml_t._read_token

theorem token_spec_state (s : taoxml_t) (cond : start_condition) :
    (s._token cond).2._root = s._root
      ∧ advanced s._p (s._token cond).2._p
      ∧ ((s._token cond).1 ≠ token.error → (s._token cond).2._p.length < s._p.length) :=
  token_spec s._root s._p s._tk cond

theorem token_past_space_spec (s : taoxml_t) :
    s._token_past_space.2._root = s._root
      ∧ advanced s._p s._token_past_space.2._p
      ∧ (s._token_past_space.1 ≠ token.error →
          s._token_past_space.2._p.length < s._p.length) := by
  have ha := token_spec_state s start_condition.in_tag
  rw [token_past_space_unfold]
  generalize s._token start_condition.in_tag = r at ha ⊢
  obtain ⟨a1, a2, a3⟩ := ha
  have hb := token_spec_state r.2 start_condition.in_tag
  generalize r.2._token start_condition.in_tag = r2 at hb ⊢
  obtain ⟨b1, b2, b3⟩ := hb
  split_ifs with h
  · refine ⟨b1.trans a1, advanced_trans a2 b2, fun hne => ?_⟩
    have := b3 hne
    have := advanced_length a2
    omega
  · exact ⟨a1, a2, a3⟩

theorem parse_attrs_spec : ∀ (fuel : Nat) (nn : element) (s : taoxml_t),
    (taoxml_t._parse_attrs fuel nn s).2._root = s._root
      ∧ advanced s._p (taoxml_t._parse_attrs fuel nn s).2._p
  | 0, nn, s => by
    rw [parse_attrs_zero]
    exact ⟨rfl, advanced_refl _⟩
  | fuel + 1, nn, s => by
    have ha := token_spec_state s start_condition.in_tag
    rw [parse_attrs_succ]
    simp only
    generalize s._token start_condition.in_tag = r at ha ⊢
    obtain ⟨a1, a2, -⟩ := ha
    have hb := parse_attrs_spec fuel nn r.2
    have hc := token_past_space_spec r.2
    generalize r.2._token_past_space = a at hc ⊢
    obtain ⟨c1, c2, -⟩ := hc
    have hd := token_past_space_spec a.2
    generalize a.2._token_past_space = v at hd ⊢
    obtain ⟨d1, d2, -⟩ := hd
    have he := parse_attrs_spec fuel (nn.add_attr r.2._tk v.2._tk) v.2
    split_ifs
    · exact ⟨hb.1.trans a1, advanced_trans a2 hb.2⟩
    · exact ⟨c1.trans a1, advanced_trans a2 c2⟩
    · exact ⟨d1.trans (c1.trans a1), advanced_trans a2 (advanced_trans c2 d2)⟩
    · exact ⟨he.1.trans (d1.trans (c1.trans a1)),
        advanced_trans a2 (advanced_trans c2 (advanced_trans d2 he.2))⟩
    · exact ⟨a1, a2⟩

theorem parse_children_spec
    (pn : taoxml_t → Option node_base_t → token × Option node_base_t × taoxml_t)
    (hpn : ∀ s c, (pn s c).2.2._root = s._root ∧ advanced s._p (pn s c).2.2._p) :
    ∀ (fuel : Nat) (nn : element) (cnode : Option node_base_t) (s : taoxml_t),
      (parse_children pn fuel nn cnode s).2.2.2._root = s._root
        ∧ advanced s._p (parse_children pn fuel nn cnode s).2.2.2._p
  | 0, nn, cnode, s => by
    rw [parse_children_zero]
    exact ⟨rfl, advanced_refl _⟩
  | fuel + 1, nn, cnode, s => by
    have ha := hpn s cnode
    rw [parse_children_succ]
    simp only
    generalize pn s cnode = r at ha ⊢
    have ih := fun n1 => parse_children_spec pn hpn fuel n1 r.2.1 r.2.2
    split_ifs
    · exact ⟨(ih _).1.trans ha.1, advanced_trans ha.2 (ih _).2⟩
    · exact ha

theorem parse_node_spec : ∀ (d : Nat) (s : taoxml_t) (node : Option node_base_t),
    (taoxml_t._parse_node d s node).2.2._root = s._root
      ∧ advanced s._p (taoxml_t._parse_node d s node).2.2._p
      ∧ ((taoxml_t._parse_node d s node).1 ≠ token.error →
          (taoxml_t._parse_node d s node).2.2._p.length < s._p.length)
  | 0, s, node => by
    rw [parse_node_zero]
    exact ⟨rfl, advanced_refl _, fun h => absurd rfl h⟩
  | d + 1, s, node => by
    have ha := token_spec_state s start_condition.initial
    rw [parse_node_succ]
    simp only
    generalize s._token start_condition.initial = r at ha ⊢
    obtain ⟨a1, a2, a3⟩ := ha
    have hb := parse_attrs_spec (r.2._p.length + 1) (node_node_t.ctor.set_tag r.2._tk) r.2
    generalize taoxml_t._parse_attrs (r.2._p.length + 1) (node_node_t.ctor.set_tag r.2._tk) r.2
      = a at hb ⊢
    obtain ⟨b1, b2⟩ := hb
    have hlen := advanced_length b2
    have hc := fun nn => parse_children_spec (taoxml_t._parse_node d)
      (fun s1 c1 => ⟨(parse_node_spec d s1 c1).1, (parse_node_spec d s1 c1).2.1⟩)
      (a.2._p.length + 1) nn none a.2
    split_ifs with h1 h2 h3
    · exact ⟨a1, a2, fun _ => a3 (by simp at h1; rw [h1]; simp)⟩
    · have hr : r.1 ≠ token.error := by simp at h2; rw [h2]; simp
      have hlt := a3 hr
      split
      · exact ⟨b1.trans a1, advanced_trans a2 b2, fun h => absurd rfl h⟩
      · rename_i tk newnode heq
        split_ifs with h4 h5 h6
        · exact ⟨b1.trans a1, advanced_trans a2 b2, fun _ => by simp only; omega⟩
        · have hl2 := advanced_length (hc newnode).2
          exact ⟨(hc newnode).1.trans (b1.trans a1),
            advanced_trans a2 (advanced_trans b2 (hc newnode).2), fun _ => by simp only; omega⟩
        · exact ⟨(hc newnode).1.trans (b1.trans a1),
            advanced_trans a2 (advanced_trans b2 (hc newnode).2), fun h => absurd rfl h⟩
        · exact ⟨b1.trans a1, advanced_trans a2 b2, fun h => absurd rfl h⟩
    · have hr : r.1 ≠ token.error := by simp at h3; rw [h3]; simp
      exact ⟨a1, a2, fun _ => a3 hr⟩
    · have hr : r.1 ≠ token.error := by simp at h3; rw [h3]; simp
      exact ⟨a1, a2, fun _ => a3 hr⟩
    · exact ⟨a1, a2, fun h => absurd rfl h⟩

/-! ## Enough fuel: the loops do not depend on fuel beyond the remaining input -/

theorem accumulate_fuel_text (fuel : Nat) (root : element) (p tk : List Char) (n : Nat)
    (hf : p.length ≤ fuel) :
    accumulate is_text_char fuel ⟨root, p, tk⟩ n
      = accumulate is_text_char p.length ⟨root, p, tk⟩ n := by
  have hlen : (p.takeWhile is_text_char).length ≤ p.length := by
    have := congrArg List.length (List.takeWhile_append_dropWhile is_text_char p)
    rw [List.length_append] at this; omega
  have h := fun f hle => accumulate_run is_text_char text_entity_chars
    (p.dropWhile is_text_char) (cur_dropWhile _ (by decide) p) root f
    (p.takeWhile is_text_char) tk n hle (mem_takeWhile _ p)
  rw [List.takeWhile_append_dropWhile] at h
  rw [h fuel (by omega), h p.length hlen]

theorem accumulate_fuel_value (q : Char) (hq : q = SQUOTE ∨ q = DQUOTE) (fuel : Nat)
    (root : element) (p tk : List Char) (n : Nat) (hf : p.length ≤ fuel) :
    accumulate (value_func q) fuel ⟨root, p, tk⟩ n
      = accumulate (value_func q) p.length ⟨root, p, tk⟩ n := by
  have hlen : (p.takeWhile (value_func q)).length ≤ p.length := by
    have := congrArg List.length (List.takeWhile_append_dropWhile (value_func q) p)
    rw [List.length_append] at this; omega
  have h := fun f hle => accumulate_run (value_func q) (value_entity_chars q hq)
    (p.dropWhile (value_func q)) (cur_dropWhile _ (by simp [value_func]) p) root f
    (p.takeWhile (value_func q)) tk n hle (mem_takeWhile _ p)
  rw [List.takeWhile_append_dropWhile] at h
  rw [h fuel (by omega), h p.length hlen]

theorem accumulate_fuel_plain (func : Char → Bool) (hamp : func '&' = false)
    (hN : func NUL = false) (fuel : Nat) (root : element) (p tk : List Char) (n : Nat)
    (hf : p.length ≤ fuel) :
    accumulate func fuel ⟨root, p, tk⟩ n = accumulate func p.length ⟨root, p, tk⟩ n := by
  have hlen : (p.takeWhile func).length ≤ p.length := by
    have := congrArg List.length (List.takeWhile_append_dropWhile func p)
    rw [List.length_append] at this; omega
  have h := fun f hle => accumulate_plain func hamp (p.dropWhile func) (cur_dropWhile _ hN p)
    root f (p.takeWhile func) tk n hle (mem_takeWhile _ p)
  rw [List.takeWhile_append_dropWhile] at h
  rw [h fuel (by omega), h p.length hlen]

theorem parse_attrs_fuel : ∀ (f g : Nat) (nn : element) (s : taoxml_t),
    s._p.length + 1 ≤ f → s._p.length + 1 ≤ g →
    taoxml_t._parse_attrs f nn s = taoxml_t._parse_attrs g nn s
  | 0, _, _, _, hf, _ => by omega
  | _ + 1, 0, _, _, _, hg => by omega
  | f + 1, g + 1, nn, s, hf, hg => by
    have ha := token_spec_state s start_condition.in_tag
    rw [parse_attrs_succ, parse_attrs_succ]
    simp only
    generalize s._token start_condition.in_tag = r at ha ⊢
    obtain ⟨-, a2, a3⟩ := ha
    have hc := token_past_space_spec r.2
    generalize r.2._token_past_space = a at hc ⊢
    obtain ⟨-, c2, -⟩ := hc
    have hd := token_past_space_spec a.2
    generalize a.2._token_past_space = v at hd ⊢
    obtain ⟨-, d2, -⟩ := hd
    have l1 := advanced_length c2
    have l2 := advanced_length d2
    split_ifs with h1 h2 h3 h4
    · have hr : r.1 ≠ token.error := by simp at h1; rw [h1]; simp
      have := a3 hr
      exact parse_attrs_fuel f g nn r.2 (by omega) (by omega)
    · rfl
    · rfl
    · have hr : r.1 ≠ token.error := by simp at h2; rw [h2]; simp
      have := a3 hr
      exact parse_attrs_fuel f g _ v.2 (by omega) (by omega)
    · rfl

theorem parse_children_fuel
    (pn pm : taoxml_t → Option node_base_t → token × Option node_base_t × taoxml_t)
    (hpn : ∀ s c, (pn s c).1 ≠ token.error → (pn s c).2.2._p.length < s._p.length) :
    ∀ (f g : Nat) (nn : element) (cnode : Option node_base_t) (s : taoxml_t),
      s._p.length + 1 ≤ f → s._p.length + 1 ≤ g →
      (∀ s1 c1, s1._p.length ≤ s._p.length → pn s1 c1 = pm s1 c1) →
      parse_children pn f nn cnode s = parse_children pm g nn cnode s
  | 0, _, _, _, _, hf, _, _ => by omega
  | _ + 1, 0, _, _, _, _, hg, _ => by omega
  | f + 1, g + 1, nn, cnode, s, hf, hg, hag => by
    have ha := hpn s cnode
    rw [parse_children_succ, parse_children_succ, ← hag s cnode le_rfl]
    simp only
    generalize pn s cnode = r at ha ⊢
    split_ifs with h1
    · have hr : r.1 ≠ token.error := by
        intro h; simp [h] at h1
      have := ha hr
      exact parse_children_fuel pn pm hpn f g _ r.2.1 r.2.2 (by omega) (by omega)
        (fun s1 c1 hs1 => hag s1 c1 (by omega))
    · rfl

theorem parse_node_depth : ∀ (d e : Nat) (s : taoxml_t) (node : Option node_base_t),
    s._p.length + 1 ≤ d → s._p.length + 1 ≤ e →
    taoxml_t._parse_node d s node = taoxml_t._parse_node e s node
  | 0, _, _, _, hd, _ => by omega
  | _ + 1, 0, _, _, _, he => by omega
  | d + 1, e + 1, s, node, hd, he => by
    have ha := token_spec_state s start_condition.initial
    rw [parse_node_succ, parse_node_succ]
    simp only
    generalize s._token start_condition.initial = r at ha ⊢
    obtain ⟨-, -, a3⟩ := ha
    have hb := parse_attrs_spec (r.2._p.length + 1) (node_node_t.ctor.set_tag r.2._tk) r.2
    generalize taoxml_t._parse_attrs (r.2._p.length + 1) (node_node_t.ctor.set_tag r.2._tk) r.2
      = a at hb ⊢
    have hlen := advanced_length hb.2
    by_cases h2 : r.1 = token.open_
    · have hlt := a3 (by rw [h2]; simp)
      have hc := fun nn => parse_children_fuel (taoxml_t._parse_node d) (taoxml_t._parse_node e)
        (fun s1 c1 => (parse_node_spec d s1 c1).2.2) (a.2._p.length + 1) (a.2._p.length + 1)
        nn none a.2 le_rfl le_rfl
        (fun s1 c1 hs1 => parse_node_depth d e s1 c1 (by omega) (by omega))
      simp only [hc]
    · simp [h2]

theorem parse_loop_step (depth fuel : Nat) (s : taoxml_t) (node : Option node_base_t) :
    parse_loop depth (fuel + 1) s node =
      if (s._parse_node depth node).1 = token.close ∨ (s._parse_node depth node).1 = token.close2
      then
        parse_loop depth fuel
          (attach_root (s._parse_node depth node).2.1 (s._parse_node depth node).2.2)
          (s._parse_node depth node).2.1
      else s._parse_node depth node := by
  rw [parse_loop_succ]
  by_cases h : ((s._parse_node depth node).1 == token.close
      || (s._parse_node depth node).1 == token.close2) = true
  · have h2 : (s._parse_node depth node).1 = token.close ∨
        (s._parse_node depth node).1 = token.close2 := by
      simpa [Bool.or_eq_true, beq_iff_eq] using h
    simp only [h, if_true, h2]
    rfl
  · have h2 : ¬ ((s._parse_node depth node).1 = token.close ∨
        (s._parse_node depth node).1 = token.close2) := by
      simpa [Bool.or_eq_true, beq_iff_eq] using h
    simp only [h, if_false, h2]
    rfl

theorem attach_root_p (node : Option node_base_t) (s : taoxml_t) :
    (attach_root node s)._p = s._p := by
  cases node with
  | none => rfl
  | some n => by_cases h : (n.type == node_type.node) = true <;> simp [attach_root, h]

theorem parse_loop_fuel (d e : Nat) : ∀ (f g : Nat) (s : taoxml_t) (node : Option node_base_t),
    s._p.length + 1 ≤ d → s._p.length + 1 ≤ e → s._p.length + 1 ≤ f → s._p.length + 1 ≤ g →
    parse_loop d f s node = parse_loop e g s node
  | 0, _, _, _, _, _, hf, _ => by omega
  | _ + 1, 0, _, _, _, _, _, hg => by omega
  | f + 1, g + 1, s, node, hd, he, hf, hg => by
    have ha := parse_node_spec d s node
    rw [parse_loop_step, parse_loop_step, ← parse_node_depth d e s node hd he]
    generalize taoxml_t._parse_node d s node = r at ha ⊢
    obtain ⟨-, -, a3⟩ := ha
    split_ifs with h1
    · have hr : r.1 ≠ token.error := by
        intro h; simp [h] at h1
      have hlt := a3 hr
      apply parse_loop_fuel d e f g
      all_goals (rw [attach_root_p]; omega)
    · rfl

/-! ## Termination -/

theorem parse_loop_variant (d : Nat) (s : taoxml_t) (node : Option node_base_t)
    (h : (s._parse_node d node).1 = token.close ∨ (s._parse_node d node).1 = token.close2) :
    (attach_root (s._parse_node d node).2.1 (s._parse_node d node).2.2)._p.length
      < s._p.length := by
  rw [attach_root_p]
  apply (parse_node_spec d s node).2.2
  intro he
  rw [he] at h
  cases h with
  | inl h => exact absurd h (by decide)
  | inr h => exact absurd h (by decide)

theorem parse_fuel (s : taoxml_t) (xml : List Char) (d f : Nat)
    (hd : xml.length + 1 ≤ d) (hf : xml.length + 1 ≤ f) :
    s.parse xml = (true, (parse_loop d f { s with _p := xml } none).2.2) := by
  unfold taoxml_t.parse
  simp only
  rw [parse_loop_fuel (xml.length + 1) d (xml.length + 1) f { s with _p := xml } none
    le_rfl hd le_rfl hf]

/-- C19: parsing terminates on every input.  Every call of the scanner `_token`
steps only over characters other than NUL, so it never passes the terminator, and
a call that returns a token other than `error` leaves strictly less input; the
same holds of `_parse_node`, and an iteration of the loop of `parse` that goes on
leaves strictly less input.  Hence the attribute loop, the child loop and the
loop of `parse` end within `length + 1` iterations and the recursion of
`_parse_node` within depth `length + 1`: any larger bound gives the same result. -/
theorem C19_parsing_terminates :
    (∀ (s : taoxml_t) (cond : start_condition),
        advanced s._p (s._token cond).2._p ∧
        ((s._token cond).1 ≠ token.error → (s._token cond).2._p.length < s._p.length)) ∧
    (∀ (d : Nat) (s : taoxml_t) (node : Option node_base_t),
        advanced s._p (s._parse_node d node).2.2._p ∧
        ((s._parse_node d node).1 ≠ token.error →
          (s._parse_node d node).2.2._p.length < s._p.length)) ∧
    (∀ (d : Nat) (s : taoxml_t) (node : Option node_base_t),
        ((s._parse_node d node).1 = token.close ∨ (s._parse_node d node).1 = token.close2) →
        (attach_root (s._parse_node d node).2.1 (s._parse_node d node).2.2)._p.length
          < s._p.length) ∧
    (∀ (f g : Nat) (nn : element) (s : taoxml_t),
        s._p.length + 1 ≤ f → s._p.length + 1 ≤ g →
        taoxml_t._parse_attrs f nn s = taoxml_t._parse_attrs g nn s) ∧
    (∀ (d e f g : Nat) (nn : element) (cnode : Option node_base_t) (s : taoxml_t),
        s._p.length + 1 ≤ d → s._p.length + 1 ≤ e →
        s._p.length + 1 ≤ f → s._p.length + 1 ≤ g →
        parse_children (taoxml_t._parse_node d) f nn cnode s
          = parse_children (taoxml_t._parse_node e) g nn cnode s) ∧
    (∀ (d e : Nat) (s : taoxml_t) (node : Option node_base_t),
        s._p.length + 1 ≤ d → s._p.length + 1 ≤ e →
        taoxml_t._parse_node d s node = taoxml_t._parse_node e s node) ∧
    (∀ (d e f g : Nat) (s : taoxml_t) (node : Option node_base_t),
        s._p.length + 1 ≤ d → s._p.length + 1 ≤ e →
        s._p.length + 1 ≤ f → s._p.length + 1 ≤ g →
        parse_loop d f s node = parse_loop e g s node) ∧
    (∀ (s : taoxml_t) (xml : List Char) (d f : Nat),
        xml.length + 1 ≤ d → xml.length + 1 ≤ f →
        s.parse xml = (true, (parse_loop d f { s with _p := xml } none).2.2)) := by
  refine ⟨fun s cond => (token_spec_state s cond).2,
    fun d s node => (parse_node_spec d s node).2,
    parse_loop_variant, parse_attrs_fuel, ?_, parse_node_depth, parse_loop_fuel, parse_fuel⟩
  intro d e f g nn cnode s hd he hf hg
  apply parse_children_fuel _ _ (fun s1 c1 => (parse_node_spec d s1 c1).2.2) f g nn cnode s hf hg
  intro s1 c1 h1
  exact parse_node_depth d e s1 c1 (by omega) (by omega)

set_option maxRecDepth 100000 in
/-- C19 on `<a>x</a>`: the first token leaves fewer than the 8 characters, and the
loop of `parse` gives the same result with bounds 9, 9 as with bounds 20, 30. -/
theorem C19_parsing_terminates_witness :
    (taoxml_t._token ⟨node_node_t.ctor, ['<', 'a', '>', 'x', '<', '/', 'a', '>'], []⟩
        start_condition.initial).2._p.length < 8 ∧
    parse_loop 9 9 ⟨node_node_t.ctor, ['<', 'a', '>', 'x', '<', '/', 'a', '>'], []⟩ none
      = parse_loop 20 30 ⟨node_node_t.ctor, ['<', 'a', '>', 'x', '<', '/', 'a', '>'], []⟩ none :=
  ⟨(C19_parsing_terminates.1
      ⟨node_node_t.ctor, ['<', 'a', '>', 'x', '<', '/', 'a', '>'], []⟩
      start_condition.initial).2 (by decide!),
   C19_parsing_terminates.2.2.2.2.2.2.1 9 20 9 30
      ⟨node_node_t.ctor, ['<', 'a', '>', 'x', '<', '/', 'a', '>'], []⟩ none
      (by decide) (by decide) (by decide) (by decide)⟩

/-! ## The result does not depend on the scratch text or on the incoming `*node` -/

theorem token_indep (s : taoxml_t) (tk1 : List Char) (cond : start_condition) :
    ∃ tk2 : List Char,
      taoxml_t._token ⟨s._root, s._p, tk1⟩ cond
        = ((s._token cond).1, ⟨(s._token cond).2._root, (s._token cond).2._p, tk2⟩)
      ∧ ((s._token cond).1 = token.open_ ∨ (s._token cond).1 = token.attr
          ∨ (s._token cond).1 = token.value ∨ (s._token cond).1 = token.text →
          tk2 = (s._token cond).2._tk) := by
  obtain ⟨root, p, tk⟩ := s
  cases cond with
  | initial =>
    simp only [token_initial_form]
    split_ifs <;> first
      | exact ⟨_, rfl, fun _ => rfl⟩
      | exact ⟨tk1, rfl, fun h => by simp at h⟩
  | in_tag =>
    simp only [token_in_tag_form]
    split_ifs <;> first
      | exact ⟨_, rfl, fun _ => rfl⟩
      | exact ⟨tk1, rfl, fun h => by simp at h⟩


theorem token_past_space_indep (s : taoxml_t) (tk1 : List Char) :
    ∃ tk2 : List Char,
      taoxml_t._token_past_space ⟨s._root, s._p, tk1⟩
        = (s._token_past_space.1, ⟨s._token_past_space.2._root, s._token_past_space.2._p, tk2⟩)
      ∧ (s._token_past_space.1 = token.open_ ∨ s._token_past_space.1 = token.attr
          ∨ s._token_past_space.1 = token.value ∨ s._token_past_space.1 = token.text →
          tk2 = s._token_past_space.2._tk) := by
  obtain ⟨tk2, h, h2⟩ := token_indep s tk1 start_condition.in_tag
  rw [token_past_space_unfold, token_past_space_unfold, h]
  simp only
  generalize s._token start_condition.in_tag = r at h2 ⊢
  split_ifs
  · exact token_indep r.2 tk2 start_condition.in_tag
  · exact ⟨tk2, rfl, h2⟩

theorem parse_attrs_indep : ∀ (fuel : Nat) (nn : element) (s : taoxml_t) (tk1 : List Char),
    ∃ tk2 : List Char,
      taoxml_t._parse_attrs fuel nn ⟨s._root, s._p, tk1⟩
        = ((taoxml_t._parse_attrs fuel nn s).1,
            ⟨(taoxml_t._parse_attrs fuel nn s).2._root,
              (taoxml_t._parse_attrs fuel nn s).2._p, tk2⟩)
  | 0, nn, s, tk1 => by
    rw [parse_attrs_zero, parse_attrs_zero]
    exact ⟨tk1, rfl⟩
  | fuel + 1, nn, s, tk1 => by
    obtain ⟨tk2, h, h2⟩ := token_indep s tk1 start_condition.in_tag
    rw [parse_attrs_succ, parse_attrs_succ, h]
    simp only
    generalize s._token start_condition.in_tag = r at h2 ⊢
    obtain ⟨tk3, h3, -⟩ := token_past_space_indep r.2 tk2
    rw [h3]
    simp only
    generalize r.2._token_past_space = a
    obtain ⟨tk4, h4, h5⟩ := token_past_space_indep a.2 tk3
    rw [h4]
    simp only
    generalize a.2._token_past_space = v at h5 ⊢
    split_ifs with c1 c2 c3 c4
    · exact parse_attrs_indep fuel nn r.2 tk2
    · exact ⟨tk3, rfl⟩
    · exact ⟨tk4, rfl⟩
    · have hv : v.1 = token.value := by simpa using c4
      rw [h2 (Or.inr (Or.inl (by simpa using c2))), h5 (Or.inr (Or.inr (Or.inl hv)))]
      exact parse_attrs_indep fuel (nn.add_attr r.2._tk v.2._tk) v.2 v.2._tk
    · exact ⟨tk2, rfl⟩


theorem parse_children_indep
    (pn : taoxml_t → Option node_base_t → token × Option node_base_t × taoxml_t)
    (hpn : ∀ (s : taoxml_t) (c : Option node_base_t) (tk1 : List Char) (c1 : Option node_base_t),
      ∃ (tk2 : List Char) (c2 : Option node_base_t),
        pn ⟨s._root, s._p, tk1⟩ c1 = ((pn s c).1, c2, ⟨(pn s c).2.2._root, (pn s c).2.2._p, tk2⟩)
        ∧ ((pn s c).1 ≠ token.close3 → (pn s c).1 ≠ token.error → c2 = (pn s c).2.1)) :
    ∀ (fuel : Nat) (nn : element) (cnode : Option node_base_t) (s : taoxml_t)
      (tk1 : List Char) (cnode1 : Option node_base_t),
      ∃ (tk2 : List Char) (c2 : Option node_base_t),
        parse_children pn fuel nn cnode1 ⟨s._root, s._p, tk1⟩
          = ((parse_children pn fuel nn cnode s).1, (parse_children pn fuel nn cnode s).2.1, c2,
              ⟨(parse_children pn fuel nn cnode s).2.2.2._root,
                (parse_children pn fuel nn cnode s).2.2.2._p, tk2⟩)
  | 0, nn, cnode, s, tk1, cnode1 => by
    rw [parse_children_zero, parse_children_zero]
    exact ⟨tk1, cnode1, rfl⟩
  | fuel + 1, nn, cnode, s, tk1, cnode1 => by
    obtain ⟨tk2, c2, h, h2⟩ := hpn s cnode tk1 cnode1
    rw [parse_children_succ, parse_children_succ, h]
    simp only
    generalize pn s cnode = r at h2 ⊢
    split_ifs with c1
    · have hc : r.1 ≠ token.close3 ∧ r.1 ≠ token.error := by simpa using c1
      rw [h2 hc.1 hc.2]
      exact parse_children_indep pn hpn fuel _ r.2.1 r.2.2 tk2 r.2.1
    · exact ⟨tk2, c2, rfl⟩

theorem parse_node_indep : ∀ (d : Nat) (s : taoxml_t) (node : Option node_base_t)
    (tk1 : List Char) (node1 : Option node_base_t),
    ∃ (tk2 : List Char) (node2 : Option node_base_t),
      taoxml_t._parse_node d ⟨s._root, s._p, tk1⟩ node1
        = ((taoxml_t._parse_node d s node).1, node2,
            ⟨(taoxml_t._parse_node d s node).2.2._root,
              (taoxml_t._parse_node d s node).2.2._p, tk2⟩)
      ∧ ((taoxml_t._parse_node d s node).1 ≠ token.close3 →
          (taoxml_t._parse_node d s node).1 ≠ token.error →
          node2 = (taoxml_t._parse_node d s node).2.1)
  | 0, s, node, tk1, node1 => by
    rw [parse_node_zero, parse_node_zero]
    exact ⟨tk1, node1, rfl, fun _ h => absurd rfl h⟩
  | d + 1, s, node, tk1, node1 => by
    obtain ⟨tk2, h, h2⟩ := token_indep s tk1 start_condition.initial
    rw [parse_node_succ, parse_node_succ, h]
    simp only
    generalize s._token start_condition.initial = r at h2 ⊢
    by_cases c1 : r.1 = token.close
    · have c1b : (r.1 == token.close) = true := by simpa using c1
      simp only [c1b, if_true]
      exact ⟨tk2, node1, rfl, fun h _ => absurd rfl h⟩
    · by_cases c2 : r.1 = token.open_
      · rw [h2 (Or.inl c2)]
        have c1b : (r.1 == token.close) = false := by simpa using c1
        have c2b : (r.1 == token.open_) = true := by simpa using c2
        simp only [c1b, c2b, if_true, if_false, Bool.false_eq_true]
        obtain ⟨tk3, h3⟩ := parse_attrs_indep (r.2._p.length + 1)
          (node_node_t.ctor.set_tag r.2._tk) r.2 r.2._tk
        rw [h3]
        simp only
        have hroot := (parse_attrs_spec (r.2._p.length + 1)
          (node_node_t.ctor.set_tag r.2._tk) r.2).1
        generalize taoxml_t._parse_attrs (r.2._p.length + 1)
          (node_node_t.ctor.set_tag r.2._tk) r.2 = a at hroot ⊢
        obtain ⟨a1, a2⟩ := a
        cases a1 with
        | none => exact ⟨tk3, node1, rfl, fun _ h => absurd rfl h⟩
        | some tn =>
          obtain ⟨t, nn⟩ := tn
          simp only
          by_cases c3 : t = token.close2
          · have c3b : (t == token.close2) = true := by simpa using c3
            simp only [c3b, if_true]
            exact ⟨tk3, _, rfl, fun _ _ => rfl⟩
          · by_cases c4 : t = token.open2
            · have c3b : (t == token.close2) = false := by simpa using c3
              have c4b : (t == token.open2) = true := by simpa using c4
              simp only [c3b, c4b, if_true, if_false, Bool.false_eq_true]
              obtain ⟨tk4, c5, h4⟩ := parse_children_indep (taoxml_t._parse_node d)
                (parse_node_indep d) (a2._p.length + 1) nn none a2 tk3 none
              rw [h4]
              simp only
              generalize parse_children (taoxml_t._parse_node d) (a2._p.length + 1) nn none a2 = c
              split_ifs
              · exact ⟨tk4, _, rfl, fun _ _ => rfl⟩
              · exact ⟨tk4, node1, rfl, fun _ h => absurd rfl h⟩
            · have c3b : (t == token.close2) = false := by simpa using c3
              have c4b : (t == token.open2) = false := by simpa using c4
              simp only [c3b, c4b, if_false, Bool.false_eq_true]
              exact ⟨tk3, node1, rfl, fun _ h => absurd rfl h⟩
      · have c1b : (r.1 == token.close) = false := by simpa using c1
        have c2b : (r.1 == token.open_) = false := by simpa using c2
        simp only [c1b, c2b, if_false, Bool.false_eq_true]
        by_cases c3 : r.1 = token.text
        · rw [h2 (Or.inr (Or.inr (Or.inr c3)))]
          have c3b : (r.1 == token.text) = true := by simpa using c3
          simp only [c3b, if_true]
          have he : taoxml_t._is_empty ⟨r.2._root, r.2._p, r.2._tk⟩ = r.2._is_empty := rfl
          rw [he]
          split_ifs
          · exact ⟨_, _, rfl, fun _ _ => rfl⟩
          · exact ⟨_, _, rfl, fun _ _ => rfl⟩
        · have c3b : (r.1 == token.text) = false := by simpa using c3
          simp only [c3b, if_false, Bool.false_eq_true]
          exact ⟨tk2, node1, rfl, fun _ h => absurd rfl h⟩

theorem parse_loop_indep (d : Nat) : ∀ (f : Nat) (s : taoxml_t) (node : Option node_base_t)
    (tk1 : List Char) (node1 : Option node_base_t),
    ∃ (tk2 : List Char) (node2 : Option node_base_t),
      parse_loop d f ⟨s._root, s._p, tk1⟩ node1
        = ((parse_loop d f s node).1, node2,
            ⟨(parse_loop d f s node).2.2._root, (parse_loop d f s node).2.2._p, tk2⟩)
  | 0, s, node, tk1, node1 => by
    rw [parse_loop_zero, parse_loop_zero]
    exact ⟨tk1, node1, rfl⟩
  | f + 1, s, node, tk1, node1 => by
    obtain ⟨tk2, node2, h, h2⟩ := parse_node_indep d s node tk1 node1
    rw [parse_loop_step, parse_loop_step, h]
    simp only
    generalize taoxml_t._parse_node d s node = r at h2 ⊢
    split_ifs with c1
    · have hc : r.1 ≠ token.close3 ∧ r.1 ≠ token.error := by
        cases c1 with
        | inl c => rw [c]; exact ⟨by decide, by decide⟩
        | inr c => rw [c]; exact ⟨by decide, by decide⟩
      rw [h2 hc.1 hc.2]
      have ha : attach_root r.2.1 ⟨r.2.2._root, r.2.2._p, tk2⟩
          = ⟨(attach_root r.2.1 r.2.2)._root, (attach_root r.2.1 r.2.2)._p, tk2⟩ := by
        cases r.2.1 with
        | none => rfl
        | some n =>
          by_cases ht : (n.type == node_type.node) = true <;> simp [attach_root, ht]
      rw [ha]
      exact parse_loop_indep d f _ r.2.1 tk2 r.2.1
    · exact ⟨tk2, node2, rfl⟩

/-! ## The root only grows by elements; text at the outermost level -/

theorem attach_root_children (node : Option node_base_t) (s : taoxml_t) :
    ∃ l : List node_base_t,
      (attach_root node s)._root = { s._root with _children := s._root._children ++ l }
      ∧ ∀ c ∈ l, c.type = node_type.node ∧ node = some c := by
  cases node with
  | none => exact ⟨[], by simp [attach_root], by simp⟩
  | some n =>
    by_cases ht : (n.type == node_type.node) = true
    · refine ⟨[n], by simp [attach_root, ht, node_node_t.add_child], ?_⟩
      intro c hc
      rw [List.mem_singleton] at hc
      subst hc
      exact ⟨by simpa using ht, rfl⟩
    · exact ⟨[], by simp [attach_root, ht], by simp⟩

theorem parse_loop_root (P : node_base_t → Prop) (d : Nat)
    (hP : ∀ (s : taoxml_t) (node : Option node_base_t) (n : node_base_t),
      ((s._parse_node d node).1 = token.close ∨ (s._parse_node d node).1 = token.close2) →
      (s._parse_node d node).2.1 = some n → P n) :
    ∀ (f : Nat) (s : taoxml_t) (node : Option node_base_t),
      ∃ extra : List node_base_t,
        (parse_loop d f s node).2.2._root
          = { s._root with _children := s._root._children ++ extra }
        ∧ ∀ c ∈ extra, c.type = node_type.node ∧ P c
  | 0, s, node => by
    rw [parse_loop_zero]
    exact ⟨[], by simp, by simp⟩
  | f + 1, s, node => by
    have ha := (parse_node_spec d s node).1
    have hp := hP s node
    rw [parse_loop_step]
    generalize taoxml_t._parse_node d s node = r at ha hp ⊢
    split_ifs with h1
    · obtain ⟨l, hl, hl2⟩ := attach_root_children r.2.1 r.2.2
      obtain ⟨extra, he, he2⟩ := parse_loop_root P d hP f (attach_root r.2.1 r.2.2) r.2.1
      refine ⟨l ++ extra, ?_, ?_⟩
      · rw [he, hl, ha]
        simp
      · intro c hc
        rw [List.mem_append] at hc
        cases hc with
        | inl hc => exact ⟨(hl2 c hc).1, hp c h1 (hl2 c hc).2⟩
        | inr hc => exact he2 c hc
    · exact ⟨[], by simp [ha], by simp⟩

theorem parse_loop_text_skip (d f : Nat) (root : element) (t rest tk : List Char)
    (node : Option node_base_t) (hne : t ≠ [])
    (ht : ∀ c ∈ t, is_text_char c = true) (hrest : is_text_char (cur rest) = false)
    (hd : (t ++ rest).length + 1 ≤ d) (hf : (t ++ rest).length + 1 ≤ f) :
    (parse_loop d f ⟨root, t ++ rest, tk⟩ node).2.2._root
      = (parse_loop d f ⟨root, rest, tk⟩ node).2.2._root := by
  have htl : 0 < t.length := List.length_pos.mpr hne
  rw [List.length_append] at hd hf
  obtain ⟨d1, rfl⟩ : ∃ d1, d = d1 + 1 := ⟨d - 1, by omega⟩
  obtain ⟨f1, rfl⟩ : ∃ f1, f = f1 + 1 := ⟨f - 1, by omega⟩
  rw [parse_loop_step, parse_node_text d1 root t rest tk node hne ht hrest]
  simp only [true_or, or_true, if_true]
  have hat : attach_root
      (if taoxml_t._is_empty ⟨root, rest, decode_ref t⟩ then none
        else some (node_base_t.text ⟨decode_ref t⟩)) ⟨root, rest, decode_ref t⟩
      = ⟨root, rest, decode_ref t⟩ := by
    split_ifs <;> rfl
  rw [hat]
  obtain ⟨tk2, node2, h⟩ := parse_loop_indep (d1 + 1) f1 ⟨root, rest, tk⟩ node (decode_ref t)
    (if taoxml_t._is_empty ⟨root, rest, decode_ref t⟩ then none
        else some (node_base_t.text ⟨decode_ref t⟩))
  rw [h]
  simp only
  rw [parse_loop_fuel (d1 + 1) (d1 + 1) f1 (f1 + 1) ⟨root, rest, tk⟩ node
    (by simp only; omega) (by simp only; omega) (by simp only; omega) (by simp only; omega)]

theorem parse_text_skip (s : taoxml_t) (t rest : List Char) (hne : t ≠ [])
    (ht : ∀ c ∈ t, is_text_char c = true) (hrest : is_text_char (cur rest) = false) :
    (s.parse (t ++ rest)).2._root = (s.parse rest).2._root := by
  rw [parse_fuel s (t ++ rest) _ _ le_rfl le_rfl,
    parse_fuel s rest ((t ++ rest).length + 1) ((t ++ rest).length + 1)
      (by rw [List.length_append]; omega) (by rw [List.length_append]; omega)]
  exact parse_loop_text_skip _ _ s._root t rest s._tk none hne ht hrest le_rfl le_rfl

set_option maxRecDepth 100000 in
/-- C12: the root holds elements only.  For every input, every child of the root
after `parse` is an element.  A run of text `t` at the outermost level (blank or
not) is skipped without effect on the root: the loop of `parse`, started with any
root on `t` followed by `rest`, ends with the root it ends with when started on
`rest`, so the elements attached before stay and those after are attached in
order, and so does `parse` for text at the start of the input.  The input
`x<a/>y<b/>` gives the root children `a`, `b`. -/
theorem C12_root_holds_elements_only :
    (∀ (xml : List Char), ∀ c ∈ (taoxml_t.ctor.parse xml).2._root._children,
        c.type = node_type.node) ∧
    (∀ (d f : Nat) (root : element) (t rest tk : List Char) (node : Option node_base_t),
        t ≠ [] → (∀ c ∈ t, is_text_char c = true) → is_text_char (cur rest) = false →
        (t ++ rest).length + 1 ≤ d → (t ++ rest).length + 1 ≤ f →
        (parse_loop d f ⟨root, t ++ rest, tk⟩ node).2.2._root
          = (parse_loop d f ⟨root, rest, tk⟩ node).2.2._root) ∧
    (∀ (s : taoxml_t) (t rest : List Char),
        t ≠ [] → (∀ c ∈ t, is_text_char c = true) → is_text_char (cur rest) = false →
        (s.parse (t ++ rest)).2._root = (s.parse rest).2._root) ∧
    (taoxml_t.ctor.parse ['x', '<', 'a', '/', '>', 'y', '<', 'b', '/', '>']).2._root._children
      = [node_base_t.node (node_node_t.ctor.set_tag ['a']),
         node_base_t.node (node_node_t.ctor.set_tag ['b'])] := by
  refine ⟨?_, parse_loop_text_skip, parse_text_skip, by with_unfolding_all rfl⟩
  intro xml c hc
  obtain ⟨extra, he, he2⟩ := parse_loop_root (fun _ => True) (xml.length + 1)
    (fun _ _ _ _ _ => trivial) (xml.length + 1) ⟨node_node_t.ctor, xml, []⟩ none
  have hr : (taoxml_t.ctor.parse xml).2._root
      = (parse_loop (xml.length + 1) (xml.length + 1) ⟨node_node_t.ctor, xml, []⟩ none).2.2._root :=
    rfl
  rw [hr, he] at hc
  simp only [node_node_t.ctor, List.nil_append] at hc
  exact (he2 c hc).1

set_option maxRecDepth 100000 in
/-- C12 on `x <a/>`: the leading text leaves the root as `<a/>` alone does. -/
theorem C12_root_holds_elements_only_witness :
    (taoxml_t.ctor.parse (['x', ' '] ++ ['<', 'a', '/', '>'])).2._root
      = (taoxml_t.ctor.parse ['<', 'a', '/', '>']).2._root :=
  C12_root_holds_elements_only.2.2.1 taoxml_t.ctor ['x', ' '] ['<', 'a', '/', '>']
    (by decide) (by decide) (by decide)

/-! ## Back-links -/

theorem links_null_fields (n : element) (h : links_null (node_base_t.node n)) :
    n.parent = none ∧ n.big = none ∧ n.little = none ∧ ∀ c ∈ n._children, links_null c := by
  cases h with
  | node _ h1 h2 h3 h4 => exact ⟨h1, h2, h3, h4⟩

theorem links_null_reachable (n x : node_base_t) (hr : reachable n x) :
    links_null n → links_null x := by
  induction hr with
  | self n => exact id
  | child n c x hc _ ih => exact fun h => ih ((links_null_fields n h).2.2.2 c hc)

theorem links_null_new (tag : List Char) :
    links_null (node_base_t.node (node_node_t.ctor.set_tag tag)) :=
  links_null.node _ rfl rfl rfl (fun c hc => by simp [node_node_t.ctor, node_node_t.set_tag] at hc)

theorem links_null_add_attr (e : element) (k v : List Char)
    (h : links_null (node_base_t.node e)) : links_null (node_base_t.node (e.add_attr k v)) := by
  obtain ⟨h1, h2, h3, h4⟩ := links_null_fields e h
  exact links_null.node _ h1 h2 h3 h4

theorem links_null_add_child (e : element) (c : node_base_t)
    (h : links_null (node_base_t.node e)) (hc : links_null c) :
    links_null (node_base_t.node (e.add_child c)) := by
  obtain ⟨h1, h2, h3, h4⟩ := links_null_fields e h
  refine links_null.node _ h1 h2 h3 ?_
  intro x hx
  simp only [node_node_t.add_child, List.mem_append, List.mem_singleton] at hx
  cases hx with
  | inl hx => exact h4 x hx
  | inr hx => rw [hx]; exact hc

theorem parse_attrs_links : ∀ (fuel : Nat) (nn : element) (s : taoxml_t),
    links_null (node_base_t.node nn) →
    ∀ (tk : token) (e : element), (taoxml_t._parse_attrs fuel nn s).1 = some (tk, e) →
      links_null (node_base_t.node e)
  | 0, nn, s, _, tk, e, h => by
    rw [parse_attrs_zero] at h
    exact absurd h (by simp)
  | fuel + 1, nn, s, hn, tk, e, h => by
    rw [parse_attrs_succ] at h
    simp only at h
    generalize s._token start_condition.in_tag = r at h
    generalize r.2._token_past_space = a at h
    generalize a.2._token_past_space = v at h
    split_ifs at h
    · exact parse_attrs_links fuel nn r.2 hn tk e h
    · exact parse_attrs_links fuel _ v.2 (links_null_add_attr nn _ _ hn) tk e h
    · simp only [Option.some.injEq, Prod.mk.injEq] at h
      rw [← h.2]
      exact hn

theorem parse_children_links
    (pn : taoxml_t → Option node_base_t → token × Option node_base_t × taoxml_t)
    (hpn : ∀ (s : taoxml_t) (c : Option node_base_t) (n : node_base_t),
      (pn s c).1 ≠ token.close3 → (pn s c).1 ≠ token.error → (pn s c).2.1 = some n →
      links_null n) :
    ∀ (fuel : Nat) (nn : element) (cnode : Option node_base_t) (s : taoxml_t),
      links_null (node_base_t.node nn) →
      links_null (node_base_t.node (parse_children pn fuel nn cnode s).2.1)
  | 0, nn, cnode, s, hn => by
    rw [parse_children_zero]
    exact hn
  | fuel + 1, nn, cnode, s, hn => by
    have ha := hpn s cnode
    rw [parse_children_succ]
    simp only
    generalize pn s cnode = r at ha ⊢
    split_ifs with c1
    · have hc : r.1 ≠ token.close3 ∧ r.1 ≠ token.error := by simpa using c1
      apply parse_children_links pn hpn fuel
      cases hr : r.2.1 with
      | none => exact hn
      | some c => exact links_null_add_child nn c hn (ha c hc.1 hc.2 hr)
    · exact hn

theorem parse_node_links : ∀ (d : Nat) (s : taoxml_t) (node : Option node_base_t)
    (n : node_base_t),
    (taoxml_t._parse_node d s node).1 ≠ token.close3 →
    (taoxml_t._parse_node d s node).1 ≠ token.error →
    (taoxml_t._parse_node d s node).2.1 = some n → links_null n
  | 0, s, node, n, _, h, _ => by
    rw [parse_node_zero] at h
    exact absurd rfl h
  | d + 1, s, node, n, h3, he, hn => by
    rw [parse_node_succ] at h3 he hn
    simp only at h3 he hn
    generalize s._token start_condition.initial = r at h3 he hn
    have hb := parse_attrs_links (r.2._p.length + 1) (node_node_t.ctor.set_tag r.2._tk) r.2
      (links_null_new _)
    generalize taoxml_t._parse_attrs (r.2._p.length + 1) (node_node_t.ctor.set_tag r.2._tk) r.2
      = a at h3 he hn hb
    obtain ⟨a1, a2⟩ := a
    split_ifs at h3 he hn with c1 c2 c3 c4
    · exact absurd rfl h3
    · cases a1 with
      | none => exact absurd rfl he
      | some tn =>
        obtain ⟨t, nn⟩ := tn
        have hnn := hb t nn rfl
        simp only at h3 he hn
        have hc := parse_children_links (taoxml_t._parse_node d) (parse_node_links d)
          (a2._p.length + 1) nn none a2 hnn
        generalize parse_children (taoxml_t._parse_node d) (a2._p.length + 1) nn none a2
          = c at h3 he hn hc
        split_ifs at h3 he hn
        · simp only [Option.some.injEq] at hn
          rw [← hn]
          exact hnn
        · simp only [Option.some.injEq] at hn
          rw [← hn]
          exact hc
        · exact absurd rfl he
        · exact absurd rfl he
    · simp only [Option.some.injEq] at hn
      rw [← hn]
      exact links_null.text _
    · exact absurd rfl he

theorem parse_links (xml : List Char) :
    links_null (node_base_t.node (taoxml_t.ctor.parse xml).2._root) := by
  obtain ⟨extra, he, he2⟩ := parse_loop_root links_null (xml.length + 1)
    (fun s node n h hn => parse_node_links _ s node n
      (by cases h with
          | inl h => rw [h]; decide
          | inr h => rw [h]; decide)
      (by cases h with
          | inl h => rw [h]; decide
          | inr h => rw [h]; decide) hn)
    (xml.length + 1) ⟨node_node_t.ctor, xml, []⟩ none
  have hr : (taoxml_t.ctor.parse xml).2._root
      = (parse_loop (xml.length + 1) (xml.length + 1) ⟨node_node_t.ctor, xml, []⟩ none).2.2._root :=
    rfl
  rw [hr, he]
  refine links_null.node _ rfl rfl rfl ?_
  intro c hc
  simp only [node_node_t.ctor, List.nil_append] at hc
  exact (he2 c hc).2

/-- C17: parsing never populates the back-links.  For every input, `parent()`,
`big()` and `little()` return null at the root after `parse` and at every element
reachable from the root through child lists. -/
theorem C17_back_links_stay_null (xml : List Char) (e : element)
    (h : reachable (node_base_t.node (taoxml_t.ctor.parse xml).2._root) (node_base_t.node e)) :
    e.parent = none ∧ e.big = none ∧ e.little = none := by
  have h1 := links_null_fields e (links_null_reachable _ _ h (parse_links xml))
  exact ⟨h1.1, h1.2.1, h1.2.2.1⟩

theorem sample_reachable :
    reachable
      (node_base_t.node (taoxml_t.ctor.parse
        ['<', 'a', '>', '<', 'b', '/', '>', '<', '/', 'a', '>']).2._root)
      (node_base_t.node (node_node_t.ctor.set_tag ['b'])) := by
  have hr : (taoxml_t.ctor.parse
        ['<', 'a', '>', '<', 'b', '/', '>', '<', '/', 'a', '>']).2._root
      = node_node_t.ctor.add_child (node_base_t.node
          ((node_node_t.ctor.set_tag ['a']).add_child
            (node_base_t.node (node_node_t.ctor.set_tag ['b'])))) := by
    with_unfolding_all rfl
  rw [hr]
  refine reachable.child _ _ _ (List.mem_singleton.mpr rfl) ?_
  refine reachable.child _ _ _ (List.mem_singleton.mpr rfl) ?_
  exact reachable.self _

/-- C17 on `<a><b/></a>`: the element `b` is reachable from the root and its three
links are null. -/
theorem C17_back_links_stay_null_witness :
    reachable
      (node_base_t.node (taoxml_t.ctor.parse
        ['<', 'a', '>', '<', 'b', '/', '>', '<', '/', 'a', '>']).2._root)
      (node_base_t.node (node_node_t.ctor.set_tag ['b']))
    ∧ (node_node_t.ctor.set_tag ['b']).parent = none
    ∧ (node_node_t.ctor.set_tag ['b']).big = none
    ∧ (node_node_t.ctor.set_tag ['b']).little = none :=
  ⟨sample_reachable, C17_back_links_stay_null _ _ sample_reachable⟩

/-! ## Parsing the canonical serialisation -/

theorem render_text (v : List Char) : render (.text v) = v := by
  simp [render]

theorem render_elem_empty (tag : List Char) (attrs : List (List Char × List Char)) :
    render (.elem tag attrs []) = '<' :: (tag ++ (render_attrs attrs ++ ['/', '>'])) := by
  simp [render]

theorem render_elem_cons (tag : List Char) (attrs : List (List Char × List Char))
    (c : xtree) (cs : List xtree) :
    render (.elem tag attrs (c :: cs))
      = '<' :: (tag ++ (render_attrs attrs ++
          '>' :: (renders (c :: cs) ++ '<' :: '/' :: (tag ++ ['>'])))) := by
  simp [render]

theorem renders_nil : renders [] = [] := by
  simp [renders]

theorem renders_cons (t : xtree) (ts : List xtree) :
    renders (t :: ts) = render t ++ renders ts := by
  simp [renders]

theorem expected_nodes_eq_map (ts : List xtree) : expected_nodes ts = ts.map expected_node := by
  induction ts with
  | nil => simp [expected_nodes]
  | cons t ts ih => simp [expected_nodes, ih]

theorem height_le_heights (c : xtree) (cs : List xtree) (h : c ∈ cs) :
    c.height ≤ heights cs := by
  induction cs with
  | nil => simp at h
  | cons t ts ih =>
    simp only [heights]
    rcases List.mem_cons.mp h with h | h
    · rw [h]; exact le_max_left _ _
    · exact le_trans (ih h) (le_max_right _ _)

theorem render_attrs_header (rest : List Char) : ∀ attrs : List (List Char × List Char),
    render_attrs attrs ++ rest = header_then (attrs.map canonical_src) rest
  | [] => rfl
  | a :: attrs => by
    have ih := render_attrs_header rest attrs
    simp only [render_attrs, List.map_cons, header_then, attr_src.text_then, canonical_src,
      List.cons_append, List.append_assoc, List.nil_append, List.singleton_append, ← ih]

theorem decode_ref_plain : ∀ v : List Char, (∀ c ∈ v, c ≠ '&') → decode_ref v = v
  | [], _ => rfl
  | c :: v, h => by
    rw [decode_ref_cons_of_ne c v (h c (List.mem_cons_self _ _)),
      decode_ref_plain v (fun x hx => h x (List.mem_cons_of_mem _ hx))]

theorem canonical_src_well_formed (a : List Char × List Char) (h : canonical_attr a = true) :
    (canonical_src a).well_formed ∧ (canonical_src a).value = a.2 := by
  simp only [canonical_attr, Bool.and_eq_true, Bool.not_eq_true', List.all_eq_true,
    bne_iff_ne, ne_eq, List.isEmpty_eq_false] at h
  obtain ⟨⟨hk, hka⟩, hv⟩ := h
  refine ⟨⟨by simp [canonical_src], by simp [canonical_src, is_ws_char], ?_, hka, by simp [canonical_src],
    by simp [canonical_src], Or.inr rfl, fun c hc => ⟨(hv c hc).2, (hv c hc).1.1⟩⟩, ?_⟩
  · simpa [canonical_src] using hk
  · exact decode_ref_plain _ (fun c hc => (hv c hc).1.2)

theorem add_attrs_canonical (e : element) : ∀ attrs : List (List Char × List Char),
    (∀ a ∈ attrs, canonical_attr a = true) →
    add_attrs e (attrs.map canonical_src) = attrs.foldl (fun e a => e.add_attr a.1 a.2) e := by
  intro attrs
  induction attrs generalizing e with
  | nil => intro _; rfl
  | cons a attrs ih =>
    intro h
    have ha := (canonical_src_well_formed a (h a (List.mem_cons_self _ _))).2
    have hi := ih (e.add_attr a.1 a.2) (fun b hb => h b (List.mem_cons_of_mem _ hb))
    simp only [add_attrs, List.map_cons, List.foldl_cons] at hi ⊢
    rw [ha]
    exact hi

theorem parse_node_canonical_text (d : Nat) (root : element) (v rest tk : List Char)
    (node : Option node_base_t) (hv : canonical_text v = true) (hrest : cur rest = '<') :
    taoxml_t._parse_node (d + 1) ⟨root, v ++ rest, tk⟩ node
      = (token.close2, some (node_base_t.text ⟨v⟩), ⟨root, rest, v⟩) := by
  simp only [canonical_text, Bool.and_eq_true, List.all_eq_true, List.any_eq_true,
    bne_iff_ne, ne_eq, Bool.not_eq_true'] at hv
  obtain ⟨hall, c, hc, hcw⟩ := hv
  have hne : v ≠ [] := List.ne_nil_of_mem hc
  have ht : ∀ x ∈ v, is_text_char x = true := by
    intro x hx
    have := hall x hx
    simp [is_text_char, this.1.1.1, this.1.1.2, this.2]
  have hr : is_text_char (cur rest) = false := by rw [hrest]; decide
  have hd : decode_ref v = v := decode_ref_plain v (fun x hx => (hall x hx).1.2)
  have hem : taoxml_t._is_empty ⟨root, rest, v⟩ = false := by
    cases he : taoxml_t._is_empty ⟨root, rest, v⟩ with
    | false => rfl
    | true =>
      have := (is_empty_iff root rest v (fun x hx => (hall x hx).2)).mp he c hc
      rw [this] at hcw
      cases hcw
  rw [parse_node_text d root v rest tk node hne ht hr, hd, hem]
  simp

theorem cur_render_elem (tag : List Char) (attrs : List (List Char × List Char))
    (cs : List xtree) (rest : List Char) : cur (render (.elem tag attrs cs) ++ rest) = '<' := by
  simp [render, cur_cons]

theorem cur_renders_closer (c : xtree) (cs : List xtree) (rest : List Char)
    (hc : c.is_text = true) (h : no_adjacent_text (c :: cs) = true) :
    cur (renders cs ++ '<' :: rest) = '<' := by
  cases cs with
  | nil => simp [renders, cur_cons]
  | cons c2 cs =>
    cases c2 with
    | text v =>
      have h2 : (xtree.text v).is_text = true := rfl
      simp [no_adjacent_text, hc, h2] at h
    | elem tag attrs cs2 =>
      rw [renders_cons, List.append_assoc]
      exact cur_render_elem tag attrs cs2 _

theorem render_ne_nil (t : xtree) (h : t.canonical = true) : 0 < (render t).length := by
  cases t with
  | text v =>
    simp only [xtree.canonical, canonical_text, Bool.and_eq_true, List.any_eq_true] at h
    obtain ⟨-, c, hc, -⟩ := h
    rw [render_text]
    exact List.length_pos.mpr (List.ne_nil_of_mem hc)
  | elem tag attrs cs => simp [render]

theorem no_adjacent_text_tail (c : xtree) (cs : List xtree)
    (h : no_adjacent_text (c :: cs) = true) : no_adjacent_text cs = true := by
  cases cs with
  | nil => rfl
  | cons c2 cs =>
    simp only [no_adjacent_text, Bool.and_eq_true] at h
    exact h.2

theorem parse_children_canonical (d : Nat) (root : element) (m rest : List Char)
    (hme : m ≠ []) (hm : ∀ c ∈ m, is_alnum_char c = true) :
    ∀ (cs : List xtree), canonicals cs = true → no_adjacent_text cs = true →
      (∀ c ∈ cs, ∀ (rest1 tk1 : List Char) (node1 : Option node_base_t),
        (c.is_text = true → cur rest1 = '<') →
        (render c ++ rest1).length ≤ (renders cs ++ '<' :: '/' :: (m ++ '>' :: rest)).length →
        ∃ (tk2 : List Char) (tok : token), (tok = token.close ∨ tok = token.close2) ∧
          taoxml_t._parse_node (d + 1) ⟨root, render c ++ rest1, tk1⟩ node1
            = (tok, some (expected_node c), ⟨root, rest1, tk2⟩)) →
      ∀ (fuel : Nat) (nn : element) (cnode : Option node_base_t) (tk : List Char),
        (renders cs ++ '<' :: '/' :: (m ++ '>' :: rest)).length + 1 ≤ fuel →
        ∃ cnode1 : Option node_base_t,
          parse_children (taoxml_t._parse_node (d + 1)) fuel nn cnode
              ⟨root, renders cs ++ '<' :: '/' :: (m ++ '>' :: rest), tk⟩
            = (token.close3, (expected_nodes cs).foldl node_node_t.add_child nn, cnode1,
                ⟨root, rest, m⟩)
  | [], _, _, _, fuel, nn, cnode, tk, hf => by
    rw [renders_nil, List.nil_append] at hf ⊢
    rw [parse_children_stop_pos _ fuel nn cnode _ (by omega)
      (by rw [parse_node_closer d root m rest tk cnode hme hm]; exact Or.inl rfl),
      parse_node_closer d root m rest tk cnode hme hm]
    exact ⟨cnode, by simp [expected_nodes]⟩
  | c :: cs, hcan, hadj, hP, fuel, nn, cnode, tk, hf => by
    simp only [canonicals, Bool.and_eq_true] at hcan
    have hlen := render_ne_nil c hcan.1
    rw [renders_cons, List.append_assoc] at hf ⊢
    rw [List.length_append] at hf
    obtain ⟨tk2, tok, htok, hc⟩ := hP c (List.mem_cons_self _ _)
      (renders cs ++ '<' :: '/' :: (m ++ '>' :: rest)) tk cnode
      (fun ht => cur_renders_closer c cs _ ht hadj)
      (by rw [renders_cons, List.append_assoc])
    have h3 : tok ≠ token.close3 := by rcases htok with h | h <;> rw [h] <;> decide
    have he : tok ≠ token.error := by rcases htok with h | h <;> rw [h] <;> decide
    rw [parse_children_step_pos _ fuel nn cnode _ (by omega) (by rw [hc]; exact h3)
      (by rw [hc]; exact he), hc]
    simp only
    obtain ⟨cnode1, ih⟩ := parse_children_canonical d root m rest hme hm cs hcan.2
      (no_adjacent_text_tail c cs hadj)
      (fun c1 hc1 rest1 tk1 node1 h1 h2 => hP c1 (List.mem_cons_of_mem _ hc1) rest1 tk1 node1 h1
        (by simp only [renders_cons, List.append_assoc, List.length_append] at h2 ⊢; omega))
      (fuel - 1) (nn.add_child (expected_node c)) (some (expected_node c)) tk2 (by omega)
    exact ⟨cnode1, by rw [ih]; simp [expected_nodes]⟩


theorem canonicals_mem (cs : List xtree) (h : canonicals cs = true) :
    ∀ c ∈ cs, c.canonical = true := by
  induction cs with
  | nil => intro c hc; simp at hc
  | cons t ts ih =>
    simp only [canonicals, Bool.and_eq_true] at h
    intro c hc
    rcases List.mem_cons.mp hc with hc | hc
    · rw [hc]; exact h.1
    · exact ih h.2 c hc

theorem cur_render_attrs_not_alnum (attrs : List (List Char × List Char)) (rest : List Char)
    (hr : is_alnum_char (cur rest) = false) :
    is_alnum_char (cur (render_attrs attrs ++ rest)) = false := by
  cases attrs with
  | nil => exact hr
  | cons a attrs => simp only [render_attrs, List.cons_append, cur_cons]; decide

theorem parse_attrs_canonical_open (fuel : Nat) (nn root : element)
    (attrs : List (List Char × List Char)) (rest tk : List Char)
    (h : ∀ a ∈ attrs, canonical_attr a = true)
    (hf : (render_attrs attrs ++ '>' :: rest).length + 1 ≤ fuel) :
    ∃ tk2 : List Char,
      taoxml_t._parse_attrs fuel nn ⟨root, render_attrs attrs ++ '>' :: rest, tk⟩
        = (some (token.open2, attrs.foldl (fun e a => e.add_attr a.1 a.2) nn),
            ⟨root, rest, tk2⟩) := by
  have hwf : ∀ a ∈ attrs.map canonical_src, a.well_formed := by
    intro a ha
    obtain ⟨b, hb, rfl⟩ := List.mem_map.mp ha
    exact (canonical_src_well_formed b (h b hb)).1
  rw [render_attrs_header] at hf ⊢
  have hlen := header_then_length ('>' :: rest) (attrs.map canonical_src) hwf
  simp only [List.length_cons] at hlen
  obtain ⟨f, rfl⟩ : ∃ f, fuel = (f + 1) + 2 * (attrs.map canonical_src).length :=
    ⟨fuel - 1 - 2 * (attrs.map canonical_src).length, by omega⟩
  rw [parse_attrs_header root _ (attrs.map canonical_src) (f + 1) nn tk hwf,
    parse_attrs_open2, add_attrs_canonical nn attrs h]
  exact ⟨_, rfl⟩

theorem parse_node_canonical : ∀ (n : Nat) (t : xtree), t.height ≤ n → t.canonical = true →
    ∀ (d : Nat) (root : element) (rest tk : List Char) (node : Option node_base_t),
      (t.is_text = true → cur rest = '<') →
      (render t ++ rest).length + 1 ≤ d →
      ∃ (tk2 : List Char) (tok : token), (tok = token.close ∨ tok = token.close2) ∧
        taoxml_t._parse_node d ⟨root, render t ++ rest, tk⟩ node
          = (tok, some (expected_node t), ⟨root, rest, tk2⟩)
  | n, .text v, _, hcan, d, root, rest, tk, node, hrest, hd => by
    obtain ⟨d1, rfl⟩ : ∃ d1, d = d1 + 1 := ⟨d - 1, by omega⟩
    rw [render_text]
    refine ⟨v, token.close2, Or.inr rfl, ?_⟩
    rw [parse_node_canonical_text d1 root v rest tk node (by simpa [xtree.canonical] using hcan)
      (hrest rfl)]
    simp [expected_node]
  | 0, .elem tag attrs cs, hh, _, _, _, _, _, _, _, _ => by
    simp [xtree.height] at hh
  | n + 1, .elem tag attrs [], _, hcan, d, root, rest, tk, node, _, hd => by
    obtain ⟨d1, rfl⟩ : ∃ d1, d = d1 + 1 := ⟨d - 1, by omega⟩
    simp only [xtree.canonical, Bool.and_eq_true, Bool.not_eq_true', List.all_eq_true,
      List.isEmpty_eq_false, decide_eq_true_eq] at hcan
    obtain ⟨⟨⟨⟨⟨htag, htaga⟩, hattrs⟩, -⟩, -⟩, -⟩ := hcan
    have hwf : ∀ a ∈ attrs.map canonical_src, a.well_formed := by
      intro a ha
      obtain ⟨b, hb, rfl⟩ := List.mem_map.mp ha
      exact (canonical_src_well_formed b (hattrs b hb)).1
    have h := parse_node_attrs_self_closed d1 root tag (attrs.map canonical_src) [] rest tk node
      (by simpa using htag) htaga hwf (by simp)
    rw [List.nil_append, ← render_attrs_header, add_attrs_canonical _ attrs hattrs] at h
    rw [render_elem_empty]
    simp only [List.cons_append, List.append_assoc, List.nil_append]
    rw [h]
    have he : expected_node (.elem tag attrs [])
        = node_base_t.node (attrs.foldl (fun e a => e.add_attr a.1 a.2)
            (node_node_t.ctor.set_tag tag)) := by
      simp [expected_node, expected_nodes]
    rw [he]
    exact ⟨_, token.close2, Or.inr rfl, rfl⟩
  | n + 1, .elem tag attrs (c :: cs), hh, hcan, d, root, rest, tk, node, _, hd => by
    simp only [xtree.canonical, Bool.and_eq_true, Bool.not_eq_true', List.all_eq_true,
      List.isEmpty_eq_false, decide_eq_true_eq] at hcan
    obtain ⟨⟨⟨⟨⟨htag, htaga⟩, hattrs⟩, -⟩, hadj⟩, hcs⟩ := hcan
    have htag1 : tag ≠ [] := by simpa using htag
    simp only [xtree.height] at hh
    rw [render_elem_cons] at hd ⊢
    simp only [List.cons_append, List.append_assoc, List.nil_append, List.length_cons,
      List.length_append] at hd
    simp only [List.cons_append, List.append_assoc, List.nil_append]
    obtain ⟨d2, rfl⟩ : ∃ d2, d = d2 + 2 := ⟨d - 2, by omega⟩
    rw [parse_node_succ]
    simp only [token_open root tag _ tk htag1 htaga
      (cur_render_attrs_not_alnum attrs
        ('>' :: (renders (c :: cs) ++ '<' :: '/' :: (tag ++ '>' :: rest)))
        (by rw [cur_cons]; decide))]
    obtain ⟨tk2, ha⟩ := parse_attrs_canonical_open
      ((render_attrs attrs ++ '>' :: (renders (c :: cs) ++ '<' :: '/' :: (tag ++ '>' :: rest))).length
        + 1)
      (node_node_t.ctor.set_tag tag) root attrs
      (renders (c :: cs) ++ '<' :: '/' :: (tag ++ '>' :: rest)) tag hattrs le_rfl
    obtain ⟨cnode1, hc⟩ := parse_children_canonical d2 root tag rest htag1 htaga (c :: cs) hcs hadj
      (fun c1 hc1 rest1 tk1 node1 h1 h2 =>
        parse_node_canonical n c1 (by have := height_le_heights c1 _ hc1; omega)
          (canonicals_mem _ hcs c1 hc1) (d2 + 1) root rest1 tk1 node1 h1
          (by simp only [List.length_append, List.length_cons] at h2 ⊢; omega))
      ((renders (c :: cs) ++ '<' :: '/' :: (tag ++ '>' :: rest)).length + 1)
      (attrs.foldl (fun e a => e.add_attr a.1 a.2) (node_node_t.ctor.set_tag tag)) none tk2 le_rfl
    simp only [ha, hc]
    have he : expected_node (.elem tag attrs (c :: cs))
        = node_base_t.node ((expected_nodes (c :: cs)).foldl node_node_t.add_child
            (attrs.foldl (fun e a => e.add_attr a.1 a.2) (node_node_t.ctor.set_tag tag))) := by
      simp [expected_node]
    rw [he]
    exact ⟨tag, token.close, Or.inl rfl, by simp⟩

theorem attach_root_element (e : element) (s : taoxml_t) :
    attach_root (some (node_base_t.node e)) s
      = { s with _root := s._root.add_child (node_base_t.node e) } := by
  simp [attach_root, node_base_t.type]

theorem expected_node_elem (tag : List Char) (attrs : List (List Char × List Char))
    (cs : List xtree) :
    expected_node (.elem tag attrs cs)
      = node_base_t.node ((expected_nodes cs).foldl node_node_t.add_child
          (attrs.foldl (fun e a => e.add_attr a.1 a.2) (node_node_t.ctor.set_tag tag))) := by
  simp [expected_node]

theorem parse_loop_canonical (d : Nat) : ∀ (forest : List xtree) (f : Nat) (root : element)
    (tk : List Char) (node : Option node_base_t),
    (∀ t ∈ forest, t.is_text = false ∧ t.canonical = true) →
    (renders forest).length + 1 ≤ d → (renders forest).length + 1 ≤ f →
    (parse_loop d f ⟨root, renders forest, tk⟩ node).2.2._root
      = (expected_nodes forest).foldl node_node_t.add_child root
  | [], f, root, tk, node, _, hd, hf => by
    obtain ⟨d1, rfl⟩ : ∃ d1, d = d1 + 1 := ⟨d - 1, by omega⟩
    obtain ⟨f1, rfl⟩ : ∃ f1, f = f1 + 1 := ⟨f - 1, by omega⟩
    rw [renders_nil, parse_loop_step, parse_node_eof]
    simp [expected_nodes]
  | t :: ts, f, root, tk, node, h, hd, hf => by
    obtain ⟨f1, rfl⟩ : ∃ f1, f = f1 + 1 := ⟨f - 1, by omega⟩
    obtain ⟨ht, hcan⟩ := h t (List.mem_cons_self _ _)
    have hlen := render_ne_nil t hcan
    rw [renders_cons] at hd hf ⊢
    obtain ⟨tk2, tok, htok, hp⟩ := parse_node_canonical t.height t le_rfl hcan d root
      (renders ts) tk node (fun h1 => by rw [ht] at h1; cases h1) hd
    rw [List.length_append] at hd hf
    rw [parse_loop_step, hp]
    simp only [htok, if_true]
    cases t with
    | text v => cases ht
    | elem tag attrs cs =>
      rw [expected_node_elem, attach_root_element]
      simp only
      rw [parse_loop_canonical d ts f1 _ tk2 _
        (fun t1 h1 => h t1 (List.mem_cons_of_mem _ h1)) (by omega) (by omega)]
      simp [expected_nodes, expected_node]

theorem foldl_add_child_fields (l : List node_base_t) : ∀ e : element,
    (l.foldl node_node_t.add_child e)._children = e._children ++ l
    ∧ (l.foldl node_node_t.add_child e)._tag = e._tag
    ∧ (l.foldl node_node_t.add_child e)._attrs = e._attrs := by
  induction l with
  | nil => intro e; simp
  | cons c l ih =>
    intro e
    obtain ⟨h1, h2, h3⟩ := ih (e.add_child c)
    simp only [List.foldl_cons]
    exact ⟨by rw [h1]; simp [node_node_t.add_child], by rw [h2]; rfl, by rw [h3]; rfl⟩

theorem parse_canonical (forest : List xtree)
    (h : ∀ t ∈ forest, t.is_text = false ∧ t.canonical = true) :
    (taoxml_t.ctor.parse (renders forest)).2._root._children = forest.map expected_node := by
  have hr : (taoxml_t.ctor.parse (renders forest)).2._root
      = (parse_loop ((renders forest).length + 1) ((renders forest).length + 1)
          ⟨node_node_t.ctor, renders forest, []⟩ none).2.2._root := rfl
  rw [hr, parse_loop_canonical _ forest _ _ _ _ h le_rfl le_rfl,
    (foldl_add_child_fields _ _).1, expected_nodes_eq_map]
  simp [node_node_t.ctor]

theorem expected_attrs (tag : List Char) (attrs : List (List Char × List Char))
    (hattrs : ∀ a ∈ attrs, canonical_attr a = true) (hnd : (attrs.map Prod.fst).Nodup) :
    (attrs.foldl (fun e a => e.add_attr a.1 a.2) (node_node_t.ctor.set_tag tag))._tag = tag
    ∧ (∀ k : List Char,
        k ∈ (attrs.foldl (fun e a => e.add_attr a.1 a.2) (node_node_t.ctor.set_tag tag))._attrs.map
            Prod.fst ↔ k ∈ attrs.map Prod.fst)
    ∧ (∀ a ∈ attrs,
        (attrs.foldl (fun e a => e.add_attr a.1 a.2) (node_node_t.ctor.set_tag tag))._attrs.lookup
            a.1 = some a.2) := by
  rw [← add_attrs_canonical _ attrs hattrs, add_attrs_eq]
  refine ⟨rfl, ?_, ?_⟩
  · intro k
    simp only
    rw [fold_assign_keys]
    simp [canonical_src, node_node_t.ctor, node_node_t.set_tag, Function.comp_def]
  · intro a ha
    simp only
    rw [fold_assign_lookup]
    have hmem : canonical_src a ∈ (attrs.map canonical_src).reverse :=
      List.mem_reverse.mpr (List.mem_map_of_mem _ ha)
    cases hf : (attrs.map canonical_src).reverse.find? (fun x => x.key == a.1) with
    | none =>
      have := List.find?_eq_none.mp hf _ hmem
      simp [canonical_src] at this
    | some b =>
      have hb := List.mem_of_find?_eq_some hf
      have hk := List.find?_some hf
      obtain ⟨a1, ha1, rfl⟩ := List.mem_map.mp (List.mem_reverse.mp hb)
      have hk1 : a1.1 = a.1 := by simpa [canonical_src] using hk
      have := List.inj_on_of_nodup_map hnd ha1 ha hk1
      subst this
      simp only
      rw [(canonical_src_well_formed a1 (hattrs a1 ha)).2]

/-- C18: parsing inverts the canonical serialisation.  For every list of
canonical elements (non-empty alphanumeric tags; attributes with distinct
non-empty alphanumeric keys and values free of the double quote, `&` and NUL;
texts only below an element, never two adjacent, free of `<`, `>`, `&` and NUL,
with a character that is not whitespace), parsing the serialisations one after
the other gives a root whose children are the nodes of these elements in order.
The node of a text holds its value; the node of an element holds its tag, the
nodes of its children in order, and an attribute mapping whose keys are the
written keys and that maps each written key to its value. -/
theorem C18_parsing_inverts_canonical_rendering :
    (∀ forest : List xtree, (∀ t ∈ forest, t.is_text = false ∧ t.canonical = true) →
      (taoxml_t.ctor.parse (renders forest)).2._root._children = forest.map expected_node) ∧
    (∀ v : List Char, expected_node (.text v) = node_base_t.text ⟨v⟩) ∧
    (∀ (tag : List Char) (attrs : List (List Char × List Char)) (cs : List xtree),
      (xtree.elem tag attrs cs).canonical = true →
      ∃ e : element, expected_node (.elem tag attrs cs) = node_base_t.node e
        ∧ e.tag = tag ∧ e._children = cs.map expected_node
        ∧ (∀ k : List Char, k ∈ e._attrs.map Prod.fst ↔ k ∈ attrs.map Prod.fst)
        ∧ (∀ a ∈ attrs, e._attrs.lookup a.1 = some a.2)) := by
  refine ⟨parse_canonical, fun v => by simp [expected_node], ?_⟩
  intro tag attrs cs hcan
  simp only [xtree.canonical, Bool.and_eq_true, Bool.not_eq_true', List.all_eq_true,
    List.isEmpty_eq_false, decide_eq_true_eq] at hcan
  obtain ⟨⟨⟨⟨-, hattrs⟩, hnd⟩, -⟩, -⟩ := hcan
  obtain ⟨h1, h2, h3⟩ := expected_attrs tag attrs hattrs hnd
  obtain ⟨c1, c2, c3⟩ := foldl_add_child_fields (expected_nodes cs)
    (attrs.foldl (fun e a => e.add_attr a.1 a.2) (node_node_t.ctor.set_tag tag))
  refine ⟨_, expected_node_elem tag attrs cs, ?_, ?_, ?_, ?_⟩
  · rw [node_node_t.tag, c2, h1]
  · rw [c1, expected_nodes_eq_map]
    have : (attrs.foldl (fun e a => e.add_attr a.1 a.2) (node_node_t.ctor.set_tag tag))._children
        = [] := by
      rw [← add_attrs_canonical _ attrs hattrs, add_attrs_eq]
      rfl
    rw [this, List.nil_append]
  · intro k; rw [c3]; exact h2 k
  · intro a ha; rw [c3]; exact h3 a ha

set_option maxRecDepth 100000 in
/-- C18 on `<a k="v <">x <b/>y</a><c/>`: the root children are the nodes of the
two elements. -/
theorem C18_parsing_inverts_canonical_rendering_witness :
    (taoxml_t.ctor.parse (renders
        [xtree.elem ['a'] [(['k'], ['v', ' ', '<'])]
          [xtree.text ['x', ' '], xtree.elem ['b'] [] [], xtree.text ['y']],
         xtree.elem ['c'] [] []])).2._root._children
      = [xtree.elem ['a'] [(['k'], ['v', ' ', '<'])]
          [xtree.text ['x', ' '], xtree.elem ['b'] [] [], xtree.text ['y']],
         xtree.elem ['c'] [] []].map expected_node :=
  C18_parsing_inverts_canonical_rendering.1 _ (by decide)

/-! ## More input behind the input: what was read stays as it was -/

theorem ne_nil_of_cur_ne (p : List Char) (h : cur p ≠ NUL) : p ≠ [] := by
  intro hp
  rw [hp] at h
  exact h rfl

theorem cur_append_ne (p s : List Char) (h : cur p ≠ NUL) : cur (p ++ s) = cur p :=
  cur_append_of_ne_nil p s (ne_nil_of_cur_ne p h)

theorem tail_append_ne (p s : List Char) (h : cur p ≠ NUL) : (p ++ s).tail = p.tail ++ s := by
  cases p with
  | nil => exact absurd rfl h
  | cons c q => rfl

theorem dropWhile_append_ne (f : Char → Bool) (s : List Char) :
    ∀ p : List Char, p.dropWhile f ≠ [] →
      (p ++ s).dropWhile f = p.dropWhile f ++ s ∧ (p ++ s).takeWhile f = p.takeWhile f
  | [], h => absurd rfl h
  | c :: p, h => by
    cases hc : f c with
    | true =>
      simp only [List.dropWhile, hc] at h
      have ih := dropWhile_append_ne f s p h
      simp [List.dropWhile, List.takeWhile, hc, ih.1, ih.2]
    | false => simp [List.dropWhile, List.takeWhile, hc]

theorem token_initial_local (root : element) (p s tk : List Char)
    (he : (taoxml_t._token ⟨root, p, tk⟩ start_condition.initial).1 ≠ token.error)
    (hs : (taoxml_t._token ⟨root, p, tk⟩ start_condition.initial).2._p ≠ []
      ∨ (taoxml_t._token ⟨root, p, tk⟩ start_condition.initial).1 = token.close) :
    taoxml_t._token ⟨root, p ++ s, tk⟩ start_condition.initial
      = ((taoxml_t._token ⟨root, p, tk⟩ start_condition.initial).1,
          ⟨root, (taoxml_t._token ⟨root, p, tk⟩ start_condition.initial).2._p ++ s,
            (taoxml_t._token ⟨root, p, tk⟩ start_condition.initial).2._tk⟩) := by
  have hlt : ('<' : Char) ≠ NUL := by decide
  have hsl : ('/' : Char) ≠ NUL := by decide
  have hgt : ('>' : Char) ≠ NUL := by decide
  rw [token_initial_form root p tk] at he hs ⊢
  rw [token_initial_form root (p ++ s) tk]
  by_cases h1 : cur p = '<'
  · have hp : cur p ≠ NUL := by rw [h1]; exact hlt
    rw [cur_append_ne p s hp, tail_append_ne p s hp]
    simp only [h1, if_true] at he hs ⊢
    by_cases h2 : cur p.tail = NUL
    · simp only [h2, if_true] at he
      exact absurd rfl he
    · rw [cur_append_ne p.tail s h2, tail_append_ne p.tail s h2]
      simp only [h2, if_false] at he hs ⊢
      by_cases h3 : is_alnum_char (cur p.tail) = true
      · simp only [h3, if_true] at he hs ⊢
        have hd : p.tail.dropWhile is_alnum_char ≠ [] := by
          rcases hs with hs | hs
          · exact hs
          · exact absurd hs (by decide)
        rw [(dropWhile_append_ne is_alnum_char s p.tail hd).1,
          (dropWhile_append_ne is_alnum_char s p.tail hd).2]
      · simp only [h3, if_false, Bool.false_eq_true] at he hs ⊢
        by_cases h4 : cur p.tail = '/'
        · simp only [h4, if_true] at he hs ⊢
          by_cases h5 : cur p.tail.tail = NUL
          · simp only [h5, if_true] at he
            exact absurd rfl he
          · rw [cur_append_ne p.tail.tail s h5]
            simp only [h5, if_false] at he hs ⊢
            by_cases h6 : p.tail.tail.takeWhile is_alnum_char = []
            · simp only [h6, if_true] at he
              exact absurd rfl he
            · simp only [h6, if_false] at he hs ⊢
              by_cases h7 : cur (p.tail.tail.dropWhile is_alnum_char) = NUL
              · simp only [h7, if_true] at he
                exact absurd rfl he
              · have hd := ne_nil_of_cur_ne _ h7
                rw [(dropWhile_append_ne is_alnum_char s p.tail.tail hd).1,
                  (dropWhile_append_ne is_alnum_char s p.tail.tail hd).2,
                  cur_append_ne _ s h7, tail_append_ne _ s h7]
                simp only [h6, h7, if_false] at he hs ⊢
                by_cases h8 : cur (p.tail.tail.dropWhile is_alnum_char) = '>'
                · simp only [h8, if_true]
                · simp only [h8, if_false] at he
                  exact absurd rfl he
        · simp only [h4, if_false] at he
          exact absurd rfl he
  · by_cases h2 : is_text_char (cur p) = true
    · have hp : cur p ≠ NUL := text_char_ne_NUL _ h2
      rw [cur_append_ne p s hp]
      simp only [h1, h2, if_true, if_false] at he hs ⊢
      have hd : p.dropWhile is_text_char ≠ [] := by
        rcases hs with hs | hs
        · exact hs
        · exact absurd hs (by decide)
      rw [(dropWhile_append_ne is_text_char s p hd).1,
        (dropWhile_append_ne is_text_char s p hd).2]
    · simp only [h1, h2, if_false, Bool.false_eq_true] at he
      exact absurd rfl he


theorem token_in_tag_local (root : element) (p s tk : List Char)
    (he : (taoxml_t._token ⟨root, p, tk⟩ start_condition.in_tag).1 ≠ token.error)
    (hs : (taoxml_t._token ⟨root, p, tk⟩ start_condition.in_tag).2._p ≠ []
      ∨ ((taoxml_t._token ⟨root, p, tk⟩ start_condition.in_tag).1 ≠ token.space
        ∧ (taoxml_t._token ⟨root, p, tk⟩ start_condition.in_tag).1 ≠ token.attr)) :
    taoxml_t._token ⟨root, p ++ s, tk⟩ start_condition.in_tag
      = ((taoxml_t._token ⟨root, p, tk⟩ start_condition.in_tag).1,
          ⟨root, (taoxml_t._token ⟨root, p, tk⟩ start_condition.in_tag).2._p ++ s,
            (taoxml_t._token ⟨root, p, tk⟩ start_condition.in_tag).2._tk⟩) := by
  have hsl : ('/' : Char) ≠ NUL := by decide
  have hgt : ('>' : Char) ≠ NUL := by decide
  have heq : ('=' : Char) ≠ NUL := by decide
  rw [token_in_tag_form root p tk] at he hs ⊢
  rw [token_in_tag_form root (p ++ s) tk]
  by_cases h1 : is_ws_char (cur p) = true
  · have hp : cur p ≠ NUL := ws_char_ne_NUL _ h1
    rw [cur_append_ne p s hp]
    simp only [h1, if_true] at he hs ⊢
    have hd : p.dropWhile is_ws_char ≠ [] := by
      rcases hs with hs | hs
      · exact hs
      · exact absurd rfl hs.1
    rw [(dropWhile_append_ne is_ws_char s p hd).1, (dropWhile_append_ne is_ws_char s p hd).2]
  · by_cases h2 : is_alnum_char (cur p) = true
    · have hp : cur p ≠ NUL := alnum_char_ne_NUL _ h2
      rw [cur_append_ne p s hp]
      simp only [h1, h2, if_true, if_false, Bool.false_eq_true] at he hs ⊢
      have hd : p.dropWhile is_alnum_char ≠ [] := by
        rcases hs with hs | hs
        · exact hs
        · exact absurd rfl hs.2
      rw [(dropWhile_append_ne is_alnum_char s p hd).1,
        (dropWhile_append_ne is_alnum_char s p hd).2]
    · by_cases h3 : cur p = '='
      · have hp : cur p ≠ NUL := by rw [h3]; exact heq
        rw [cur_append_ne p s hp, tail_append_ne p s hp]
        have h1b : is_ws_char '=' = false := by decide
        have h2b : is_alnum_char '=' = false := by decide
        simp only [h3, h1b, h2b, if_true, if_false, Bool.false_eq_true]
      · by_cases h4 : cur p = SQUOTE ∨ cur p = DQUOTE
        · have hp : cur p ≠ NUL := by
            rcases h4 with h | h <;> rw [h] <;> decide
          rw [cur_append_ne p s hp, tail_append_ne p s hp]
          simp only [h1, h2, h3, h4, if_true, if_false, Bool.false_eq_true] at he hs ⊢
          by_cases h5 : cur (p.tail.dropWhile (value_func (cur p))) = cur p
          · have hd := ne_nil_of_cur_ne _ (by rw [h5]; exact hp)
            rw [(dropWhile_append_ne (value_func (cur p)) s p.tail hd).1,
              (dropWhile_append_ne (value_func (cur p)) s p.tail hd).2,
              cur_append_ne _ s (by rw [h5]; exact hp),
              tail_append_ne _ s (by rw [h5]; exact hp)]
            simp only [h5, if_true]
          · simp only [h5, if_false] at he
            exact absurd rfl he
        · by_cases h6 : cur p = '/'
          · have hp : cur p ≠ NUL := by rw [h6]; exact hsl
            rw [cur_append_ne p s hp, tail_append_ne p s hp]
            have h4b : ¬ (('/' : Char) = SQUOTE ∨ ('/' : Char) = DQUOTE) := by decide
            have h1b : is_ws_char '/' = false := by decide
            have h2b : is_alnum_char '/' = false := by decide
            have h3b : ¬ ('/' : Char) = '=' := by decide
            simp only [h6, h1b, h2b, h3b, h4b, if_true, if_false, Bool.false_eq_true]
              at he hs ⊢
            by_cases h7 : cur p.tail = '>'
            · have hq : cur p.tail ≠ NUL := by rw [h7]; exact hgt
              rw [cur_append_ne p.tail s hq, tail_append_ne p.tail s hq]
              simp only [h7, if_true]
            · simp only [h7, if_false] at he
              exact absurd rfl he
          · by_cases h8 : cur p = '>'
            · have hp : cur p ≠ NUL := by rw [h8]; exact hgt
              rw [cur_append_ne p s hp, tail_append_ne p s hp]
              have h4b : ¬ (('>' : Char) = SQUOTE ∨ ('>' : Char) = DQUOTE) := by decide
              have h1b : is_ws_char '>' = false := by decide
              have h2b : is_alnum_char '>' = false := by decide
              have h3b : ¬ ('>' : Char) = '=' := by decide
              have h6b : ¬ ('>' : Char) = '/' := by decide
              simp only [h8, h1b, h2b, h3b, h4b, h6b, if_true, if_false, Bool.false_eq_true]
            · simp only [h1, h2, h3, h4, h6, h8, if_false, Bool.false_eq_true] at he
              exact absurd rfl he

theorem token_nil (root : element) (tk : List Char) (cond : start_condition) :
    (taoxml_t._token ⟨root, [], tk⟩ cond).1 = token.error := by
  have h1 : ¬ NUL = '<' := by decide
  have h2 : is_text_char NUL = false := by decide
  have h3 : is_ws_char NUL = false := by decide
  have h4 : is_alnum_char NUL = false := by decide
  have h5 : ¬ NUL = '=' := by decide
  have h6 : ¬ (NUL = SQUOTE ∨ NUL = DQUOTE) := by decide
  have h7 : ¬ NUL = '/' := by decide
  have h8 : ¬ NUL = '>' := by decide
  cases cond with
  | initial =>
    rw [token_initial_form]
    simp only [cur_nil, h1, h2, if_false, Bool.false_eq_true]
  | in_tag =>
    rw [token_in_tag_form]
    simp only [cur_nil, h3, h4, h5, h6, h7, h8, if_false, Bool.false_eq_true]

theorem token_local (s : taoxml_t) (x : List Char) (cond : start_condition)
    (he : (s._token cond).1 ≠ token.error)
    (hs : (s._token cond).2._p ≠ []
      ∨ ((s._token cond).1 ≠ token.open_ ∧ (s._token cond).1 ≠ token.text
        ∧ (s._token cond).1 ≠ token.space ∧ (s._token cond).1 ≠ token.attr)) :
    (s.extend x)._token cond = ((s._token cond).1, (s._token cond).2.extend x) := by
  have hroot := (token_spec_state s cond).1
  obtain ⟨root, p, tk⟩ := s
  have hgoal : ∀ r : token × taoxml_t, r.2._root = root →
      (r.1, (⟨root, r.2._p ++ x, r.2._tk⟩ : taoxml_t)) = (r.1, r.2.extend x) := by
    intro r hr
    simp only [taoxml_t.extend, ← hr]
  cases cond with
  | initial =>
    have h := token_initial_local root p x tk he (by
      rcases hs with hs | hs
      · exact Or.inl hs
      · right
        have hf := token_initial_form root p tk
        revert hs he
        rw [hf]
        split_ifs <;> simp)
    exact h.trans (hgoal _ hroot)
  | in_tag =>
    have h := token_in_tag_local root p x tk he (by
      rcases hs with hs | hs
      · exact Or.inl hs
      · exact Or.inr ⟨hs.2.2.1, hs.2.2.2⟩)
    exact h.trans (hgoal _ hroot)

theorem token_nil_state (s : taoxml_t) (cond : start_condition) (h : s._p = []) :
    (s._token cond).1 = token.error := by
  obtain ⟨root, p, tk⟩ := s
  have h : p = [] := h
  subst h
  exact token_nil root tk cond

theorem token_past_space_nil (s : taoxml_t) (h : s._p = []) :
    s._token_past_space.1 = token.error := by
  obtain ⟨root, p, tk⟩ := s
  have h : p = [] := h
  subst h
  rw [token_past_space_unfold]
  have h1 := token_nil root tk start_condition.in_tag
  simp only [h1, reduceCtorEq, if_false]

theorem token_past_space_local (s : taoxml_t) (x : List Char)
    (he : s._token_past_space.1 ≠ token.error)
    (hs : s._token_past_space.2._p ≠ []
      ∨ (s._token_past_space.1 ≠ token.open_ ∧ s._token_past_space.1 ≠ token.text
        ∧ s._token_past_space.1 ≠ token.space ∧ s._token_past_space.1 ≠ token.attr)) :
    (s.extend x)._token_past_space = (s._token_past_space.1, s._token_past_space.2.extend x) := by
  have h1 := token_local s x start_condition.in_tag
  rw [token_past_space_unfold] at he hs ⊢
  rw [token_past_space_unfold]
  generalize s._token start_condition.in_tag = r at h1 he hs ⊢
  by_cases hsp : r.1 = token.space
  · simp only [hsp, if_true] at he hs
    have hne : r.2._p ≠ [] := fun hnil => he (token_nil_state r.2 _ hnil)
    rw [h1 (by rw [hsp]; decide) (Or.inl hne)]
    simp only [hsp, if_true]
    exact token_local r.2 x start_condition.in_tag he hs
  · simp only [hsp, if_false] at he hs
    rw [h1 he hs]
    simp only [hsp, if_false]

theorem parse_attrs_nil : ∀ (fuel : Nat) (nn : element) (s : taoxml_t), s._p = [] →
    ∀ (tk : token) (e : element), (taoxml_t._parse_attrs fuel nn s).1 = some (tk, e) →
      tk = token.error
  | 0, nn, s, _, tk, e, h => by
    rw [parse_attrs_zero] at h
    exact absurd h (by simp)
  | fuel + 1, nn, s, hp, tk, e, h => by
    obtain ⟨root, p, tk0⟩ := s
    have hp : p = [] := hp
    subst hp
    have h1 := token_nil root tk0 start_condition.in_tag
    rw [parse_attrs_succ] at h
    simp only at h
    generalize taoxml_t._token ⟨root, [], tk0⟩ start_condition.in_tag = r at h1 h
    have c1 : (r.1 == token.space) = false := by rw [h1]; rfl
    have c2 : (r.1 == token.attr) = false := by rw [h1]; rfl
    simp only [c1, c2, if_false, Bool.false_eq_true, Option.some.injEq, Prod.mk.injEq] at h
    rw [← h.1, h1]

theorem parse_attrs_local : ∀ (fuel : Nat) (nn : element) (s : taoxml_t) (x : List Char)
    (tk : token) (e : element),
    (taoxml_t._parse_attrs fuel nn s).1 = some (tk, e) →
    (tk = token.close2 ∨ tk = token.open2) →
    taoxml_t._parse_attrs fuel nn (s.extend x)
      = (some (tk, e), (taoxml_t._parse_attrs fuel nn s).2.extend x)
  | 0, nn, s, x, tk, e, h, _ => by
    rw [parse_attrs_zero] at h
    exact absurd h (by simp)
  | fuel + 1, nn, s, x, tk, e, h, htk => by
    have hne : tk ≠ token.error := by rcases htk with h1 | h1 <;> rw [h1] <;> decide
    have h1 := token_local s x start_condition.in_tag
    rw [parse_attrs_succ] at h ⊢
    rw [parse_attrs_succ]
    simp only at h ⊢
    generalize s._token start_condition.in_tag = r at h1 h ⊢
    by_cases c1 : r.1 = token.space
    · have c1b : (r.1 == token.space) = true := by simpa using c1
      simp only [c1b, if_true] at h ⊢
      have hp : r.2._p ≠ [] := fun hp => hne (parse_attrs_nil fuel nn r.2 hp tk e h)
      rw [h1 (by rw [c1]; decide) (Or.inl hp)]
      simp only [c1b, if_true]
      exact parse_attrs_local fuel nn r.2 x tk e h htk
    · have c1b : (r.1 == token.space) = false := by simpa using c1
      by_cases c2 : r.1 = token.attr
      · have c2b : (r.1 == token.attr) = true := by simpa using c2
        simp only [c1b, c2b, if_true, if_false, Bool.false_eq_true] at h ⊢
        have ha := token_past_space_local r.2 x
        have hanil := token_past_space_nil r.2
        generalize r.2._token_past_space = a at h ha hanil ⊢
        by_cases c3 : a.1 = token.assign
        · have c3b : (a.1 != token.assign) = false := by simpa using c3
          simp only [c3b, if_false, Bool.false_eq_true] at h ⊢
          have hv := token_past_space_local a.2 x
          have hvnil := token_past_space_nil a.2
          generalize a.2._token_past_space = v at h hv hvnil ⊢
          by_cases c4 : v.1 = token.value
          · have c4b : (v.1 != token.value) = false := by simpa using c4
            simp only [c4b, if_false, Bool.false_eq_true] at h ⊢
            have hp : r.2._p ≠ [] := by
              intro hp
              have := hanil hp
              rw [c3] at this
              cases this
            have hq : a.2._p ≠ [] := by
              intro hq
              have := hvnil hq
              rw [c4] at this
              cases this
            rw [h1 (by rw [c2]; decide) (Or.inl hp)]
            simp only [c1b, c2b, if_true, if_false, Bool.false_eq_true]
            rw [ha (by rw [c3]; decide) (Or.inl hq)]
            simp only [c3b, if_false, Bool.false_eq_true]
            rw [hv (by rw [c4]; decide)
              (Or.inr (by rw [c4]; exact ⟨by decide, by decide, by decide, by decide⟩))]
            simp only [c4b, if_false, Bool.false_eq_true]
            exact parse_attrs_local fuel _ v.2 x tk e h htk
          · have c4b : (v.1 != token.value) = true := by simpa using c4
            simp only [c4b, if_true] at h
            exact absurd h (by simp)
        · have c3b : (a.1 != token.assign) = true := by simpa using c3
          simp only [c3b, if_true] at h
          exact absurd h (by simp)
      · have c2b : (r.1 == token.attr) = false := by simpa using c2
        simp only [c1b, c2b, if_false, Bool.false_eq_true, Option.some.injEq,
          Prod.mk.injEq] at h ⊢
        have hr : r.1 ≠ token.error := by rw [h.1]; exact hne
        rw [h1 hr (Or.inr ⟨by rw [h.1]; rcases htk with h2 | h2 <;> rw [h2] <;> decide,
          by rw [h.1]; rcases htk with h2 | h2 <;> rw [h2] <;> decide, c1, c2⟩)]
        simp only [c1b, c2b, if_false, Bool.false_eq_true]
        rw [h.1, h.2]

theorem parse_node_nil : ∀ (d : Nat) (s : taoxml_t) (node : Option node_base_t), s._p = [] →
    (taoxml_t._parse_node d s node).1 = token.error
  | 0, s, node, _ => by rw [parse_node_zero]
  | d + 1, s, node, h => by
    have h1 := token_nil_state s start_condition.initial h
    rw [parse_node_succ]
    simp only
    generalize s._token start_condition.initial = r at h1 ⊢
    have c1 : (r.1 == token.close) = false := by rw [h1]; rfl
    have c2 : (r.1 == token.open_) = false := by rw [h1]; rfl
    have c3 : (r.1 == token.text) = false := by rw [h1]; rfl
    simp only [c1, c2, c3, if_false, Bool.false_eq_true]

theorem parse_children_nil
    (pn : taoxml_t → Option node_base_t → token × Option node_base_t × taoxml_t)
    (hnil : ∀ (s : taoxml_t) (c : Option node_base_t), s._p = [] → (pn s c).1 = token.error)
    (fuel : Nat) (nn : element) (cnode : Option node_base_t) (s : taoxml_t) (h : s._p = []) :
    (parse_children pn fuel nn cnode s).1 = token.error := by
  cases fuel with
  | zero => rw [parse_children_zero]
  | succ fuel =>
    rw [parse_children_stop pn fuel nn cnode s (Or.inr (hnil s cnode h))]
    exact hnil s cnode h

theorem parse_children_local
    (pn : taoxml_t → Option node_base_t → token × Option node_base_t × taoxml_t)
    (x : List Char)
    (hloc : ∀ (s : taoxml_t) (c : Option node_base_t), (pn s c).1 ≠ token.error →
      ((pn s c).2.2._p ≠ [] ∨ (pn s c).1 ≠ token.close2
        ∨ ∃ e : element, (pn s c).2.1 = some (node_base_t.node e)) →
      pn (s.extend x) c = ((pn s c).1, (pn s c).2.1, (pn s c).2.2.extend x))
    (hnil : ∀ (s : taoxml_t) (c : Option node_base_t), s._p = [] → (pn s c).1 = token.error) :
    ∀ (fuel : Nat) (nn : element) (cnode : Option node_base_t) (s : taoxml_t),
      (parse_children pn fuel nn cnode s).1 = token.close3 →
      parse_children pn fuel nn cnode (s.extend x)
        = (token.close3, (parse_children pn fuel nn cnode s).2.1,
            (parse_children pn fuel nn cnode s).2.2.1,
            (parse_children pn fuel nn cnode s).2.2.2.extend x)
  | 0, nn, cnode, s, h => by
    rw [parse_children_zero] at h
    cases h
  | fuel + 1, nn, cnode, s, h => by
    have h1 := hloc s cnode
    rw [parse_children_succ] at h ⊢
    rw [parse_children_succ]
    simp only at h ⊢
    generalize pn s cnode = r at h1 h ⊢
    by_cases c1 : (r.1 != token.close3 && r.1 != token.error) = true
    · simp only [c1, if_true] at h ⊢
      have hc : r.1 ≠ token.close3 ∧ r.1 ≠ token.error := by simpa using c1
      have hp : r.2.2._p ≠ [] := by
        intro hp
        have := h.symm.trans (parse_children_nil pn hnil fuel _ r.2.1 r.2.2 hp)
        cases this
      rw [h1 hc.2 (Or.inl hp)]
      simp only [c1, if_true]
      exact parse_children_local pn x hloc hnil fuel _ r.2.1 r.2.2 h
    · have c1b : (r.1 != token.close3 && r.1 != token.error) = false := by simpa using c1
      simp only [c1b, if_false, Bool.false_eq_true] at h ⊢
      rw [h1 (by rw [h]; decide) (Or.inr (Or.inl (by rw [h]; decide)))]
      simp only [c1b, if_false, Bool.false_eq_true]
      rw [h]

theorem extend_length (s : taoxml_t) (x : List Char) :
    s._p.length + 1 ≤ (s.extend x)._p.length + 1 := by
  simp [taoxml_t.extend]

theorem parse_node_local (x : List Char) : ∀ (d : Nat) (s : taoxml_t)
    (node : Option node_base_t),
    (taoxml_t._parse_node d s node).1 ≠ token.error →
    ((taoxml_t._parse_node d s node).2.2._p ≠ []
      ∨ (taoxml_t._parse_node d s node).1 ≠ token.close2
      ∨ ∃ e : element, (taoxml_t._parse_node d s node).2.1 = some (node_base_t.node e)) →
    taoxml_t._parse_node d (s.extend x) node
      = ((taoxml_t._parse_node d s node).1, (taoxml_t._parse_node d s node).2.1,
          (taoxml_t._parse_node d s node).2.2.extend x)
  | 0, s, node, he, _ => by
    rw [parse_node_zero] at he
    exact absurd rfl he
  | d + 1, s, node, he, hs => by
    have h1 := token_local s x start_condition.initial
    rw [parse_node_succ] at he hs ⊢
    rw [parse_node_succ]
    simp only at he hs ⊢
    generalize s._token start_condition.initial = r at h1 he hs ⊢
    by_cases c1 : r.1 = token.close
    · have c1b : (r.1 == token.close) = true := by simpa using c1
      rw [h1 (by rw [c1]; decide)
        (Or.inr (by rw [c1]; exact ⟨by decide, by decide, by decide, by decide⟩))]
      simp only [c1b, if_true]
    · have c1b : (r.1 == token.close) = false := by simpa using c1
      by_cases c2 : r.1 = token.open_
      · have c2b : (r.1 == token.open_) = true := by simpa using c2
        simp only [c1b, c2b, if_true, if_false, Bool.false_eq_true] at he hs ⊢
        have hfa := parse_attrs_fuel (r.2._p.length + 1) ((r.2.extend x)._p.length + 1)
          (node_node_t.ctor.set_tag r.2._tk) r.2 le_rfl (extend_length r.2 x)
        rw [hfa] at he hs ⊢
        have ha := parse_attrs_local ((r.2.extend x)._p.length + 1)
          (node_node_t.ctor.set_tag r.2._tk) r.2 x
        have hanil := parse_attrs_nil ((r.2.extend x)._p.length + 1)
          (node_node_t.ctor.set_tag r.2._tk) r.2
        generalize taoxml_t._parse_attrs ((r.2.extend x)._p.length + 1)
          (node_node_t.ctor.set_tag r.2._tk) r.2 = a at he hs ha hanil ⊢
        obtain ⟨a1, a2⟩ := a
        cases a1 with
        | none => exact absurd rfl he
        | some tn =>
          obtain ⟨t, nn⟩ := tn
          simp only at he hs ha hanil ⊢
          by_cases c3 : t = token.close2
          · have c3b : (t == token.close2) = true := by simpa using c3
            have hp : r.2._p ≠ [] := by
              intro hp
              have := hanil hp t nn rfl
              rw [c3] at this
              cases this
            rw [h1 (by rw [c2]; decide) (Or.inl hp)]
            simp only [c1b, c2b, if_true, if_false, Bool.false_eq_true]
            have hx : (r.2.extend x)._tk = r.2._tk := rfl
            rw [hx, ha t nn rfl (Or.inl c3)]
            simp only [c3b, if_true]
          · have c3b : (t == token.close2) = false := by simpa using c3
            by_cases c4 : t = token.open2
            · have c4b : (t == token.open2) = true := by simpa using c4
              simp only [c3b, c4b, if_true, if_false, Bool.false_eq_true] at he hs ⊢
              have hp : r.2._p ≠ [] := by
                intro hp
                have := hanil hp t nn rfl
                rw [c4] at this
                cases this
              rw [h1 (by rw [c2]; decide) (Or.inl hp)]
              simp only [c1b, c2b, if_true, if_false, Bool.false_eq_true]
              have hx : (r.2.extend x)._tk = r.2._tk := rfl
              rw [hx, ha t nn rfl (Or.inr c4)]
              simp only [c3b, c4b, if_true, if_false, Bool.false_eq_true]
              have hfc := parse_children_fuel (taoxml_t._parse_node d) (taoxml_t._parse_node d)
                (fun s1 c1 => (parse_node_spec d s1 c1).2.2)
                (a2._p.length + 1) ((a2.extend x)._p.length + 1) nn none a2 le_rfl
                (extend_length a2 x) (fun _ _ _ => rfl)
              rw [hfc] at he hs ⊢
              have hc := parse_children_local (taoxml_t._parse_node d) x
                (parse_node_local x d) (parse_node_nil d)
                ((a2.extend x)._p.length + 1) nn none a2
              generalize parse_children (taoxml_t._parse_node d)
                ((a2.extend x)._p.length + 1) nn none a2 = c at he hs hc ⊢
              by_cases c5 : c.1 = token.close3
              · have c5b : (c.1 == token.close3) = true := by simpa using c5
                rw [hc c5]
                simp only [c5b, if_true, beq_self_eq_true]
              · have c5b : (c.1 == token.close3) = false := by simpa using c5
                simp only [c5b, if_false, Bool.false_eq_true] at he
                exact absurd rfl he
            · have c4b : (t == token.open2) = false := by simpa using c4
              simp only [c3b, c4b, if_false, Bool.false_eq_true] at he
              exact absurd rfl he
      · have c2b : (r.1 == token.open_) = false := by simpa using c2
        by_cases c3 : r.1 = token.text
        · have c3b : (r.1 == token.text) = true := by simpa using c3
          simp only [c1b, c2b, c3b, if_true, if_false, Bool.false_eq_true] at he hs ⊢
          have hp : r.2._p ≠ [] := by
            rcases hs with hs | hs | ⟨e, hs⟩
            · revert hs
              split_ifs <;> exact id
            · revert hs
              split_ifs <;> intro hs <;> exact absurd rfl hs
            · revert hs
              split_ifs <;> intro hs <;> simp at hs
          rw [h1 (by rw [c3]; decide) (Or.inl hp)]
          simp only [c1b, c2b, c3b, if_true, if_false, Bool.false_eq_true]
          have hx : (r.2.extend x)._tk = r.2._tk := rfl
          have hy : (r.2.extend x)._is_empty = r.2._is_empty := rfl
          rw [hx, hy]
          split_ifs <;> rfl
        · have c3b : (r.1 == token.text) = false := by simpa using c3
          simp only [c1b, c2b, c3b, if_false, Bool.false_eq_true] at he
          exact absurd rfl he

theorem attach_root_extend (node : Option node_base_t) (s : taoxml_t) (x : List Char) :
    attach_root node (s.extend x) = (attach_root node s).extend x := by
  cases node with
  | none => rfl
  | some n =>
    by_cases ht : (n.type == node_type.node) = true <;> simp [attach_root, ht, taoxml_t.extend]

theorem attach_root_not_element (node : Option node_base_t) (s : taoxml_t)
    (h : ¬ ∃ e : element, node = some (node_base_t.node e)) : attach_root node s = s := by
  cases node with
  | none => rfl
  | some n =>
    cases n with
    | node e => exact absurd ⟨e, rfl⟩ h
    | text t => rfl

theorem parse_loop_grows (d f : Nat) (s : taoxml_t) (node : Option node_base_t) :
    s._root._children <+: (parse_loop d f s node).2.2._root._children := by
  obtain ⟨extra, he, -⟩ := parse_loop_root (fun _ => True) d (fun _ _ _ _ _ => trivial) f s node
  rw [he]
  exact List.prefix_append _ _

theorem parse_loop_nil_root (d : Nat) (f : Nat) (s : taoxml_t) (node : Option node_base_t)
    (h : s._p = []) : (parse_loop d f s node).2.2._root = s._root := by
  cases f with
  | zero => rw [parse_loop_zero]
  | succ f =>
    have h1 := parse_node_nil d s node h
    have h2 := (parse_node_spec d s node).1
    rw [parse_loop_step]
    generalize taoxml_t._parse_node d s node = r at h1 h2 ⊢
    have c : ¬ (r.1 = token.close ∨ r.1 = token.close2) := by
      rw [h1]
      decide
    simp only [c, if_false]
    exact h2

theorem parse_loop_keeps_children (d : Nat) (x : List Char) : ∀ (f : Nat) (s : taoxml_t)
    (node : Option node_base_t),
    (parse_loop d f s node).2.2._root._children
      <+: (parse_loop d f (s.extend x) node).2.2._root._children
  | 0, s, node => by
    rw [parse_loop_zero, parse_loop_zero]
    exact List.prefix_refl _
  | f + 1, s, node => by
    have hloc := parse_node_local x d s node
    have hroot := (parse_node_spec d s node).1
    have hgrow := parse_loop_grows d (f + 1) (s.extend x) node
    rw [parse_loop_step] at hgrow ⊢
    rw [parse_loop_step]
    generalize taoxml_t._parse_node d s node = r at hloc hroot ⊢
    by_cases c : r.1 = token.close ∨ r.1 = token.close2
    · have hne : r.1 ≠ token.error := by
        rcases c with c | c <;> rw [c] <;> decide
      simp only [c, if_true]
      by_cases hs : r.2.2._p ≠ [] ∨ r.1 ≠ token.close2
          ∨ ∃ e : element, r.2.1 = some (node_base_t.node e)
      · rw [hloc hne hs]
        simp only [c, if_true]
        rw [attach_root_extend]
        exact parse_loop_keeps_children d x f _ r.2.1
      · have hp : r.2.2._p = [] := by
          by_contra hp
          exact hs (Or.inl hp)
        have hnode : ¬ ∃ e : element, r.2.1 = some (node_base_t.node e) :=
          fun h => hs (Or.inr (Or.inr h))
        rw [attach_root_not_element r.2.1 r.2.2 hnode, parse_loop_nil_root d f r.2.2 r.2.1 hp,
          hroot]
        exact hgrow
    · simp only [c, if_false]
      rw [hroot]
      exact hgrow

theorem parse_keeps_children (t : taoxml_t) (d s : List Char) :
    (t.parse d).2._root._children <+: (t.parse (d ++ s)).2._root._children := by
  rw [parse_fuel t d ((d ++ s).length + 1) ((d ++ s).length + 1)
      (by rw [List.length_append]; omega) (by rw [List.length_append]; omega)]
  have h := parse_loop_keeps_children ((d ++ s).length + 1) s ((d ++ s).length + 1)
    { t with _p := d } none
  exact h

/-- C13: no rollback on error.  For every parser and all inputs `d` and `s`, the
root children after parsing `d` are a prefix of the root children after parsing
`d` followed by `s`: whatever `s` does to the rest of the parse, the elements
attached while reading `d` stay attached, in order.  In particular, for every
`s`, the element `a` is the first child of the root after parsing `<a/>`
followed by `s`. -/
theorem C13_no_rollback_on_error :
    (∀ (t : taoxml_t) (d s : List Char),
      (t.parse d).2._root._children <+: (t.parse (d ++ s)).2._root._children) ∧
    (∀ s : List Char,
      (taoxml_t.ctor.parse (['<', 'a', '/', '>'] ++ s)).2._root._children.head?
        = some (node_base_t.node (node_node_t.ctor.set_tag ['a']))) := by
  refine ⟨parse_keeps_children, ?_⟩
  intro s
  have h := parse_keeps_children taoxml_t.ctor ['<', 'a', '/', '>'] s
  have h1 : (taoxml_t.ctor.parse ['<', 'a', '/', '>']).2._root._children
      = [node_base_t.node (node_node_t.ctor.set_tag ['a'])] := by
    with_unfolding_all rfl
  rw [h1] at h
  obtain ⟨rest, hr⟩ := h
  rw [← hr]
  rfl

end taoxml
